import Mathlib

/-!
# Verification of the sorting-visualizer core (src/app.js)

This file gives a shallow embedding of the seven instrumented sorting
algorithms of `src/app.js` (bubble, selection, insertion, quick, merge,
heap, shell) together with the `startSort` dispatcher, and proves the
specification's testable properties about them.

Modelling conventions:
* The `heights` array is a `List α`; a JS read `heights[i]` is `idx l i`
  (`getD` with the `Inhabited` default — every reachable read is in
  bounds, which is itself one of the verified properties), a JS write
  `heights[i] = v` is `List.set`, and the destructuring swap
  `[a[i],a[j]] = [a[j],a[i]]` is `swapL`.
* The visual/audio side effects are abstracted, exactly as in the
  specification, into an emitted trace of `Step`s: a highlight/sound/delay
  of a comparison becomes `Step.compare`, the pair of `updateBarHeight`
  calls after a destructuring swap becomes `Step.swapS`, a single
  assignment `heights[k] = v` (with its `updateBarHeight`) becomes
  `Step.overwrite k v`, and a `markAsSorted(bars[i])` call becomes
  `Step.markFinal i`.
* JS numeric comparisons are a parameter `Cmp α` of boolean comparators,
  instantiated with `cInt` (genuine integer order, the finite-input case)
  and with `cJS` (JS semantics on possibly-NaN numbers, where every
  comparison involving NaN is false).
* Loop counters that can reach `-1` in JS (`i = low - 1` in `partition`,
  `j = i - 1` in insertion, `heights.length - 1` for empty input) are
  represented by shifted or truncated `Nat`s; at every use site the
  truncated value takes the same branch as the JS value, so the embedding
  is faithful on all inputs.
-/

namespace SortVis

/-- One atomic emitted operation of a run, per the Step data model. -/
inductive Step (α : Type) where
  | compare (i j : Nat)
  | swapS (i j : Nat)
  | overwrite (i : Nat) (v : α)
  | markFinal (i : Nat)
deriving DecidableEq, Repr

/-- Boolean comparators modelling the JS `>`/`<`/`<=` operators on numbers. -/
structure Cmp (α : Type) where
  gtB : α → α → Bool
  ltB : α → α → Bool
  leB : α → α → Bool

/-- JS number values restricted to the two classes the spec distinguishes:
finite values (modelled as integers, as produced by `parseInt` in
`getBarHeights`) and the non-finite `NaN`. -/
inductive JSNum where
  | nan
  | val (x : Int)
deriving DecidableEq, Repr, Inhabited

/-- Comparators on genuine integers (all-finite inputs). -/
def cInt : Cmp Int :=
  { gtB := fun a b => decide (a > b)
    ltB := fun a b => decide (a < b)
    leB := fun a b => decide (a ≤ b) }

/-- JS comparison semantics including `NaN`: any comparison with `NaN`
is false. -/
def cJS : Cmp JSNum :=
  { gtB := fun a b => match a, b with
      | .val x, .val y => decide (x > y)
      | _, _ => false
    ltB := fun a b => match a, b with
      | .val x, .val y => decide (x < y)
      | _, _ => false
    leB := fun a b => match a, b with
      | .val x, .val y => decide (x ≤ y)
      | _, _ => false }

variable {α : Type} [Inhabited α]

/-- A JS array read `heights[i]`. -/
def idx (l : List α) (i : Nat) : α := l.getD i default

/-- The JS destructuring swap `[heights[i], heights[j]] = [heights[j], heights[i]]`. -/
def swapL (l : List α) (i j : Nat) : List α :=
  (l.set i (idx l j)).set j (idx l i)

/-- Replay semantics of one step on a presentation copy: `compare` and
`markFinal` are no-ops, `swapS` and `overwrite` are applied as specified. -/
def applyStep (l : List α) : Step α → List α
  | .compare _ _ => l
  | .swapS i j => swapL l i j
  | .overwrite i v => l.set i v
  | .markFinal _ => l

/-- Replaying a full step sequence against a presentation copy. -/
def replay (l : List α) (s : List (Step α)) : List α :=
  s.foldl applyStep l

/-- The `markAsSorted` cascade loops (end of bubble sort and shell sort):
mark indices `0 .. n-1` in increasing order. -/
def markAll (n : Nat) : List (Step α) :=
  (List.range n).map .markFinal

/-! ## Bubble sort (`bubbleSort`, src/app.js lines 301-345) -/

/-- Inner loop of `bubbleSort`: `for (j = 0; j < heights.length - i - 1; j++)`.
The JS bound `j < n - i - 1` over integers is `j + i + 1 < n` over `Nat`. -/
def bubbleInner (c : Cmp α) (l : List α) (n i j : Nat) :
    List α × List (Step α) :=
  if j + i + 1 < n then
    let p := if c.gtB (idx l j) (idx l (j+1)) then
        (swapL l j (j+1), [Step.swapS j (j+1)])
      else (l, ([] : List (Step α)))
    let r := bubbleInner c p.1 n i (j+1)
    (r.1, Step.compare j (j+1) :: (p.2 ++ r.2))
  else (l, [])
termination_by n - j

/-- Outer loop of `bubbleSort`: `for (i = 0; i < heights.length; i++)`. -/
def bubbleOuter (c : Cmp α) (l : List α) (n i : Nat) :
    List α × List (Step α) :=
  if i < n then
    let p := bubbleInner c l n i 0
    let r := bubbleOuter c p.1 n (i+1)
    (r.1, p.2 ++ r.2)
  else (l, [])
termination_by n - i

/-- `bubbleSort`: passes, then the mark-all-sorted cascade. -/
def bubbleSort (c : Cmp α) (l : List α) : List α × List (Step α) :=
  let n := l.length
  let p := bubbleOuter c l n 0
  (p.1, p.2 ++ markAll n)

/-! ## Selection sort (`selectionSort`, src/app.js lines 350-392) -/

/-- Minimum scan of `selectionSort`: `for (j = i+1; j < heights.length; j++)`
tracking `minIndex`; no mutation, only compares. Returns the final
`minIndex` and the emitted steps. -/
def selScan (c : Cmp α) (l : List α) (n j minIndex : Nat) :
    Nat × List (Step α) :=
  if j < n then
    let m := if c.ltB (idx l j) (idx l minIndex) then j else minIndex
    let r := selScan c l n (j+1) m
    (r.1, Step.compare j minIndex :: r.2)
  else (minIndex, [])
termination_by n - j

/-- Outer loop of `selectionSort`: scan for the minimum, swap it into
position `i` when `minIndex !== i`, then `markAsSorted(bars[i])`. -/
def selOuter (c : Cmp α) (l : List α) (n i : Nat) :
    List α × List (Step α) :=
  if i < n then
    let s := selScan c l n (i+1) i
    let p := if s.1 ≠ i then
        (swapL l i s.1, [Step.swapS i s.1])
      else (l, ([] : List (Step α)))
    let r := selOuter c p.1 n (i+1)
    (r.1, s.2 ++ p.2 ++ [Step.markFinal i] ++ r.2)
  else (l, [])
termination_by n - i

/-- `selectionSort`. -/
def selectionSort (c : Cmp α) (l : List α) : List α × List (Step α) :=
  selOuter c l l.length 0

/-! ## Insertion sort (`insertionSort`, src/app.js lines 397-423)

The JS inner counter `j` runs from `i - 1` down to `-1`; it is represented
here shifted by one as `j1 = j + 1`, so `j1` runs from `i` down to `0` and
the JS writes at `j + 1` are writes at `j1`. -/

/-- Shift loop of `insertionSort`:
`while (j >= 0 && heights[j] > current) { heights[j+1] = heights[j]; j--; }`.
Returns the final array, the final `j1 = j + 1`, and the steps. -/
def insShift (c : Cmp α) (l : List α) (cur : α) (j1 : Nat) :
    List α × Nat × List (Step α) :=
  match j1 with
  | 0 => (l, 0, [])
  | j + 1 =>
    if c.gtB (idx l j) cur then
      let l' := l.set (j+1) (idx l j)
      let r := insShift c l' cur j
      (r.1, r.2.1,
        Step.compare j (j+1) :: Step.overwrite (j+1) (idx l j) :: r.2.2)
    else (l, j + 1, [])

/-- Outer loop of `insertionSort`: `for (i = 1; i < heights.length; i++)`;
after the shift loop, `heights[j+1] = current` and `markAsSorted(bars[j+1])`. -/
def insOuter (c : Cmp α) (l : List α) (n i : Nat) :
    List α × List (Step α) :=
  if i < n then
    let cur := idx l i
    let s := insShift c l cur i
    let l' := s.1.set s.2.1 cur
    let r := insOuter c l' n (i+1)
    (r.1, s.2.2 ++ [Step.overwrite s.2.1 cur, Step.markFinal s.2.1] ++ r.2)
  else (l, [])
termination_by n - i

/-- `insertionSort`. -/
def insertionSort (c : Cmp α) (l : List α) : List α × List (Step α) :=
  insOuter c l l.length 1

/-! ## Quick sort (`quickSort`/`quickSortHelper`/`partition`,
src/app.js lines 428-482)

The JS counter `i` of `partition` starts at `low - 1` (possibly `-1`) and
is used only after being incremented, so it is represented shifted by one
as `i1 = i + 1`, starting at `low`.  `quickSortHelper`'s `high` argument
can be `-1` in JS (empty input, or `pi - 1` with `pi = 0`); under `Nat`
truncation it becomes `0` and the guard `low < high` takes the same
(false) branch. -/

/-- Partition loop: `for (j = low; j < high; j++)` with
`if (heights[j] <= pivot) { i++; if (i !== j) swap(i, j); }`.
Returns the array, the final `i1 = i + 1`, and the steps. -/
def partLoop (c : Cmp α) (l : List α) (high : Nat) (pivot : α) (i1 j : Nat) :
    List α × Nat × List (Step α) :=
  if j < high then
    if c.leB (idx l j) pivot then
      let p := if i1 ≠ j then
          (swapL l i1 j, [Step.swapS i1 j])
        else (l, ([] : List (Step α)))
      let r := partLoop c p.1 high pivot (i1+1) (j+1)
      (r.1, r.2.1, Step.compare j high :: (p.2 ++ r.2.2))
    else
      let r := partLoop c l high pivot i1 (j+1)
      (r.1, r.2.1, Step.compare j high :: r.2.2)
  else (l, i1, [])
termination_by high - j

/-- `partition`: pivot is `heights[high]`; after the loop the pivot is
swapped to position `i + 1` (unconditionally, even onto itself) and that
position is marked sorted.  Returns the array, the pivot position
`pi = i + 1`, and the steps. -/
def partition (c : Cmp α) (l : List α) (low high : Nat) :
    List α × Nat × List (Step α) :=
  let pivot := idx l high
  let r := partLoop c l high pivot low low
  (swapL r.1 r.2.1 high, r.2.1,
    r.2.2 ++ [Step.swapS r.2.1 high, Step.markFinal r.2.1])

/-- `quickSortHelper`: recurse on `(low, pi-1)` and `(pi+1, high)` when
`low < high`. -/
def quickSortHelper (c : Cmp α) (l : List α) (low high : Nat) :
    List α × List (Step α) :=
  if h : low < high then
    let p := partition c l low high
    let r1 := quickSortHelper c p.1 low (p.2.1 - 1)
    let r2 := quickSortHelper c r1.1 (p.2.1 + 1) high
    (r2.1, p.2.2 ++ r1.2 ++ r2.2)
  else (l, [])
termination_by high - low
decreasing_by
  all_goals
    have key : ∀ k (lx : List α) (pv : α) i1 j, high - j ≤ k →
        i1 ≤ (partLoop c lx high pv i1 j).2.1 ∧
          (partLoop c lx high pv i1 j).2.1 ≤ i1 + (high - j) := by
      intro k
      induction k with
      | zero =>
        intro lx pv i1 j hk
        have hj : ¬ j < high := by omega
        rw [partLoop]
        simp only [if_neg hj]
        exact ⟨by omega, by omega⟩
      | succ k ih =>
        intro lx pv i1 j hk
        rw [partLoop]
        by_cases hj : j < high
        · by_cases hle : c.leB (idx lx j) pv
          · by_cases hij : i1 = j
            · have h2 := ih lx pv (i1+1) (j+1) (by omega)
              simp only [if_pos hj, if_pos hle, hij, ne_eq, not_true_eq_false,
                if_false, ite_self]
              simp only [hij] at h2
              exact ⟨by omega, by omega⟩
            · have h2 := ih (swapL lx i1 j) pv (i1+1) (j+1) (by omega)
              simp only [if_pos hj, if_pos hle, ne_eq, hij, not_false_eq_true,
                if_true]
              exact ⟨by omega, by omega⟩
          · have h2 := ih lx pv i1 (j+1) (by omega)
            simp only [if_pos hj, if_neg hle]
            exact ⟨by omega, by omega⟩
        · simp only [if_neg hj]
          exact ⟨by omega, by omega⟩
  all_goals
    have hb := key (high - low) l (idx l high) low low le_rfl
    simp only [partition]
    omega

/-- `quickSort` entry point: `quickSortHelper(heights, bars, 0, heights.length - 1)`. -/
def quickSort (c : Cmp α) (l : List α) : List α × List (Step α) :=
  quickSortHelper c l 0 (l.length - 1)

/-! ## Merge sort (`mergeSort`/`mergeSortHelper`/`merge`,
src/app.js lines 487-541) -/

/-- JS `heights.slice(a, b)`: the elements at indices `[a, b)`. -/
def sliceL (l : List α) (a b : Nat) : List α := (l.take b).drop a

/-- Main merge loop: `while (i < leftArray.length && j < rightArray.length)`.
The source highlights the single write cursor `bars[k]` before each
comparison of the two buffer heads, recorded here as `compare k k`.
Returns the array, final `(i, j, k)`, and steps. -/
def mergeLoop (c : Cmp α) (l : List α) (la ra : List α) (i j k : Nat) :
    List α × (Nat × Nat × Nat) × List (Step α) :=
  if i < la.length ∧ j < ra.length then
    if c.leB (idx la i) (idx ra j) then
      let l' := l.set k (idx la i)
      let r := mergeLoop c l' la ra (i+1) j (k+1)
      (r.1, r.2.1,
        Step.compare k k :: Step.overwrite k (idx la i) ::
          Step.markFinal k :: r.2.2)
    else
      let l' := l.set k (idx ra j)
      let r := mergeLoop c l' la ra i (j+1) (k+1)
      (r.1, r.2.1,
        Step.compare k k :: Step.overwrite k (idx ra j) ::
          Step.markFinal k :: r.2.2)
  else (l, (i, j, k), [])
termination_by (la.length - i) + (ra.length - j)

/-- First drain loop: `while (i < leftArray.length)`. -/
def mergeDrainL (l : List α) (la : List α) (i k : Nat) :
    List α × List (Step α) :=
  if i < la.length then
    let l' := l.set k (idx la i)
    let r := mergeDrainL l' la (i+1) (k+1)
    (r.1, Step.overwrite k (idx la i) :: Step.markFinal k :: r.2)
  else (l, [])
termination_by la.length - i

/-- Second drain loop: `while (j < rightArray.length)`. -/
def mergeDrainR (l : List α) (ra : List α) (j k : Nat) :
    List α × List (Step α) :=
  if j < ra.length then
    let l' := l.set k (idx ra j)
    let r := mergeDrainR l' ra (j+1) (k+1)
    (r.1, Step.overwrite k (idx ra j) :: Step.markFinal k :: r.2)
  else (l, [])
termination_by ra.length - j

/-- `merge`: copy `slice(left, mid+1)` and `slice(mid+1, right+1)` into
buffers, then the three write-back loops starting at `k = left`. -/
def merge (c : Cmp α) (l : List α) (left mid right : Nat) :
    List α × List (Step α) :=
  let la := sliceL l left (mid + 1)
  let ra := sliceL l (mid + 1) (right + 1)
  let m := mergeLoop c l la ra 0 0 left
  let d1 := mergeDrainL m.1 la m.2.1.1 m.2.1.2.2
  let d2 := mergeDrainR d1.1 ra m.2.1.2.1
    (m.2.1.2.2 + (la.length - m.2.1.1))
  (d2.1, m.2.2 ++ d1.2 ++ d2.2)

/-- `mergeSortHelper`: split at `mid = floor((left+right)/2)` while
`left < right`.  (JS `right` can be `-1` only for empty input, where the
guard is false both in JS and under `Nat` truncation.) -/
def mergeSortHelper (c : Cmp α) (l : List α) (left right : Nat) :
    List α × List (Step α) :=
  if h : left < right then
    let mid := (left + right) / 2
    let r1 := mergeSortHelper c l left mid
    let r2 := mergeSortHelper c r1.1 (mid + 1) right
    let m := merge c r2.1 left mid right
    (m.1, r1.2 ++ r2.2 ++ m.2)
  else (l, [])
termination_by right - left
decreasing_by
  · omega
  · omega

/-- `mergeSort` entry point. -/
def mergeSort (c : Cmp α) (l : List α) : List α × List (Step α) :=
  mergeSortHelper c l 0 (l.length - 1)

/-! ## Heap sort (`heapSort`/`heapify`, src/app.js lines 546-599) -/

/-- The `largest` computation of `heapify` (src/app.js lines 572-582):
`largest = i`, promote to the left child `2i+1` and then the right child
`2i+2` when in range and strictly greater. -/
def largestIdx (c : Cmp α) (l : List α) (n i : Nat) : Nat :=
  let lc := 2 * i + 1
  let rc := 2 * i + 2
  let lg1 := if lc < n then (if c.gtB (idx l lc) (idx l i) then lc else i) else i
  if rc < n then (if c.gtB (idx l rc) (idx l lg1) then rc else lg1) else lg1

/-- `heapify(heights, bars, n, i)`: sift-down at `i` within heap size `n`.
The source highlights `bars[i]`/`bars[largest]` only when a swap happens,
recorded as one `compare i largest`. -/
def heapify (c : Cmp α) (l : List α) (n i : Nat) : List α × List (Step α) :=
  if h : largestIdx c l n i ≠ i then
    let lg := largestIdx c l n i
    let l' := swapL l i lg
    let r := heapify c l' n lg
    (r.1, Step.compare i lg :: Step.swapS i lg :: r.2)
  else (l, [])
termination_by n - i
decreasing_by
  have hb : largestIdx c l n i = i ∨
      (i < largestIdx c l n i ∧ largestIdx c l n i < n) := by
    unfold largestIdx
    simp only []
    split_ifs <;> omega
  rcases hb with h1 | h1
  · exact absurd h1 h
  · omega

/-- Heap-build loop of `heapSort`:
`for (i = floor(n/2) - 1; i >= 0; i--) heapify(n, i)`; `buildLoop k`
processes `i = k-1, k-2, …, 0`. -/
def buildLoop (c : Cmp α) (l : List α) (n k : Nat) :
    List α × List (Step α) :=
  match k with
  | 0 => (l, [])
  | k + 1 =>
    let h := heapify c l n k
    let r := buildLoop c h.1 n k
    (r.1, h.2 ++ r.2)

/-- Extract loop of `heapSort`: `for (i = n-1; i > 0; i--)`: swap root with
`heights[i]`, `markAsSorted(bars[i])`, re-heapify size `i` at the root. -/
def extractLoop (c : Cmp α) (l : List α) (i : Nat) :
    List α × List (Step α) :=
  match i with
  | 0 => (l, [])
  | m + 1 =>
    let l1 := swapL l 0 (m+1)
    let h := heapify c l1 (m+1) 0
    let r := extractLoop c h.1 m
    (r.1, Step.swapS 0 (m+1) :: Step.markFinal (m+1) :: (h.2 ++ r.2))

/-- `heapSort`: build the max heap, run the extract loop from
`heights.length - 1`, then the unconditional final `markAsSorted(bars[0])`
(emitted even when the array is empty). -/
def heapSort (c : Cmp α) (l : List α) : List α × List (Step α) :=
  let n := l.length
  let b := buildLoop c l n (n / 2)
  let e := extractLoop c b.1 (n - 1)
  (e.1, b.2 ++ e.2 ++ [Step.markFinal 0])

/-! ## Shell sort (`shellSort`, src/app.js lines 604-639) -/

/-- Gapped shift loop of `shellSort`:
`for (j = i; j >= gap && heights[j-gap] > temp; j -= gap)`.
The `0 < gap` conjunct is invariant at every call site (the gap loop runs
only while `gap > 0`) and makes the recursion well-founded on all inputs.
Returns the array, the final `j`, and the steps. -/
def shellInner (c : Cmp α) (l : List α) (gap : Nat) (temp : α) (j : Nat) :
    List α × Nat × List (Step α) :=
  if h : 0 < gap ∧ gap ≤ j then
    if c.gtB (idx l (j - gap)) temp then
      let l' := l.set j (idx l (j - gap))
      let r := shellInner c l' gap temp (j - gap)
      (r.1, r.2.1,
        Step.compare (j - gap) j :: Step.overwrite j (idx l (j - gap)) :: r.2.2)
    else (l, j, [])
  else (l, j, [])
termination_by j

/-- Middle loop of `shellSort`: `for (i = gap; i < n; i++)`; after the
shift loop, `heights[j] = temp`. -/
def shellI (c : Cmp α) (l : List α) (n gap i : Nat) :
    List α × List (Step α) :=
  if i < n then
    let temp := idx l i
    let s := shellInner c l gap temp i
    let l' := s.1.set s.2.1 temp
    let r := shellI c l' n gap (i+1)
    (r.1, s.2.2 ++ [Step.overwrite s.2.1 temp] ++ r.2)
  else (l, [])
termination_by n - i

/-- Gap loop of `shellSort`:
`for (gap = floor(n/2); gap > 0; gap = floor(gap/2))`. -/
def shellGap (c : Cmp α) (l : List α) (n gap : Nat) :
    List α × List (Step α) :=
  if h : 0 < gap then
    let p := shellI c l n gap gap
    let r := shellGap c p.1 n (gap / 2)
    (r.1, p.2 ++ r.2)
  else (l, [])
termination_by gap

/-- `shellSort`: the gap passes, then the mark-all-sorted cascade. -/
def shellSort (c : Cmp α) (l : List α) : List α × List (Step α) :=
  let n := l.length
  let p := shellGap c l n (n / 2)
  (p.1, p.2 ++ markAll n)

/-! ## Dispatcher (`startSort`, src/app.js lines 648-702)

The `switch` has no `default` case: an unrecognized algorithm name runs
no algorithm, raises no error, and leaves the bars untouched. -/

/-- `startSort`: dispatch on the algorithm name; unknown names fall
through the `switch` and do nothing. -/
def startSort (c : Cmp α) (algorithm : String) (l : List α) :
    List α × List (Step α) :=
  match algorithm with
  | "bubble" => bubbleSort c l
  | "selection" => selectionSort c l
  | "insertion" => insertionSort c l
  | "quick" => quickSort c l
  | "merge" => mergeSort c l
  | "heap" => heapSort c l
  | "shell" => shellSort c l
  | _ => (l, [])


/-! ## Step-sequence observations -/

/-- Is a step a `Compare`? -/
def isCompare : Step α → Bool
  | .compare _ _ => true
  | _ => false

/-- The indices of the `MarkFinal` steps of a trace, in emission order. -/
def marks (s : List (Step α)) : List Nat :=
  s.filterMap fun st => match st with
    | .markFinal i => some i
    | _ => none

/-- The functional merge of the two buffers, following exactly the
comparison `leftArray[i] <= rightArray[j]` of the loop. -/
def mergeFn (c : Cmp α) : List α → List α → List α
  | [], ra => ra
  | a :: la, [] => a :: la
  | a :: la, b :: ra =>
    if c.leB a b then a :: mergeFn c la (b :: ra)
    else b :: mergeFn c (a :: la) ra
termination_by la ra => la.length + ra.length

/-- The composition of the three write-back loops of `merge`, starting
from buffer cursors `i`, `j` and write cursor `k` (exactly the body of
`merge` after the slices are taken). -/
def mergeWrite (c : Cmp α) (l la ra : List α) (i j k : Nat) : List α :=
  let m := mergeLoop c l la ra i j k
  let d1 := mergeDrainL m.1 la m.2.1.1 m.2.1.2.2
  (mergeDrainR d1.1 ra m.2.1.2.1 (m.2.1.2.2 + (la.length - m.2.1.1))).1

/-- The heights array is in non-decreasing order. -/
def NonDecreasing (l : List Int) : Prop :=
  ∀ p q, p ≤ q → q < l.length → idx l p ≤ idx l q

/-- The prefix of the first `m` positions is in non-decreasing order. -/
def sortedBelow (l : List Int) (m : Nat) : Prop :=
  ∀ p q, p ≤ q → q < m → q < l.length → idx l p ≤ idx l q

/-- The inclusive index segment `[a, b]` is in non-decreasing order. -/
def sortedSeg (l : List Int) (a b : Nat) : Prop :=
  ∀ p q, a ≤ p → p ≤ q → q ≤ b → q < l.length → idx l p ≤ idx l q

/-- `j` lies in the subtree rooted at `i` of the implicit binary heap
(parent of `j` is `(j-1)/2`). -/
def inSub (i j : Nat) : Bool :=
  if j ≤ i then j == i
  else inSub i ((j - 1) / 2)
termination_by j
decreasing_by omega

/-- Parent-dominance holds at every node of the subtree of `i`
(within heap size `n`), except at the root `i` itself. -/
def heapAt (l : List Int) (n i : Nat) : Prop :=
  ∀ j, j < n → inSub i j = true → j ≠ i → idx l j ≤ idx l ((j - 1) / 2)

/-- Parent-dominance holds for every pair whose parent index is `≥ k`. -/
def heapAbove (l : List Int) (n k : Nat) : Prop :=
  ∀ j, 0 < j → j < n → k ≤ (j - 1) / 2 → idx l j ≤ idx l ((j - 1) / 2)

/-! ## Explicit-fuel mirrors of every non-structural loop and recursion.

Each `...F` function repeats the corresponding loop with a structural
fuel argument and returns `none` when the fuel runs out; the theorems
below show that the explicit fuel `measure + 1` always suffices and
reproduces the total function, i.e. every loop and recursion of the
source completes within an explicit bound. -/

def bubbleInnerF (c : Cmp α) (fuel : Nat) (l : List α) (n i j : Nat) :
    Option (List α × List (Step α)) :=
  match fuel with
  | 0 => none
  | fuel + 1 =>
    if j + i + 1 < n then
      let p := if c.gtB (idx l j) (idx l (j+1)) then
          (swapL l j (j+1), [Step.swapS j (j+1)])
        else (l, ([] : List (Step α)))
      match bubbleInnerF c fuel p.1 n i (j+1) with
      | none => none
      | some r => some (r.1, Step.compare j (j+1) :: (p.2 ++ r.2))
    else some (l, [])

def bubbleOuterF (c : Cmp α) (fuel : Nat) (l : List α) (n i : Nat) :
    Option (List α × List (Step α)) :=
  match fuel with
  | 0 => none
  | fuel + 1 =>
    if i < n then
      let p := bubbleInner c l n i 0
      match bubbleOuterF c fuel p.1 n (i+1) with
      | none => none
      | some r => some (r.1, p.2 ++ r.2)
    else some (l, [])

def selScanF (c : Cmp α) (fuel : Nat) (l : List α) (n j minIndex : Nat) :
    Option (Nat × List (Step α)) :=
  match fuel with
  | 0 => none
  | fuel + 1 =>
    if j < n then
      let m := if c.ltB (idx l j) (idx l minIndex) then j else minIndex
      match selScanF c fuel l n (j+1) m with
      | none => none
      | some r => some (r.1, Step.compare j minIndex :: r.2)
    else some (minIndex, [])

def selOuterF (c : Cmp α) (fuel : Nat) (l : List α) (n i : Nat) :
    Option (List α × List (Step α)) :=
  match fuel with
  | 0 => none
  | fuel + 1 =>
    if i < n then
      let s := selScan c l n (i+1) i
      let p := if s.1 ≠ i then
          (swapL l i s.1, [Step.swapS i s.1])
        else (l, ([] : List (Step α)))
      match selOuterF c fuel p.1 n (i+1) with
      | none => none
      | some r => some (r.1, s.2 ++ p.2 ++ [Step.markFinal i] ++ r.2)
    else some (l, [])

def insOuterF (c : Cmp α) (fuel : Nat) (l : List α) (n i : Nat) :
    Option (List α × List (Step α)) :=
  match fuel with
  | 0 => none
  | fuel + 1 =>
    if i < n then
      let cur := idx l i
      let s := insShift c l cur i
      let l' := s.1.set s.2.1 cur
      match insOuterF c fuel l' n (i+1) with
      | none => none
      | some r =>
        some (r.1, s.2.2 ++ [Step.overwrite s.2.1 cur,
          Step.markFinal s.2.1] ++ r.2)
    else some (l, [])

def partLoopF (c : Cmp α) (fuel : Nat) (l : List α) (high : Nat)
    (pivot : α) (i1 j : Nat) : Option (List α × Nat × List (Step α)) :=
  match fuel with
  | 0 => none
  | fuel + 1 =>
    if j < high then
      if c.leB (idx l j) pivot then
        let p := if i1 ≠ j then
            (swapL l i1 j, [Step.swapS i1 j])
          else (l, ([] : List (Step α)))
        match partLoopF c fuel p.1 high pivot (i1+1) (j+1) with
        | none => none
        | some r => some (r.1, r.2.1, Step.compare j high :: (p.2 ++ r.2.2))
      else
        match partLoopF c fuel l high pivot i1 (j+1) with
        | none => none
        | some r => some (r.1, r.2.1, Step.compare j high :: r.2.2)
    else some (l, i1, [])

def quickSortHelperF (c : Cmp α) (fuel : Nat) (l : List α)
    (low high : Nat) : Option (List α × List (Step α)) :=
  match fuel with
  | 0 => none
  | fuel + 1 =>
    if low < high then
      let p := partition c l low high
      match quickSortHelperF c fuel p.1 low (p.2.1 - 1) with
      | none => none
      | some r1 =>
        match quickSortHelperF c fuel r1.1 (p.2.1 + 1) high with
        | none => none
        | some r2 => some (r2.1, p.2.2 ++ r1.2 ++ r2.2)
    else some (l, [])

def mergeLoopF (c : Cmp α) (fuel : Nat) (l : List α) (la ra : List α)
    (i j k : Nat) :
    Option (List α × (Nat × Nat × Nat) × List (Step α)) :=
  match fuel with
  | 0 => none
  | fuel + 1 =>
    if i < la.length ∧ j < ra.length then
      if c.leB (idx la i) (idx ra j) then
        let l' := l.set k (idx la i)
        match mergeLoopF c fuel l' la ra (i+1) j (k+1) with
        | none => none
        | some r =>
          some (r.1, r.2.1,
            Step.compare k k :: Step.overwrite k (idx la i) ::
              Step.markFinal k :: r.2.2)
      else
        let l' := l.set k (idx ra j)
        match mergeLoopF c fuel l' la ra i (j+1) (k+1) with
        | none => none
        | some r =>
          some (r.1, r.2.1,
            Step.compare k k :: Step.overwrite k (idx ra j) ::
              Step.markFinal k :: r.2.2)
    else some (l, (i, j, k), [])

def mergeDrainLF (fuel : Nat) (l : List α) (la : List α) (i k : Nat) :
    Option (List α × List (Step α)) :=
  match fuel with
  | 0 => none
  | fuel + 1 =>
    if i < la.length then
      let l' := l.set k (idx la i)
      match mergeDrainLF fuel l' la (i+1) (k+1) with
      | none => none
      | some r => some (r.1, Step.overwrite k (idx la i) ::
          Step.markFinal k :: r.2)
    else some (l, [])

def mergeDrainRF (fuel : Nat) (l : List α) (ra : List α) (j k : Nat) :
    Option (List α × List (Step α)) :=
  match fuel with
  | 0 => none
  | fuel + 1 =>
    if j < ra.length then
      let l' := l.set k (idx ra j)
      match mergeDrainRF fuel l' ra (j+1) (k+1) with
      | none => none
      | some r => some (r.1, Step.overwrite k (idx ra j) ::
          Step.markFinal k :: r.2)
    else some (l, [])

def mergeSortHelperF (c : Cmp α) (fuel : Nat) (l : List α)
    (left right : Nat) : Option (List α × List (Step α)) :=
  match fuel with
  | 0 => none
  | fuel + 1 =>
    if left < right then
      let mid := (left + right) / 2
      match mergeSortHelperF c fuel l left mid with
      | none => none
      | some r1 =>
        match mergeSortHelperF c fuel r1.1 (mid + 1) right with
        | none => none
        | some r2 =>
          let m := merge c r2.1 left mid right
          some (m.1, r1.2 ++ r2.2 ++ m.2)
    else some (l, [])

def heapifyF (c : Cmp α) (fuel : Nat) (l : List α) (n i : Nat) :
    Option (List α × List (Step α)) :=
  match fuel with
  | 0 => none
  | fuel + 1 =>
    if largestIdx c l n i ≠ i then
      let lg := largestIdx c l n i
      let l' := swapL l i lg
      match heapifyF c fuel l' n lg with
      | none => none
      | some r => some (r.1, Step.compare i lg :: Step.swapS i lg :: r.2)
    else some (l, [])

def shellInnerF (c : Cmp α) (fuel : Nat) (l : List α) (gap : Nat)
    (temp : α) (j : Nat) : Option (List α × Nat × List (Step α)) :=
  match fuel with
  | 0 => none
  | fuel + 1 =>
    if 0 < gap ∧ gap ≤ j then
      if c.gtB (idx l (j - gap)) temp then
        let l' := l.set j (idx l (j - gap))
        match shellInnerF c fuel l' gap temp (j - gap) with
        | none => none
        | some r =>
          some (r.1, r.2.1,
            Step.compare (j - gap) j ::
              Step.overwrite j (idx l (j - gap)) :: r.2.2)
      else some (l, j, [])
    else some (l, j, [])

def shellIF (c : Cmp α) (fuel : Nat) (l : List α) (n gap i : Nat) :
    Option (List α × List (Step α)) :=
  match fuel with
  | 0 => none
  | fuel + 1 =>
    if i < n then
      let temp := idx l i
      let s := shellInner c l gap temp i
      let l' := s.1.set s.2.1 temp
      match shellIF c fuel l' n gap (i+1) with
      | none => none
      | some r => some (r.1, s.2.2 ++ [Step.overwrite s.2.1 temp] ++ r.2)
    else some (l, [])

def shellGapF (c : Cmp α) (fuel : Nat) (l : List α) (n gap : Nat) :
    Option (List α × List (Step α)) :=
  match fuel with
  | 0 => none
  | fuel + 1 =>
    if 0 < gap then
      let p := shellI c l n gap gap
      match shellGapF c fuel p.1 n (gap / 2) with
      | none => none
      | some r => some (r.1, p.2 ++ r.2)
    else some (l, [])

/-! ## Loop-counter bounds used by later proofs -/

theorem partLoop_i1_le (c : Cmp α) (high : Nat) (pivot : α) :
    ∀ k l i1 j, high - j ≤ k → i1 ≤ (partLoop c l high pivot i1 j).2.1 ∧
      (partLoop c l high pivot i1 j).2.1 ≤ i1 + (high - j) := by
  intro k
  induction k with
  | zero =>
    intro l i1 j hk
    have hj : ¬ j < high := by omega
    rw [partLoop]
    simp only [if_neg hj]
    exact ⟨by omega, by omega⟩
  | succ k ih =>
    intro l i1 j hk
    rw [partLoop]
    by_cases hj : j < high
    · by_cases hle : c.leB (idx l j) pivot
      · by_cases hij : i1 = j
        · have h := ih l (i1+1) (j+1) (by omega)
          simp only [if_pos hj, if_pos hle, hij, ne_eq, not_true_eq_false,
            if_false, ite_self]
          simp only [hij] at h
          exact ⟨by omega, by omega⟩
        · have h := ih (swapL l i1 j) (i1+1) (j+1) (by omega)
          simp only [if_pos hj, if_pos hle, ne_eq, hij, not_false_eq_true,
            if_true]
          exact ⟨by omega, by omega⟩
      · have h := ih l i1 (j+1) (by omega)
        simp only [if_pos hj, if_neg hle]
        exact ⟨by omega, by omega⟩
    · simp only [if_neg hj]
      exact ⟨by omega, by omega⟩

theorem partition_pi_bounds (c : Cmp α) (l : List α) (low high : Nat) :
    low ≤ (partition c l low high).2.1 ∧
      (partition c l low high).2.1 ≤ low + (high - low) := by
  have h := partLoop_i1_le c high (idx l high) (high - low) l low low le_rfl
  simpa [partition] using h

theorem largestIdx_bounds (c : Cmp α) (l : List α) (n i : Nat) :
    largestIdx c l n i = i ∨
      (i < largestIdx c l n i ∧ largestIdx c l n i < n) := by
  unfold largestIdx
  simp only []
  split_ifs <;> omega

/-! ## Basic facts about reads, writes and swaps -/

theorem idx_eq_getElem (l : List α) (i : Nat) (h : i < l.length) :
    idx l i = l[i] := by
  simp [idx, List.getD_eq_getElem?_getD, List.getElem?_eq_getElem h]

theorem ext_idx {l1 l2 : List α} (hlen : l1.length = l2.length)
    (h : ∀ i, i < l1.length → idx l1 i = idx l2 i) : l1 = l2 := by
  refine List.ext_getElem hlen ?_
  intro n h1 h2
  have := h n h1
  rwa [idx_eq_getElem l1 n h1, idx_eq_getElem l2 n h2] at this

@[simp] theorem idx_set_self {l : List α} {i : Nat} (h : i < l.length)
    (v : α) : idx (l.set i v) i = v := by
  simp [idx, List.getD_eq_getElem?_getD, List.getElem?_set_self h]

theorem idx_set_ne {l : List α} {i j : Nat} (h : i ≠ j) (v : α) :
    idx (l.set i v) j = idx l j := by
  simp [idx, List.getD_eq_getElem?_getD, List.getElem?_set_ne h]

@[simp] theorem length_swapL (l : List α) (i j : Nat) :
    (swapL l i j).length = l.length := by
  simp [swapL]

theorem idx_swapL_left {l : List α} {i j : Nat} (hi : i < l.length)
    (hj : j < l.length) : idx (swapL l i j) i = idx l j := by
  unfold swapL
  by_cases hij : j = i
  · subst hij; simp [hj]
  · rw [idx_set_ne hij, idx_set_self hi]

theorem idx_swapL_right {l : List α} {i j : Nat} (hj : j < l.length) :
    idx (swapL l i j) j = idx l i := by
  unfold swapL
  rw [idx_set_self (by simpa using hj)]

theorem idx_swapL_other {l : List α} {i j k : Nat} (hik : i ≠ k)
    (hjk : j ≠ k) : idx (swapL l i j) k = idx l k := by
  unfold swapL
  rw [idx_set_ne hjk, idx_set_ne hik]

theorem set_idx_self {l : List α} {i : Nat} (h : i < l.length) :
    l.set i (idx l i) = l := by
  refine ext_idx (by simp) ?_
  intro k hk
  by_cases hik : i = k
  · subst hik; rw [idx_set_self (by simpa using h)]
  · exact idx_set_ne hik _

theorem swapL_self {l : List α} {i : Nat} (h : i < l.length) :
    swapL l i i = l := by
  unfold swapL
  rw [set_idx_self h]
  exact set_idx_self h

theorem count_set_idx [DecidableEq α] (a v : α) :
    ∀ (l : List α) (i : Nat), i < l.length →
      List.count a (l.set i v) + (if idx l i = a then 1 else 0)
        = List.count a l + (if v = a then 1 else 0) := by
  intro l
  induction l with
  | nil => intro i h; simp at h
  | cons x xs ih =>
    intro i h
    cases i with
    | zero =>
      simp only [List.set_cons_zero, idx, List.getD_cons_zero,
        List.count_cons]
      by_cases hx : x = a <;> by_cases hv : v = a <;>
        simp [hx, hv]
    | succ i =>
      have hi : i < xs.length := by simpa using h
      have hrec := ih i hi
      simp only [List.set_cons_succ, idx, List.getD_cons_succ,
        List.count_cons]
      simp only [idx] at hrec
      omega

theorem swapL_perm [DecidableEq α] {l : List α} {i j : Nat}
    (hi : i < l.length) (hj : j < l.length) : (swapL l i j).Perm l := by
  rcases eq_or_ne i j with rfl | hij
  · rw [swapL_self hi]
  · rw [List.perm_iff_count]
    intro a
    have hj' : j < (l.set i (idx l j)).length := by simpa using hj
    have h1 := count_set_idx a (idx l j) l i hi
    have h2 := count_set_idx a (idx l i) (l.set i (idx l j)) j hj'
    rw [idx_set_ne hij] at h2
    show List.count a ((l.set i (idx l j)).set j (idx l i)) = List.count a l
    omega

/-- The key rewriting step of the insertion/shell shift loops: writing
`l[b] = l[a]` and then `v` into slot `a` is the same list as writing `v`
into slot `b` and swapping `a` with `b`. -/
theorem set_set_eq_swap_set {l : List α} {a b : Nat} (hab : a ≠ b)
    (ha : a < l.length) (hb : b < l.length) (v : α) :
    (l.set b (idx l a)).set a v = swapL (l.set b v) a b := by
  refine ext_idx (by simp) ?_
  intro k hk
  by_cases hka : k = a
  · subst hka
    rw [idx_set_self (by simpa using ha),
      idx_swapL_left (by simpa using ha) (by simpa using hb),
      idx_set_self hb]
  · rw [idx_set_ne (fun h => hka h.symm)]
    by_cases hkb : k = b
    · subst hkb
      rw [idx_set_self hb, idx_swapL_right (by simpa using hb),
        idx_set_ne (fun h => hab h.symm)]
    · rw [idx_set_ne (fun h => hkb h.symm),
        idx_swapL_other (fun h => hka h.symm) (fun h => hkb h.symm),
        idx_set_ne (fun h => hkb h.symm)]

/-! ## Replay facts -/

@[simp] theorem replay_nil (l : List α) : replay l [] = l := rfl

@[simp] theorem replay_cons (l : List α) (st : Step α) (s : List (Step α)) :
    replay l (st :: s) = replay (applyStep l st) s := rfl

@[simp] theorem replay_append (l : List α) (s1 s2 : List (Step α)) :
    replay l (s1 ++ s2) = replay (replay l s1) s2 := by
  simp [replay, List.foldl_append]

@[simp] theorem replay_markAll (l : List α) (n : Nat) :
    replay l (markAll n) = l := by
  unfold markAll replay
  induction (List.range n) generalizing l with
  | nil => rfl
  | cons a t ih => simpa [applyStep] using ih l

/-! ## Length preservation: every algorithm writes in place -/

@[simp] theorem length_applyStep (l : List α) (st : Step α) :
    (applyStep l st).length = l.length := by
  cases st <;> simp [applyStep]


@[simp] theorem length_bubbleInner (c : Cmp α) :
    ∀ l n i j, ((bubbleInner c l n i j).1).length = l.length := by
  intro l n i j
  induction l, n, i, j using bubbleInner.induct c with
  | case1 l n i j hlt p ih =>
    rw [bubbleInner, if_pos hlt]
    unfold_let p at ih
    split_ifs at ih ⊢ <;> simp_all
  | case2 l n i j hlt =>
    rw [bubbleInner, if_neg hlt]

@[simp] theorem length_bubbleOuter (c : Cmp α) :
    ∀ l n i, ((bubbleOuter c l n i).1).length = l.length := by
  intro l n i
  induction l, n, i using bubbleOuter.induct c with
  | case1 l n i hlt p ih =>
    rw [bubbleOuter, if_pos hlt]
    unfold_let p at ih
    simp_all
  | case2 l n i hlt =>
    rw [bubbleOuter, if_neg hlt]

@[simp] theorem length_bubbleSort (c : Cmp α) (l : List α) :
    ((bubbleSort c l).1).length = l.length := by
  simp [bubbleSort]

@[simp] theorem length_selOuter (c : Cmp α) :
    ∀ l n i, ((selOuter c l n i).1).length = l.length := by
  intro l n i
  induction l, n, i using selOuter.induct c with
  | case1 l n i hlt s p ih =>
    rw [selOuter, if_pos hlt]
    unfold_let p s at ih
    split_ifs at ih ⊢ <;> simp_all
  | case2 l n i hlt =>
    rw [selOuter, if_neg hlt]

@[simp] theorem length_selectionSort (c : Cmp α) (l : List α) :
    ((selectionSort c l).1).length = l.length := by
  simp [selectionSort]

@[simp] theorem length_insShift (c : Cmp α) :
    ∀ l cur j1, ((insShift c l cur j1).1).length = l.length := by
  intro l cur j1
  induction l, cur, j1 using insShift.induct c with
  | case1 l cur => simp [insShift]
  | case2 l cur j hgt l' ih =>
    rw [insShift, if_pos hgt]
    unfold_let l' at ih
    simp_all
  | case3 l cur j hgt =>
    rw [insShift, if_neg hgt]

@[simp] theorem length_insOuter (c : Cmp α) :
    ∀ l n i, ((insOuter c l n i).1).length = l.length := by
  intro l n i
  induction l, n, i using insOuter.induct c with
  | case1 l n i hlt cur sh l' ih =>
    rw [insOuter, if_pos hlt]
    unfold_let l' sh cur at ih
    simp_all
  | case2 l n i hlt =>
    rw [insOuter, if_neg hlt]

@[simp] theorem length_insertionSort (c : Cmp α) (l : List α) :
    ((insertionSort c l).1).length = l.length := by
  simp [insertionSort]

@[simp] theorem length_partLoop (c : Cmp α) :
    ∀ l high pivot i1 j,
      ((partLoop c l high pivot i1 j).1).length = l.length := by
  intro l high pivot i1 j
  induction l, high, pivot, i1, j using partLoop.induct c with
  | case1 l high pivot i1 j hj hle p ih =>
    rw [partLoop, if_pos hj, if_pos hle]
    unfold_let p at ih
    split_ifs at ih ⊢ <;> simp_all
  | case2 l high pivot i1 j hj hle ih =>
    rw [partLoop, if_pos hj, if_neg hle]
    simpa using ih
  | case3 l high pivot i1 j hj =>
    rw [partLoop, if_neg hj]

@[simp] theorem length_partition (c : Cmp α) (l : List α) (low high : Nat) :
    ((partition c l low high).1).length = l.length := by
  simp [partition]

@[simp] theorem length_quickSortHelper (c : Cmp α) :
    ∀ l low high, ((quickSortHelper c l low high).1).length = l.length := by
  intro l low high
  induction l, low, high using quickSortHelper.induct c with
  | case1 l low high hlt p r1 ih1 ih2 ih3 =>
    rw [quickSortHelper, dif_pos hlt]
    unfold_let r1 p at ih3
    simp_all
  | case2 l low high hlt =>
    rw [quickSortHelper, dif_neg hlt]

@[simp] theorem length_quickSort (c : Cmp α) (l : List α) :
    ((quickSort c l).1).length = l.length := by
  simp [quickSort]

@[simp] theorem length_mergeLoop (c : Cmp α) :
    ∀ l la ra i j k, ((mergeLoop c l la ra i j k).1).length = l.length := by
  intro l la ra i j k
  induction l, la, ra, i, j, k using mergeLoop.induct c with
  | case1 l la ra i j k hin hle l' ih =>
    rw [mergeLoop, if_pos hin, if_pos hle]
    unfold_let l' at ih
    simp_all
  | case2 l la ra i j k hin hle l' ih =>
    rw [mergeLoop, if_pos hin, if_neg hle]
    unfold_let l' at ih
    simp_all
  | case3 l la ra i j k hin =>
    rw [mergeLoop, if_neg hin]

@[simp] theorem length_mergeDrainL :
    ∀ (l la : List α) i k, ((mergeDrainL l la i k).1).length = l.length := by
  intro l la i k
  induction l, la, i, k using mergeDrainL.induct with
  | case1 l la i k hin l' ih =>
    rw [mergeDrainL, if_pos hin]
    unfold_let l' at ih
    simp_all
  | case2 l la i k hin =>
    rw [mergeDrainL, if_neg hin]

@[simp] theorem length_mergeDrainR :
    ∀ (l ra : List α) j k, ((mergeDrainR l ra j k).1).length = l.length := by
  intro l ra j k
  induction l, ra, j, k using mergeDrainR.induct with
  | case1 l ra j k hin l' ih =>
    rw [mergeDrainR, if_pos hin]
    unfold_let l' at ih
    simp_all
  | case2 l ra j k hin =>
    rw [mergeDrainR, if_neg hin]

@[simp] theorem length_merge (c : Cmp α) (l : List α) (left mid right : Nat) :
    ((merge c l left mid right).1).length = l.length := by
  simp [merge]

@[simp] theorem length_mergeSortHelper (c : Cmp α) :
    ∀ l left right, ((mergeSortHelper c l left right).1).length = l.length := by
  intro l left right
  induction l, left, right using mergeSortHelper.induct c with
  | case1 l left right hlt mid r1 ih1 ih2 ih3 =>
    rw [mergeSortHelper, dif_pos hlt]
    unfold_let r1 mid at ih3
    simp_all
  | case2 l left right hlt =>
    rw [mergeSortHelper, dif_neg hlt]

@[simp] theorem length_mergeSort (c : Cmp α) (l : List α) :
    ((mergeSort c l).1).length = l.length := by
  simp [mergeSort]

@[simp] theorem length_heapify (c : Cmp α) :
    ∀ l n i, ((heapify c l n i).1).length = l.length := by
  intro l n i
  induction l, n, i using heapify.induct c with
  | case1 l n i hne lg l' ih =>
    rw [heapify, dif_pos hne]
    unfold_let l' lg at ih
    simp_all
  | case2 l n i hne =>
    rw [heapify, dif_neg hne]

@[simp] theorem length_buildLoop (c : Cmp α) (n : Nat) :
    ∀ l k, ((buildLoop c l n k).1).length = l.length := by
  intro l k
  induction k generalizing l with
  | zero => rw [buildLoop]
  | succ k ih =>
    rw [buildLoop]
    simpa using ih (heapify c l n k).1

@[simp] theorem length_extractLoop (c : Cmp α) :
    ∀ l i, ((extractLoop c l i).1).length = l.length := by
  intro l i
  induction i generalizing l with
  | zero => rw [extractLoop]
  | succ m ih =>
    rw [extractLoop]
    simpa using ih (heapify c (swapL l 0 (m+1)) (m+1) 0).1

@[simp] theorem length_heapSort (c : Cmp α) (l : List α) :
    ((heapSort c l).1).length = l.length := by
  simp [heapSort]

@[simp] theorem length_shellInner (c : Cmp α) :
    ∀ l gap temp j, ((shellInner c l gap temp j).1).length = l.length := by
  intro l gap temp j
  induction l, gap, temp, j using shellInner.induct c with
  | case1 l gap temp j hg hgt l' ih =>
    rw [shellInner, dif_pos hg, if_pos hgt]
    unfold_let l' at ih
    simp_all
  | case2 l gap temp j hg hgt =>
    rw [shellInner, dif_pos hg, if_neg hgt]
  | case3 l gap temp j hg =>
    rw [shellInner, dif_neg hg]

@[simp] theorem length_shellI (c : Cmp α) :
    ∀ l n gap i, ((shellI c l n gap i).1).length = l.length := by
  intro l n gap i
  induction l, n, gap, i using shellI.induct c with
  | case1 l n gap i hlt temp sh l' ih =>
    rw [shellI, if_pos hlt]
    unfold_let l' sh temp at ih
    simp_all
  | case2 l n gap i hlt =>
    rw [shellI, if_neg hlt]

@[simp] theorem length_shellGap (c : Cmp α) :
    ∀ l n gap, ((shellGap c l n gap).1).length = l.length := by
  intro l n gap
  induction l, n, gap using shellGap.induct c with
  | case1 l n gap hg p ih =>
    rw [shellGap, dif_pos hg]
    unfold_let p at ih
    simp_all
  | case2 l n gap hg =>
    rw [shellGap, dif_neg hg]

@[simp] theorem length_shellSort (c : Cmp α) (l : List α) :
    ((shellSort c l).1).length = l.length := by
  simp [shellSort]


/-! ## Claim theorems: dispatcher and error handling -/

/-- C5 counterexample: dispatching the unrecognized algorithm name
`"bogus"` does not fail at all — the `switch` in `startSort` has no
`default` case, so the call completes normally, runs no algorithm, emits
no step and leaves the array untouched.  There is no `UnknownAlgorithm`
error anywhere in the code. -/
theorem startSort_bogus_no_error :
    startSort cInt "bogus" [3, 1] = ([3, 1], []) := rfl

/-- C5 (amended): an algorithm name other than the seven recognized ones
falls through the `switch`: no error, no steps, array unchanged. -/
theorem startSort_unknown_is_noop (name : String) (l : List Int)
    (h : name ∉ ["bubble", "selection", "insertion", "quick", "merge",
      "heap", "shell"]) : startSort cInt name l = (l, []) := by
  unfold startSort
  split <;> simp_all

/-- Witness for `startSort_unknown_is_noop` at a concrete input. -/
theorem startSort_unknown_is_noop_witness :
    startSort cInt "bogus2" [5, 2] = ([5, 2], []) :=
  startSort_unknown_is_noop "bogus2" [5, 2] (by decide)

/-- C4 counterexample: on an input containing the non-finite value `NaN`
the run does not fail and does not abort before emitting steps: bubble
sort runs to completion (there is no input validation anywhere in
`startSort` or the algorithms), emitting a `Compare` step and two
`MarkFinal` steps.  This refutes "fails with an InvalidInput error ...
before any step is emitted ... zero side effects". -/
theorem startSort_nan_emits_steps :
    (startSort cJS "bubble" [JSNum.nan, JSNum.val 1]).2 ≠ [] := by
  simp [startSort, bubbleSort, bubbleOuter, bubbleInner, markAll, cJS, idx]

/-- C4 (amended): non-finite values are not rejected; the run on
`[NaN, 1]` completes normally with the array passed through unchanged
(and unsorted under JS comparison semantics, where every comparison with
`NaN` is false), emitting a normal step sequence. -/
theorem startSort_nan_completes_normally :
    startSort cJS "bubble" [JSNum.nan, JSNum.val 1] =
      ([JSNum.nan, JSNum.val 1],
        [Step.compare 0 1, Step.markFinal 0, Step.markFinal 1]) := by
  simp [startSort, bubbleSort, bubbleOuter, bubbleInner, markAll, cJS, idx]
  decide

/-- C6 (code bug exhibit): `heapSort` on the empty array still executes
the unconditional final `markAsSorted(bars[0])` (src/app.js line 568),
i.e. it accesses bar index `0`, which is outside `[0, N) = [0, 0)` —
the only out-of-bounds access of the seven algorithms on valid input. -/
theorem heapSort_empty_marks_bar_zero :
    heapSort cInt ([] : List Int) = ([], [Step.markFinal 0]) := by
  simp [heapSort, buildLoop, extractLoop, markAll]

/-- C3 counterexample: on the valid input `[1, 2]` (N = 2) insertion sort
emits exactly one `MarkFinal` step, not N = 2: the outer loop starts at
`i = 1` and marks only `bars[j+1]`, so index `0` is never marked. -/
theorem insertionSort_markFinal_count_ne :
    ¬ ((marks (insertionSort cInt ([1, 2] : List Int)).2).length = 2) := by
  simp [insertionSort, insOuter, insShift, marks, idx, cInt]


/-- C8: quick sort on the reverse-sorted input `[9,7,5,3,1]` (last
element of each range as pivot) emits exactly N(N-1)/2 = 10 `Compare`
steps, the worst-case comparison count. -/
theorem quickSort_reverse_worst_case :
    ((quickSort cInt [9, 7, 5, 3, 1]).2.filter isCompare).length
      = 5 * (5 - 1) / 2 := by
  simp [quickSort, quickSortHelper, partition, partLoop, swapL, idx, cInt,
    isCompare]


/-! ## Frame lemmas: each helper writes only its own region -/

theorem partLoop_frame (c : Cmp α) :
    ∀ l high pivot i1 j k, i1 ≤ j → (k < i1 ∨ high ≤ k) →
      idx (partLoop c l high pivot i1 j).1 k = idx l k := by
  intro l high pivot i1 j
  induction l, high, pivot, i1, j using partLoop.induct c with
  | case1 l high pivot i1 j hj hle p ih =>
    intro k hij hk
    rw [partLoop, if_pos hj, if_pos hle]
    unfold_let p at ih
    have hk' : k < i1 + 1 ∨ high ≤ k := by omega
    by_cases hij' : i1 ≠ j
    · simp only [dif_pos hij'] at ih
      simp only [if_pos hij']
      rw [ih k (by omega) hk']
      exact idx_swapL_other (by omega) (by omega)
    · simp only [dif_neg hij'] at ih
      simp only [if_neg hij']
      exact ih k (by omega) hk'
  | case2 l high pivot i1 j hj hle ih =>
    intro k hij hk
    rw [partLoop, if_pos hj, if_neg hle]
    exact ih k (by omega) hk
  | case3 l high pivot i1 j hj =>
    intro k hij hk
    rw [partLoop, if_neg hj]

theorem partition_frame (c : Cmp α) (l : List α) (low high k : Nat)
    (hlh : low ≤ high) (hk : k < low ∨ high < k) :
    idx (partition c l low high).1 k = idx l k := by
  have hpi := partition_pi_bounds c l low high
  unfold partition at hpi ⊢
  simp only [] at hpi ⊢
  rw [idx_swapL_other (by omega) (by omega)]
  exact partLoop_frame c l high (idx l high) low low k le_rfl (by omega)

theorem quickSortHelper_frame (c : Cmp α) :
    ∀ l low high k, (k < low ∨ high < k) →
      idx (quickSortHelper c l low high).1 k = idx l k := by
  intro l low high
  induction l, low, high using quickSortHelper.induct c with
  | case1 l low high hlt p r1 ih1 ih2 ih3 =>
    intro k hk
    have hpi := partition_pi_bounds c l low high
    rw [quickSortHelper, dif_pos hlt]
    unfold_let r1 p at ih3
    unfold_let p at ih1
    simp only [] at ih1 ih3 ⊢
    rw [ih3 k (by omega), ih1 k (by omega),
      partition_frame c l low high k (by omega) (by omega)]
  | case2 l low high hlt =>
    intro k hk
    rw [quickSortHelper, dif_neg hlt]

theorem heapify_frame_ge (c : Cmp α) :
    ∀ l n i k, n ≤ k → idx (heapify c l n i).1 k = idx l k := by
  intro l n i
  induction l, n, i using heapify.induct c with
  | case1 l n i hne lg l' ih =>
    intro k hk
    have hb := largestIdx_bounds c l n i
    rw [heapify, dif_pos hne]
    unfold_let l' lg at ih
    rw [ih k hk]
    exact idx_swapL_other (by omega) (by omega)
  | case2 l n i hne =>
    intro k hk
    rw [heapify, dif_neg hne]

theorem heapify_frame_lt (c : Cmp α) :
    ∀ l n i k, k < i → idx (heapify c l n i).1 k = idx l k := by
  intro l n i
  induction l, n, i using heapify.induct c with
  | case1 l n i hne lg l' ih =>
    intro k hk
    have hb := largestIdx_bounds c l n i
    rw [heapify, dif_pos hne]
    unfold_let l' lg at ih
    rw [ih k (by omega)]
    exact idx_swapL_other (by omega) (by omega)
  | case2 l n i hne =>
    intro k hk
    rw [heapify, dif_neg hne]

theorem mergeLoop_frame (c : Cmp α) :
    ∀ l la ra i j k m,
      (m < k ∨ k + (la.length - i) + (ra.length - j) ≤ m) →
      idx (mergeLoop c l la ra i j k).1 m = idx l m := by
  intro l la ra i j k
  induction l, la, ra, i, j, k using mergeLoop.induct c with
  | case1 l la ra i j k hin hle l' ih =>
    intro m hm
    rw [mergeLoop, if_pos hin, if_pos hle]
    unfold_let l' at ih
    rw [ih m (by omega)]
    exact idx_set_ne (by omega) _
  | case2 l la ra i j k hin hle l' ih =>
    intro m hm
    rw [mergeLoop, if_pos hin, if_neg hle]
    unfold_let l' at ih
    rw [ih m (by omega)]
    exact idx_set_ne (by omega) _
  | case3 l la ra i j k hin =>
    intro m hm
    rw [mergeLoop, if_neg hin]

theorem mergeDrainL_frame :
    ∀ (l la : List α) i k m, (m < k ∨ k + (la.length - i) ≤ m) →
      idx (mergeDrainL l la i k).1 m = idx l m := by
  intro l la i k
  induction l, la, i, k using mergeDrainL.induct with
  | case1 l la i k hin l' ih =>
    intro m hm
    rw [mergeDrainL, if_pos hin]
    unfold_let l' at ih
    rw [ih m (by omega)]
    exact idx_set_ne (by omega) _
  | case2 l la i k hin =>
    intro m hm
    rw [mergeDrainL, if_neg hin]

theorem mergeDrainR_frame :
    ∀ (l ra : List α) j k m, (m < k ∨ k + (ra.length - j) ≤ m) →
      idx (mergeDrainR l ra j k).1 m = idx l m := by
  intro l ra j k
  induction l, ra, j, k using mergeDrainR.induct with
  | case1 l ra j k hin l' ih =>
    intro m hm
    rw [mergeDrainR, if_pos hin]
    unfold_let l' at ih
    rw [ih m (by omega)]
    exact idx_set_ne (by omega) _
  | case2 l ra j k hin =>
    intro m hm
    rw [mergeDrainR, if_neg hin]

/-- Bookkeeping of the main merge loop: the write cursor `k` advances in
lockstep with `i + j`, the buffer cursors only grow and stay in range,
and the loop exits with one buffer exhausted. -/
theorem mergeLoop_cursors (c : Cmp α) :
    ∀ l la ra i j k,
      i ≤ (mergeLoop c l la ra i j k).2.1.1 ∧
      (i ≤ la.length → (mergeLoop c l la ra i j k).2.1.1 ≤ la.length) ∧
      j ≤ (mergeLoop c l la ra i j k).2.1.2.1 ∧
      (j ≤ ra.length → (mergeLoop c l la ra i j k).2.1.2.1 ≤ ra.length) ∧
      (mergeLoop c l la ra i j k).2.1.2.2 + i + j
        = k + (mergeLoop c l la ra i j k).2.1.1
          + (mergeLoop c l la ra i j k).2.1.2.1 ∧
      (la.length ≤ (mergeLoop c l la ra i j k).2.1.1 ∨
        ra.length ≤ (mergeLoop c l la ra i j k).2.1.2.1) := by
  intro l la ra i j k
  induction l, la, ra, i, j, k using mergeLoop.induct c with
  | case1 l la ra i j k hin hle l' ih =>
    rw [mergeLoop, if_pos hin, if_pos hle]
    unfold_let l' at ih
    obtain ⟨h1, h2, h3, h4, h5, h6⟩ := ih
    simp only []
    exact ⟨by omega, fun _ => h2 (by omega), by omega, h4, by omega,
      by omega⟩
  | case2 l la ra i j k hin hle l' ih =>
    rw [mergeLoop, if_pos hin, if_neg hle]
    unfold_let l' at ih
    obtain ⟨h1, h2, h3, h4, h5, h6⟩ := ih
    simp only []
    exact ⟨by omega, h2, by omega, fun _ => h4 (by omega), by omega,
      by omega⟩
  | case3 l la ra i j k hin =>
    rw [mergeLoop, if_neg hin]
    dsimp only
    exact ⟨le_rfl, fun h => h, le_rfl, fun h => h, by omega, by omega⟩

@[simp] theorem length_sliceL (l : List α) (a b : Nat) :
    (sliceL l a b).length = min b l.length - a := by
  simp [sliceL]

theorem merge_frame (c : Cmp α) (l : List α) (left mid right : Nat)
    (h1 : left ≤ mid) (h2 : mid < right) (h3 : right < l.length) :
    ∀ m, (m < left ∨ right < m) →
      idx (merge c l left mid right).1 m = idx l m := by
  intro m hm
  have hla : (sliceL l left (mid + 1)).length = mid + 1 - left := by
    simp; omega
  have hra : (sliceL l (mid + 1) (right + 1)).length = right - mid := by
    simp; omega
  obtain ⟨hc1, hc2, hc3, hc4, hc5, hc6⟩ := mergeLoop_cursors c l
    (sliceL l left (mid + 1)) (sliceL l (mid + 1) (right + 1)) 0 0 left
  specialize hc2 (Nat.zero_le _)
  specialize hc4 (Nat.zero_le _)
  rw [hla] at hc2 hc6
  rw [hra] at hc4 hc6
  unfold merge
  simp only []
  rw [mergeDrainR_frame _ _ _ _ m (by rw [hra, hla]; omega),
    mergeDrainL_frame _ _ _ _ m (by rw [hla]; omega),
    mergeLoop_frame c _ _ _ _ _ _ m (by rw [hla, hra]; omega)]

theorem mergeSortHelper_frame (c : Cmp α) :
    ∀ l left right, right < l.length →
      ∀ m, (m < left ∨ right < m) →
        idx (mergeSortHelper c l left right).1 m = idx l m := by
  intro l left right
  induction l, left, right using mergeSortHelper.induct c with
  | case1 l left right hlt mid r1 ih1 ih2 ih3 =>
    intro hr m hm
    rw [mergeSortHelper, dif_pos hlt]
    unfold_let r1 mid at ih3
    simp only [] at ih1 ih3 ⊢
    have hmid1 : left ≤ (left + right) / 2 := by omega
    have hmid2 : (left + right) / 2 < right := by omega
    rw [merge_frame c _ left ((left + right) / 2) right hmid1 hmid2
        (by simp; omega) m hm,
      ih3 (by simp; omega) m (by omega),
      ih1 (by omega) m (by omega)]
  | case2 l left right hlt =>
    intro hr m hm
    rw [mergeSortHelper, dif_neg hlt]


/-- C10: the shared helpers mutate only their own region of the heights
array: `partition(heights, bars, low, high)` (with `low ≤ high`, as at
every call site) leaves every index outside `[low, high]` unchanged;
`merge(heights, bars, left, mid, right)` (with `left ≤ mid < right < N`,
as at every call site) leaves every index outside `[left, right]`
unchanged; and `heapify(heights, bars, n, i)` leaves every index outside
`[0, n)` unchanged. -/
theorem helpers_mutate_only_own_region :
    (∀ (l : List Int) (low high k : Nat), low ≤ high →
      (k < low ∨ high < k) →
      idx (partition cInt l low high).1 k = idx l k) ∧
    (∀ (l : List Int) (left mid right m : Nat),
      left ≤ mid → mid < right → right < l.length →
      (m < left ∨ right < m) →
      idx (merge cInt l left mid right).1 m = idx l m) ∧
    (∀ (l : List Int) (n i k : Nat), n ≤ k →
      idx (heapify cInt l n i).1 k = idx l k) :=
  ⟨fun l low high k h1 h2 => partition_frame cInt l low high k h1 h2,
   fun l left mid right m h1 h2 h3 h4 =>
     merge_frame cInt l left mid right h1 h2 h3 m h4,
   fun l n i k h => heapify_frame_ge cInt l n i k h⟩

/-- Witness for `helpers_mutate_only_own_region` at concrete calls. -/
theorem helpers_mutate_only_own_region_witness :
    idx (partition cInt [3, 1, 2] 0 1).1 2 = idx [3, 1, 2] 2 ∧
    idx (merge cInt [2, 1, 3] 0 0 1).1 2 = idx [2, 1, 3] 2 ∧
    idx (heapify cInt [1, 5, 2] 2 0).1 2 = idx [1, 5, 2] 2 :=
  ⟨helpers_mutate_only_own_region.1 [3, 1, 2] 0 1 2 (by decide)
      (Or.inr (by decide)),
   helpers_mutate_only_own_region.2.1 [2, 1, 3] 0 0 1 2 (by decide)
      (by decide) (by decide) (Or.inr (by decide)),
   helpers_mutate_only_own_region.2.2 [1, 5, 2] 2 0 2 (by decide)⟩


/-! ## Replay refinement: the emitted trace recomputes the run -/

@[simp] theorem applyStep_compare (l : List α) (i j : Nat) :
    applyStep l (Step.compare i j) = l := rfl

@[simp] theorem applyStep_swapS (l : List α) (i j : Nat) :
    applyStep l (Step.swapS i j) = swapL l i j := rfl

@[simp] theorem applyStep_overwrite (l : List α) (i : Nat) (v : α) :
    applyStep l (Step.overwrite i v) = l.set i v := rfl

@[simp] theorem applyStep_markFinal (l : List α) (i : Nat) :
    applyStep l (Step.markFinal i) = l := rfl

theorem replay_bubbleInner (c : Cmp α) :
    ∀ l n i j, replay l (bubbleInner c l n i j).2
      = (bubbleInner c l n i j).1 := by
  intro l n i j
  induction l, n, i, j using bubbleInner.induct c with
  | case1 l n i j hlt p ih =>
    rw [bubbleInner, if_pos hlt]
    unfold_let p at ih
    by_cases hc : c.gtB (idx l j) (idx l (j+1)) = true
    · simp only [dif_pos hc] at ih
      simp only [if_pos hc, replay_cons, applyStep_compare,
        List.cons_append, List.nil_append, applyStep_swapS]
      exact ih
    · simp only [dif_neg hc] at ih
      simp only [if_neg hc, replay_cons, applyStep_compare,
        List.nil_append]
      exact ih
  | case2 l n i j hlt =>
    rw [bubbleInner, if_neg hlt]
    rfl

theorem replay_bubbleOuter (c : Cmp α) :
    ∀ l n i, replay l (bubbleOuter c l n i).2 = (bubbleOuter c l n i).1 := by
  intro l n i
  induction l, n, i using bubbleOuter.induct c with
  | case1 l n i hlt p ih =>
    rw [bubbleOuter, if_pos hlt]
    unfold_let p at ih
    simp only [replay_append, replay_bubbleInner]
    exact ih
  | case2 l n i hlt =>
    rw [bubbleOuter, if_neg hlt]
    rfl

theorem replay_bubbleSort (c : Cmp α) (l : List α) :
    replay l (bubbleSort c l).2 = (bubbleSort c l).1 := by
  unfold bubbleSort
  simp only [replay_append, replay_bubbleOuter, replay_markAll]

theorem replay_selScan (c : Cmp α) (l0 : List α) (n : Nat) :
    ∀ j m (l : List α), replay l (selScan c l0 n j m).2 = l := by
  intro j m
  induction j, m using selScan.induct c l0 n with
  | case1 j m hlt mm ih =>
    intro l
    rw [selScan, if_pos hlt]
    unfold_let mm at ih
    simp only [replay_cons, applyStep_compare]
    exact ih l
  | case2 j m hlt =>
    intro l
    rw [selScan, if_neg hlt]
    rfl

theorem replay_selOuter (c : Cmp α) :
    ∀ l n i, replay l (selOuter c l n i).2 = (selOuter c l n i).1 := by
  intro l n i
  induction l, n, i using selOuter.induct c with
  | case1 l n i hlt sc p ih =>
    rw [selOuter, if_pos hlt]
    unfold_let p sc at ih
    by_cases hm : (selScan c l n (i+1) i).1 ≠ i
    · simp only [dif_pos hm] at ih
      simp only [if_pos hm, List.append_assoc, replay_append,
        replay_selScan, List.cons_append, List.nil_append, replay_cons,
        applyStep_swapS, applyStep_markFinal]
      simpa using ih
    · simp only [dif_neg hm] at ih
      simp only [if_neg hm, List.append_assoc, replay_append,
        replay_selScan, List.nil_append, replay_cons, applyStep_markFinal]
      simpa using ih
  | case2 l n i hlt =>
    rw [selOuter, if_neg hlt]
    rfl

theorem replay_selectionSort (c : Cmp α) (l : List α) :
    replay l (selectionSort c l).2 = (selectionSort c l).1 :=
  replay_selOuter c l l.length 0

theorem replay_insShift (c : Cmp α) :
    ∀ l cur j1, replay l (insShift c l cur j1).2.2
      = (insShift c l cur j1).1 := by
  intro l cur j1
  induction l, cur, j1 using insShift.induct c with
  | case1 l cur => rfl
  | case2 l cur j hgt l' ih =>
    rw [insShift, if_pos hgt]
    unfold_let l' at ih
    simp only [replay_cons, applyStep_compare, applyStep_overwrite]
    exact ih
  | case3 l cur j hgt =>
    rw [insShift, if_neg hgt]
    rfl

theorem replay_insOuter (c : Cmp α) :
    ∀ l n i, replay l (insOuter c l n i).2 = (insOuter c l n i).1 := by
  intro l n i
  induction l, n, i using insOuter.induct c with
  | case1 l n i hlt cur sh l' ih =>
    rw [insOuter, if_pos hlt]
    unfold_let l' sh cur at ih
    simp only [replay_append, replay_insShift, List.cons_append,
      List.nil_append, replay_cons, applyStep_overwrite,
      applyStep_markFinal]
    exact ih
  | case2 l n i hlt =>
    rw [insOuter, if_neg hlt]
    rfl

theorem replay_insertionSort (c : Cmp α) (l : List α) :
    replay l (insertionSort c l).2 = (insertionSort c l).1 :=
  replay_insOuter c l l.length 1

theorem replay_partLoop (c : Cmp α) :
    ∀ l high pivot i1 j, replay l (partLoop c l high pivot i1 j).2.2
      = (partLoop c l high pivot i1 j).1 := by
  intro l high pivot i1 j
  induction l, high, pivot, i1, j using partLoop.induct c with
  | case1 l high pivot i1 j hj hle p ih =>
    rw [partLoop, if_pos hj, if_pos hle]
    unfold_let p at ih
    by_cases hij : i1 ≠ j
    · simp only [dif_pos hij] at ih
      simp only [if_pos hij, replay_cons, applyStep_compare,
        List.cons_append, List.nil_append, applyStep_swapS]
      exact ih
    · simp only [dif_neg hij] at ih
      simp only [if_neg hij, replay_cons, applyStep_compare,
        List.nil_append]
      exact ih
  | case2 l high pivot i1 j hj hle ih =>
    rw [partLoop, if_pos hj, if_neg hle]
    simp only [replay_cons, applyStep_compare]
    exact ih
  | case3 l high pivot i1 j hj =>
    rw [partLoop, if_neg hj]
    rfl

theorem replay_partition (c : Cmp α) (l : List α) (low high : Nat) :
    replay l (partition c l low high).2.2 = (partition c l low high).1 := by
  unfold partition
  simp only [replay_append, replay_partLoop, replay_cons, applyStep_swapS,
    applyStep_markFinal, replay_nil]

theorem replay_quickSortHelper (c : Cmp α) :
    ∀ l low high, replay l (quickSortHelper c l low high).2
      = (quickSortHelper c l low high).1 := by
  intro l low high
  induction l, low, high using quickSortHelper.induct c with
  | case1 l low high hlt p r1 ih1 ih2 ih3 =>
    rw [quickSortHelper, dif_pos hlt]
    unfold_let r1 p at ih3
    unfold_let p at ih1
    simp only [replay_append, replay_partition, ih1, ih3]
  | case2 l low high hlt =>
    rw [quickSortHelper, dif_neg hlt]
    rfl

theorem replay_quickSort (c : Cmp α) (l : List α) :
    replay l (quickSort c l).2 = (quickSort c l).1 :=
  replay_quickSortHelper c l 0 (l.length - 1)

theorem replay_mergeLoop (c : Cmp α) :
    ∀ l la ra i j k, replay l (mergeLoop c l la ra i j k).2.2
      = (mergeLoop c l la ra i j k).1 := by
  intro l la ra i j k
  induction l, la, ra, i, j, k using mergeLoop.induct c with
  | case1 l la ra i j k hin hle l' ih =>
    rw [mergeLoop, if_pos hin, if_pos hle]
    unfold_let l' at ih
    simp only [replay_cons, applyStep_compare, applyStep_overwrite,
      applyStep_markFinal]
    exact ih
  | case2 l la ra i j k hin hle l' ih =>
    rw [mergeLoop, if_pos hin, if_neg hle]
    unfold_let l' at ih
    simp only [replay_cons, applyStep_compare, applyStep_overwrite,
      applyStep_markFinal]
    exact ih
  | case3 l la ra i j k hin =>
    rw [mergeLoop, if_neg hin]
    rfl

theorem replay_mergeDrainL :
    ∀ (l la : List α) i k, replay l (mergeDrainL l la i k).2
      = (mergeDrainL l la i k).1 := by
  intro l la i k
  induction l, la, i, k using mergeDrainL.induct with
  | case1 l la i k hin l' ih =>
    rw [mergeDrainL, if_pos hin]
    unfold_let l' at ih
    simp only [replay_cons, applyStep_overwrite, applyStep_markFinal]
    exact ih
  | case2 l la i k hin =>
    rw [mergeDrainL, if_neg hin]
    rfl

theorem replay_mergeDrainR :
    ∀ (l ra : List α) j k, replay l (mergeDrainR l ra j k).2
      = (mergeDrainR l ra j k).1 := by
  intro l ra j k
  induction l, ra, j, k using mergeDrainR.induct with
  | case1 l ra j k hin l' ih =>
    rw [mergeDrainR, if_pos hin]
    unfold_let l' at ih
    simp only [replay_cons, applyStep_overwrite, applyStep_markFinal]
    exact ih
  | case2 l ra j k hin =>
    rw [mergeDrainR, if_neg hin]
    rfl

theorem replay_merge (c : Cmp α) (l : List α) (left mid right : Nat) :
    replay l (merge c l left mid right).2 = (merge c l left mid right).1 := by
  unfold merge
  simp only [replay_append, replay_mergeLoop, replay_mergeDrainL,
    replay_mergeDrainR]

theorem replay_mergeSortHelper (c : Cmp α) :
    ∀ l left right, replay l (mergeSortHelper c l left right).2
      = (mergeSortHelper c l left right).1 := by
  intro l left right
  induction l, left, right using mergeSortHelper.induct c with
  | case1 l left right hlt mid r1 ih1 ih2 ih3 =>
    rw [mergeSortHelper, dif_pos hlt]
    unfold_let r1 mid at ih3
    simp only [replay_append, ih1, ih3, replay_merge]
  | case2 l left right hlt =>
    rw [mergeSortHelper, dif_neg hlt]
    rfl

theorem replay_mergeSort (c : Cmp α) (l : List α) :
    replay l (mergeSort c l).2 = (mergeSort c l).1 :=
  replay_mergeSortHelper c l 0 (l.length - 1)

theorem replay_heapify (c : Cmp α) :
    ∀ l n i, replay l (heapify c l n i).2 = (heapify c l n i).1 := by
  intro l n i
  induction l, n, i using heapify.induct c with
  | case1 l n i hne lg l' ih =>
    rw [heapify, dif_pos hne]
    unfold_let l' lg at ih
    simp only [replay_cons, applyStep_compare, applyStep_swapS]
    exact ih
  | case2 l n i hne =>
    rw [heapify, dif_neg hne]
    rfl

theorem replay_buildLoop (c : Cmp α) (n : Nat) :
    ∀ k (l : List α), replay l (buildLoop c l n k).2
      = (buildLoop c l n k).1 := by
  intro k
  induction k with
  | zero => intro l; rfl
  | succ k ih =>
    intro l
    rw [buildLoop]
    simp only [replay_append, replay_heapify]
    exact ih _

theorem replay_extractLoop (c : Cmp α) :
    ∀ i (l : List α), replay l (extractLoop c l i).2
      = (extractLoop c l i).1 := by
  intro i
  induction i with
  | zero => intro l; rfl
  | succ m ih =>
    intro l
    rw [extractLoop]
    simp only [replay_cons, applyStep_swapS, applyStep_markFinal,
      replay_append, replay_heapify]
    exact ih _

theorem replay_heapSort (c : Cmp α) (l : List α) :
    replay l (heapSort c l).2 = (heapSort c l).1 := by
  unfold heapSort
  simp only [replay_append, replay_buildLoop, replay_extractLoop,
    replay_cons, applyStep_markFinal, replay_nil]

theorem replay_shellInner (c : Cmp α) :
    ∀ l gap temp j, replay l (shellInner c l gap temp j).2.2
      = (shellInner c l gap temp j).1 := by
  intro l gap temp j
  induction l, gap, temp, j using shellInner.induct c with
  | case1 l gap temp j hg hgt l' ih =>
    rw [shellInner, dif_pos hg, if_pos hgt]
    unfold_let l' at ih
    simp only [replay_cons, applyStep_compare, applyStep_overwrite]
    exact ih
  | case2 l gap temp j hg hgt =>
    rw [shellInner, dif_pos hg, if_neg hgt]
    rfl
  | case3 l gap temp j hg =>
    rw [shellInner, dif_neg hg]
    rfl

theorem replay_shellI (c : Cmp α) :
    ∀ l n gap i, replay l (shellI c l n gap i).2
      = (shellI c l n gap i).1 := by
  intro l n gap i
  induction l, n, gap, i using shellI.induct c with
  | case1 l n gap i hlt temp sh l' ih =>
    rw [shellI, if_pos hlt]
    unfold_let l' sh temp at ih
    simp only [List.append_assoc, replay_append, replay_shellInner,
      List.cons_append, List.nil_append, replay_cons, applyStep_overwrite,
      replay_nil]
    simpa using ih
  | case2 l n gap i hlt =>
    rw [shellI, if_neg hlt]
    rfl

theorem replay_shellGap (c : Cmp α) :
    ∀ l n gap, replay l (shellGap c l n gap).2 = (shellGap c l n gap).1 := by
  intro l n gap
  induction l, n, gap using shellGap.induct c with
  | case1 l n gap hg p ih =>
    rw [shellGap, dif_pos hg]
    unfold_let p at ih
    simp only [replay_append, replay_shellI]
    exact ih
  | case2 l n gap hg =>
    rw [shellGap, dif_neg hg]
    rfl

theorem replay_shellSort (c : Cmp α) (l : List α) :
    replay l (shellSort c l).2 = (shellSort c l).1 := by
  unfold shellSort
  simp only [replay_append, replay_shellGap, replay_markAll]

/-- C2: for each of the seven algorithms, replaying the emitted step
sequence against a fresh copy of the original input (`Compare` and
`MarkFinal` as no-ops, `Swap` and `Overwrite` as specified) yields
exactly the algorithm's final heights array — the trace and the array
never diverge. -/
theorem replay_trace_eq_final (l : List Int) :
    replay l (bubbleSort cInt l).2 = (bubbleSort cInt l).1 ∧
    replay l (selectionSort cInt l).2 = (selectionSort cInt l).1 ∧
    replay l (insertionSort cInt l).2 = (insertionSort cInt l).1 ∧
    replay l (quickSort cInt l).2 = (quickSort cInt l).1 ∧
    replay l (mergeSort cInt l).2 = (mergeSort cInt l).1 ∧
    replay l (heapSort cInt l).2 = (heapSort cInt l).1 ∧
    replay l (shellSort cInt l).2 = (shellSort cInt l).1 :=
  ⟨replay_bubbleSort cInt l, replay_selectionSort cInt l,
   replay_insertionSort cInt l, replay_quickSort cInt l,
   replay_mergeSort cInt l, replay_heapSort cInt l,
   replay_shellSort cInt l⟩


/-! ## Permutation: every run only reorders the heights array -/

theorem bubbleInner_perm [DecidableEq α] (c : Cmp α) :
    ∀ l n i j, n ≤ l.length → ((bubbleInner c l n i j).1).Perm l := by
  intro l n i j
  induction l, n, i, j using bubbleInner.induct c with
  | case1 l n i j hlt p ih =>
    intro hn
    rw [bubbleInner, if_pos hlt]
    unfold_let p at ih
    by_cases hc : c.gtB (idx l j) (idx l (j+1)) = true
    · simp only [dif_pos hc] at ih
      simp only [if_pos hc]
      exact (ih (by simpa using hn)).trans
        (swapL_perm (by omega) (by omega))
    · simp only [dif_neg hc] at ih
      simp only [if_neg hc]
      exact ih hn
  | case2 l n i j hlt =>
    intro hn
    rw [bubbleInner, if_neg hlt]

theorem bubbleOuter_perm [DecidableEq α] (c : Cmp α) :
    ∀ l n i, n ≤ l.length → ((bubbleOuter c l n i).1).Perm l := by
  intro l n i
  induction l, n, i using bubbleOuter.induct c with
  | case1 l n i hlt p ih =>
    intro hn
    rw [bubbleOuter, if_pos hlt]
    unfold_let p at ih
    exact (ih (by simpa using hn)).trans (bubbleInner_perm c l n i 0 hn)
  | case2 l n i hlt =>
    intro hn
    rw [bubbleOuter, if_neg hlt]

theorem bubbleSort_perm [DecidableEq α] (c : Cmp α) (l : List α) :
    ((bubbleSort c l).1).Perm l :=
  bubbleOuter_perm c l l.length 0 le_rfl

theorem selScan_minIndex_bounds (c : Cmp α) (l : List α) (n : Nat) :
    ∀ j m, (selScan c l n j m).1 = m ∨
      (j ≤ (selScan c l n j m).1 ∧ (selScan c l n j m).1 < n) := by
  intro j m
  induction j, m using selScan.induct c l n with
  | case1 j m hlt mm ih =>
    rw [selScan, if_pos hlt]
    unfold_let mm at ih
    by_cases hc : c.ltB (idx l j) (idx l m) = true
    · simp only [dif_pos hc] at ih
      simp only [if_pos hc]
      rcases ih with h | h
      · exact Or.inr (by omega)
      · exact Or.inr (by omega)
    · simp only [dif_neg hc] at ih
      simp only [if_neg hc]
      rcases ih with h | h
      · exact Or.inl h
      · exact Or.inr (by omega)
  | case2 j m hlt =>
    rw [selScan, if_neg hlt]
    exact Or.inl rfl

theorem selOuter_perm [DecidableEq α] (c : Cmp α) :
    ∀ l n i, n ≤ l.length → ((selOuter c l n i).1).Perm l := by
  intro l n i
  induction l, n, i using selOuter.induct c with
  | case1 l n i hlt sc p ih =>
    intro hn
    rw [selOuter, if_pos hlt]
    unfold_let p sc at ih
    have hb := selScan_minIndex_bounds c l n (i+1) i
    by_cases hm : (selScan c l n (i+1) i).1 ≠ i
    · simp only [dif_pos hm] at ih
      simp only [if_pos hm]
      refine (ih (by simpa using hn)).trans (swapL_perm (by omega) ?_)
      rcases hb with h | h
      · exact absurd h hm
      · omega
    · simp only [dif_neg hm] at ih
      simp only [if_neg hm]
      exact ih hn
  | case2 l n i hlt =>
    intro hn
    rw [selOuter, if_neg hlt]

theorem selectionSort_perm [DecidableEq α] (c : Cmp α) (l : List α) :
    ((selectionSort c l).1).Perm l :=
  selOuter_perm c l l.length 0 le_rfl

/-- Net effect of the insertion shift loop followed by the final write of
`current`: a permutation of writing `current` directly at the start
position. -/
theorem insShift_set_perm [DecidableEq α] (c : Cmp α) :
    ∀ l (cur : α) j1, j1 < l.length →
      (((insShift c l cur j1).1).set (insShift c l cur j1).2.1 cur).Perm
        (l.set j1 cur) := by
  intro l cur j1
  induction l, cur, j1 using insShift.induct c with
  | case1 l cur =>
    intro h
    exact List.Perm.refl _
  | case2 l cur j hgt l' ih =>
    intro h
    rw [insShift, if_pos hgt]
    unfold_let l' at ih
    have hstep : ((l.set (j+1) (idx l j)).set j cur).Perm (l.set (j+1) cur) := by
      rw [set_set_eq_swap_set (by omega) (by omega) h]
      exact swapL_perm (by simpa using (by omega : j < l.length))
        (by simpa using h)
    exact (ih (by simpa using (by omega : j < l.length))).trans hstep
  | case3 l cur j hgt =>
    intro h
    rw [insShift, if_neg hgt]

theorem insOuter_perm [DecidableEq α] (c : Cmp α) :
    ∀ l n i, n ≤ l.length → ((insOuter c l n i).1).Perm l := by
  intro l n i
  induction l, n, i using insOuter.induct c with
  | case1 l n i hlt cur sh l' ih =>
    intro hn
    rw [insOuter, if_pos hlt]
    unfold_let l' sh cur at ih
    have hp := insShift_set_perm c l (idx l i) i (by omega)
    rw [set_idx_self (by omega)] at hp
    exact (ih (by simpa [hp.length_eq] using hn)).trans hp
  | case2 l n i hlt =>
    intro hn
    rw [insOuter, if_neg hlt]

theorem insertionSort_perm [DecidableEq α] (c : Cmp α) (l : List α) :
    ((insertionSort c l).1).Perm l :=
  insOuter_perm c l l.length 1 le_rfl

theorem partLoop_perm [DecidableEq α] (c : Cmp α) :
    ∀ l high pivot i1 j, high ≤ l.length → i1 ≤ j →
      ((partLoop c l high pivot i1 j).1).Perm l := by
  intro l high pivot i1 j
  induction l, high, pivot, i1, j using partLoop.induct c with
  | case1 l high pivot i1 j hj hle p ih =>
    intro hh hij
    rw [partLoop, if_pos hj, if_pos hle]
    unfold_let p at ih
    by_cases hij' : i1 ≠ j
    · simp only [dif_pos hij'] at ih
      simp only [if_pos hij']
      exact (ih (by simpa using hh) (by omega)).trans
        (swapL_perm (by omega) (by omega))
    · simp only [dif_neg hij'] at ih
      simp only [if_neg hij']
      exact ih hh (by omega)
  | case2 l high pivot i1 j hj hle ih =>
    intro hh hij
    rw [partLoop, if_pos hj, if_neg hle]
    exact ih hh (by omega)
  | case3 l high pivot i1 j hj =>
    intro hh hij
    rw [partLoop, if_neg hj]

theorem partition_perm [DecidableEq α] (c : Cmp α) (l : List α)
    (low high : Nat) (hlh : low ≤ high) (hh : high < l.length) :
    ((partition c l low high).1).Perm l := by
  have hpi := partition_pi_bounds c l low high
  unfold partition at hpi ⊢
  simp only [] at hpi ⊢
  refine (swapL_perm ?_ ?_).trans
    (partLoop_perm c l high (idx l high) low low (by omega) le_rfl)
  · simp only [length_partLoop]; omega
  · simp only [length_partLoop]; omega

theorem quickSortHelper_perm [DecidableEq α] (c : Cmp α) :
    ∀ l low high, high < l.length →
      ((quickSortHelper c l low high).1).Perm l := by
  intro l low high
  induction l, low, high using quickSortHelper.induct c with
  | case1 l low high hlt p r1 ih1 ih2 ih3 =>
    intro hh
    have hpi := partition_pi_bounds c l low high
    rw [quickSortHelper, dif_pos hlt]
    unfold_let r1 p at ih3
    unfold_let p at ih1
    simp only [] at ih1 ih3 ⊢
    have e1 : ((partition c l low high).1).length = l.length := by simp
    have e2 := (ih1 (by omega)).length_eq
    refine ((ih3 (by omega)).trans (ih1 (by omega))).trans
      (partition_perm c l low high (by omega) hh)
  | case2 l low high hlt =>
    intro hh
    rw [quickSortHelper, dif_neg hlt]

theorem quickSort_perm [DecidableEq α] (c : Cmp α) (l : List α) :
    ((quickSort c l).1).Perm l := by
  unfold quickSort
  rcases Nat.eq_zero_or_pos l.length with h | h
  · rw [quickSortHelper, dif_neg (by omega)]
  · exact quickSortHelper_perm c l 0 (l.length - 1) (by omega)

theorem heapify_perm [DecidableEq α] (c : Cmp α) :
    ∀ l n i, n ≤ l.length → ((heapify c l n i).1).Perm l := by
  intro l n i
  induction l, n, i using heapify.induct c with
  | case1 l n i hne lg l' ih =>
    intro hn
    have hb := largestIdx_bounds c l n i
    rw [heapify, dif_pos hne]
    unfold_let l' lg at ih
    exact (ih (by simpa using hn)).trans
      (swapL_perm (by omega) (by omega))
  | case2 l n i hne =>
    intro hn
    rw [heapify, dif_neg hne]

theorem buildLoop_perm [DecidableEq α] (c : Cmp α) (n : Nat) :
    ∀ k l, n ≤ l.length → ((buildLoop c l n k).1).Perm l := by
  intro k
  induction k with
  | zero => intro l hn; exact List.Perm.refl l
  | succ k ih =>
    intro l hn
    rw [buildLoop]
    exact (ih _ (by simpa using hn)).trans (heapify_perm c l n k hn)

theorem extractLoop_perm [DecidableEq α] (c : Cmp α) :
    ∀ i l, i < l.length → ((extractLoop c l i).1).Perm l := by
  intro i
  induction i with
  | zero => intro l hn; exact List.Perm.refl l
  | succ m ih =>
    intro l hn
    rw [extractLoop]
    refine ((ih _ (by simpa using (by omega : m < l.length))).trans
      (heapify_perm c _ (m+1) 0 (by simpa using (by omega : m + 1 ≤ l.length)))).trans
      (swapL_perm (by omega) hn)

theorem heapSort_perm [DecidableEq α] (c : Cmp α) (l : List α) :
    ((heapSort c l).1).Perm l := by
  unfold heapSort
  simp only []
  rcases Nat.eq_zero_or_pos l.length with h | h
  · have h0 : l = [] := List.length_eq_zero.1 h
    subst h0
    simp only [List.length_nil, Nat.zero_div, Nat.zero_sub]
    exact List.Perm.refl []
  · refine (extractLoop_perm c (l.length - 1) _ ?_).trans
      (buildLoop_perm c l.length (l.length / 2) l le_rfl)
    simp only [length_buildLoop]
    omega

theorem shellInner_set_perm [DecidableEq α] (c : Cmp α) :
    ∀ l gap (temp : α) j, j < l.length →
      (((shellInner c l gap temp j).1).set (shellInner c l gap temp j).2.1
        temp).Perm (l.set j temp) := by
  intro l gap temp j
  induction l, gap, temp, j using shellInner.induct c with
  | case1 l gap temp j hg hgt l' ih =>
    intro h
    rw [shellInner, dif_pos hg, if_pos hgt]
    unfold_let l' at ih
    have hjg : j - gap < l.length := by omega
    have hstep : ((l.set j (idx l (j - gap))).set (j - gap) temp).Perm
        (l.set j temp) := by
      rw [set_set_eq_swap_set (by omega) (by omega) h]
      exact swapL_perm (by simpa using hjg) (by simpa using h)
    exact (ih (by simpa using hjg)).trans hstep
  | case2 l gap temp j hg hgt =>
    intro h
    rw [shellInner, dif_pos hg, if_neg hgt]
  | case3 l gap temp j hg =>
    intro h
    rw [shellInner, dif_neg hg]

theorem shellI_perm [DecidableEq α] (c : Cmp α) :
    ∀ l n gap i, n ≤ l.length → ((shellI c l n gap i).1).Perm l := by
  intro l n gap i
  induction l, n, gap, i using shellI.induct c with
  | case1 l n gap i hlt temp sh l' ih =>
    intro hn
    rw [shellI, if_pos hlt]
    unfold_let l' sh temp at ih
    have hp := shellInner_set_perm c l gap (idx l i) i (by omega)
    rw [set_idx_self (by omega)] at hp
    exact (ih (by simpa [hp.length_eq] using hn)).trans hp
  | case2 l n gap i hlt =>
    intro hn
    rw [shellI, if_neg hlt]

theorem shellGap_perm [DecidableEq α] (c : Cmp α) :
    ∀ l n gap, n ≤ l.length → ((shellGap c l n gap).1).Perm l := by
  intro l n gap
  induction l, n, gap using shellGap.induct c with
  | case1 l n gap hg p ih =>
    intro hn
    rw [shellGap, dif_pos hg]
    unfold_let p at ih
    exact (ih (by simpa using hn)).trans (shellI_perm c l n gap gap hn)
  | case2 l n gap hg =>
    intro hn
    rw [shellGap, dif_neg hg]

theorem shellSort_perm [DecidableEq α] (c : Cmp α) (l : List α) :
    ((shellSort c l).1).Perm l :=
  shellGap_perm c l l.length (l.length / 2) le_rfl


/-! ## Merge characterization: the three write-back loops produce the
functional merge of the two buffers -/

theorem merge_fst_eq_mergeWrite (c : Cmp α) (l : List α)
    (left mid right : Nat) :
    (merge c l left mid right).1 =
      mergeWrite c l (sliceL l left (mid + 1))
        (sliceL l (mid + 1) (right + 1)) 0 0 left := rfl

@[simp] theorem mergeFn_nil_left (c : Cmp α) (ra : List α) :
    mergeFn c [] ra = ra := by
  cases ra <;> rw [mergeFn]

@[simp] theorem mergeFn_nil_right (c : Cmp α) (la : List α) :
    mergeFn c la [] = la := by
  cases la <;> rw [mergeFn]

theorem mergeFn_cons_cons (c : Cmp α) (a b : α) (la ra : List α) :
    mergeFn c (a :: la) (b :: ra) =
      if c.leB a b then a :: mergeFn c la (b :: ra)
      else b :: mergeFn c (a :: la) ra := by
  rw [mergeFn]

theorem mergeFn_perm [DecidableEq α] (c : Cmp α) :
    ∀ la ra, (mergeFn c la ra).Perm (la ++ ra) := by
  intro la0 ra0
  have H : ∀ t (la ra : List α), la.length + ra.length ≤ t →
      (mergeFn c la ra).Perm (la ++ ra) := by
    intro t
    induction t with
    | zero =>
      intro la ra ht
      have hla : la = [] := List.length_eq_zero.1 (by omega)
      have hra : ra = [] := List.length_eq_zero.1 (by omega)
      subst hla; subst hra
      simp
    | succ t ih =>
      intro la ra ht
      match la, ra with
      | [], ra => simp
      | a :: la, [] => simp
      | a :: la, b :: ra =>
        rw [mergeFn_cons_cons]
        by_cases hc : c.leB a b = true
        · rw [if_pos hc]
          exact (ih la (b :: ra) (by simp at ht ⊢; omega)).cons a
        · rw [if_neg hc]
          refine ((ih (a :: la) ra (by simp at ht ⊢; omega)).cons b).trans ?_
          exact (List.perm_middle).symm
  exact H (la0.length + ra0.length) la0 ra0 le_rfl

@[simp] theorem length_mergeFn (c : Cmp α) (la ra : List α) :
    (mergeFn c la ra).length = la.length + ra.length := by
  classical
  have h := (mergeFn_perm c la ra).length_eq
  simpa using h

theorem idx_drop (l : List α) (a m : Nat) (h : a + m < l.length) :
    idx (l.drop a) m = idx l (a + m) := by
  rw [idx_eq_getElem _ _ (by simp; omega), idx_eq_getElem _ _ h]
  exact List.getElem_drop l

theorem idx_sliceL (l : List α) (a b m : Nat) (h : a + m < b)
    (h2 : a + m < l.length) : idx (sliceL l a b) m = idx l (a + m) := by
  unfold sliceL
  rw [idx_eq_getElem _ _ (by simp; omega),
    idx_eq_getElem _ _ h2]
  rw [List.getElem_drop (l.take b)]
  exact List.getElem_take l

theorem drop_idx_cons (l : List α) (i : Nat) (h : i < l.length) :
    l.drop i = idx l i :: l.drop (i + 1) := by
  rw [idx_eq_getElem _ _ h]
  exact List.drop_eq_getElem_cons h

theorem mergeDrainL_chars :
    ∀ (l la : List α) i k, k + (la.length - i) ≤ l.length →
      ∀ m, m < la.length - i →
        idx (mergeDrainL l la i k).1 (k + m) = idx la (i + m) := by
  intro l la i k
  induction l, la, i, k using mergeDrainL.induct with
  | case1 l la i k hin l' ih =>
    intro hlen m hm
    rw [mergeDrainL, if_pos hin]
    unfold_let l' at ih
    dsimp only
    rcases m with _ | m
    · have e := mergeDrainL_frame (l.set k (idx la i)) la (i+1) (k+1) k
        (Or.inl (by omega))
      simpa using e.trans (idx_set_self (by omega) _)
    · have e := ih (by simp; omega) m (by omega)
      rw [show k + (m + 1) = (k + 1) + m by omega,
        show i + (m + 1) = (i + 1) + m by omega]
      exact e
  | case2 l la i k hin =>
    intro hlen m hm
    omega

theorem mergeDrainR_chars :
    ∀ (l ra : List α) j k, k + (ra.length - j) ≤ l.length →
      ∀ m, m < ra.length - j →
        idx (mergeDrainR l ra j k).1 (k + m) = idx ra (j + m) := by
  intro l ra j k
  induction l, ra, j, k using mergeDrainR.induct with
  | case1 l ra j k hin l' ih =>
    intro hlen m hm
    rw [mergeDrainR, if_pos hin]
    unfold_let l' at ih
    dsimp only
    rcases m with _ | m
    · have e := mergeDrainR_frame (l.set k (idx ra j)) ra (j+1) (k+1) k
        (Or.inl (by omega))
      simpa using e.trans (idx_set_self (by omega) _)
    · have e := ih (by simp; omega) m (by omega)
      rw [show k + (m + 1) = (k + 1) + m by omega,
        show j + (m + 1) = (j + 1) + m by omega]
      exact e
  | case2 l ra j k hin =>
    intro hlen m hm
    omega

theorem mergeWrite_frame (c : Cmp α) (l la ra : List α) (i j k : Nat)
    (hi : i ≤ la.length) (hj : j ≤ ra.length) :
    ∀ m, (m < k ∨ k + (la.length - i) + (ra.length - j) ≤ m) →
      idx (mergeWrite c l la ra i j k) m = idx l m := by
  intro m hm
  obtain ⟨hc1, hc2, hc3, hc4, hc5, hc6⟩ := mergeLoop_cursors c l la ra i j k
  specialize hc2 hi
  specialize hc4 hj
  unfold mergeWrite
  simp only []
  rw [mergeDrainR_frame _ _ _ _ m (by omega),
    mergeDrainL_frame _ _ _ _ m (by omega),
    mergeLoop_frame c _ _ _ _ _ _ m (by omega)]

theorem mergeWrite_step_left (c : Cmp α) (l la ra : List α) (i j k : Nat)
    (hin : i < la.length ∧ j < ra.length)
    (hle : c.leB (idx la i) (idx ra j) = true) :
    mergeWrite c l la ra i j k
      = mergeWrite c (l.set k (idx la i)) la ra (i + 1) j (k + 1) := by
  unfold mergeWrite
  rw [mergeLoop, if_pos hin, if_pos hle]

theorem mergeWrite_step_right (c : Cmp α) (l la ra : List α) (i j k : Nat)
    (hin : i < la.length ∧ j < ra.length)
    (hle : ¬ c.leB (idx la i) (idx ra j) = true) :
    mergeWrite c l la ra i j k
      = mergeWrite c (l.set k (idx ra j)) la ra i (j + 1) (k + 1) := by
  unfold mergeWrite
  rw [mergeLoop, if_pos hin, if_neg hle]

theorem mergeWrite_exit (c : Cmp α) (l la ra : List α) (i j k : Nat)
    (hin : ¬ (i < la.length ∧ j < ra.length)) :
    mergeWrite c l la ra i j k
      = (mergeDrainR (mergeDrainL l la i k).1 ra j
          (k + (la.length - i))).1 := by
  unfold mergeWrite
  rw [mergeLoop, if_neg hin]

theorem mergeWrite_chars (c : Cmp α) :
    ∀ t (l la ra : List α) i j k,
      (la.length - i) + (ra.length - j) ≤ t →
      i ≤ la.length → j ≤ ra.length →
      k + (la.length - i) + (ra.length - j) ≤ l.length →
      ∀ m, m < (la.length - i) + (ra.length - j) →
        idx (mergeWrite c l la ra i j k) (k + m)
          = idx (mergeFn c (la.drop i) (ra.drop j)) m := by
  intro t
  induction t with
  | zero =>
    intro l la ra i j k ht hi hj hlen m hm
    omega
  | succ t ih =>
    intro l la ra i j k ht hi hj hlen m hm
    by_cases hin : i < la.length ∧ j < ra.length
    · have hd1 : la.drop i = idx la i :: la.drop (i + 1) :=
        drop_idx_cons la i hin.1
      have hd2 : ra.drop j = idx ra j :: ra.drop (j + 1) :=
        drop_idx_cons ra j hin.2
      by_cases hle : c.leB (idx la i) (idx ra j) = true
      · rw [mergeWrite_step_left c l la ra i j k hin hle,
          hd1, hd2, mergeFn_cons_cons, if_pos hle, ← hd2]
        rcases m with _ | m
        · have e := mergeWrite_frame c (l.set k (idx la i)) la ra (i+1) j
            (k+1) (by omega) hj k (by omega)
          rw [idx_set_self (show k < l.length by omega)] at e
          simpa [idx] using e
        · rw [show k + (m + 1) = (k + 1) + m by omega]
          simp only [idx, List.getD_cons_succ]
          exact ih _ la ra (i+1) j (k+1) (by omega) (by omega) hj
            (by simp; omega) m (by omega)
      · rw [mergeWrite_step_right c l la ra i j k hin hle,
          hd1, hd2, mergeFn_cons_cons, if_neg hle, ← hd1]
        rcases m with _ | m
        · have e := mergeWrite_frame c (l.set k (idx ra j)) la ra i (j+1)
            (k+1) hi (by omega) k (by omega)
          rw [idx_set_self (show k < l.length by omega)] at e
          simpa [idx] using e
        · rw [show k + (m + 1) = (k + 1) + m by omega]
          simp only [idx, List.getD_cons_succ]
          exact ih _ la ra i (j+1) (k+1) (by omega) hi (by omega)
            (by simp; omega) m (by omega)
    · rw [mergeWrite_exit c l la ra i j k hin]
      rcases Nat.lt_or_ge i la.length with hi' | hi'
      · have hj' : ra.length ≤ j := by omega
        have hd : ra.drop j = [] := List.drop_eq_nil_of_le hj'
        rw [hd, mergeFn_nil_right]
        rw [mergeDrainR, if_neg (by omega)]
        have := mergeDrainL_chars l la i k (by omega) m (by omega)
        rw [this, idx_drop la i m (by omega)]
      · have hd : la.drop i = [] := List.drop_eq_nil_of_le hi'
        rw [hd, mergeFn_nil_left]
        rw [mergeDrainL, if_neg (by omega)]
        have h0 : la.length - i = 0 := by omega
        rw [h0, Nat.add_zero]
        have := mergeDrainR_chars l ra j k (by omega) m (by omega)
        rw [this, idx_drop ra j m (by omega)]


theorem getElem_sliceL (l : List α) (a b n : Nat)
    (h : n < (sliceL l a b).length) (h2 : a + n < l.length) :
    (sliceL l a b)[n] = l[a + n] := by
  rw [← idx_eq_getElem _ _ h, ← idx_eq_getElem _ _ h2]
  exact idx_sliceL l a b n (by simp at h; omega) h2

theorem take_sliceL_drop (l : List α) (a b : Nat) (hab : a ≤ b) :
    l.take a ++ sliceL l a b ++ l.drop b = l := by
  unfold sliceL
  have h1 : l.take a = (l.take b).take a := by
    rw [List.take_take]
    congr 1
    omega
  rw [h1, List.take_append_drop, List.take_append_drop]

theorem list_eq_of_idx_take (l1 l2 : List α) (a : Nat)
    (hlen : l1.length = l2.length)
    (h : ∀ m, m < a → idx l1 m = idx l2 m) : l1.take a = l2.take a := by
  refine List.ext_getElem (by simp [hlen]) ?_
  intro n h1 h2
  have hn : n < a := by simp at h1; omega
  have hn1 : n < l1.length := by simp at h1; omega
  rw [List.getElem_take, List.getElem_take]
  have e := h n hn
  rw [idx_eq_getElem _ _ hn1, idx_eq_getElem _ _ (by omega)] at e
  exact e

theorem list_eq_of_idx_drop (l1 l2 : List α) (a : Nat)
    (hlen : l1.length = l2.length)
    (h : ∀ m, a ≤ m → m < l1.length → idx l1 m = idx l2 m) :
    l1.drop a = l2.drop a := by
  refine List.ext_getElem (by simp [hlen]) ?_
  intro n h1 h2
  rw [List.getElem_drop, List.getElem_drop]
  have hn1 : a + n < l1.length := by simp at h1; omega
  have e := h (a + n) (by omega) hn1
  rw [idx_eq_getElem _ _ hn1, idx_eq_getElem _ _ (by omega)] at e
  exact e

theorem sliceL_append_eq (l : List α) (a b d : Nat) (h1 : a ≤ b)
    (h2 : b ≤ d) (h3 : d ≤ l.length) :
    sliceL l a b ++ sliceL l b d = sliceL l a d := by
  refine List.ext_getElem (by simp [sliceL]; omega) ?_
  intro n hn1 hn2
  have hlb : (sliceL l a b).length = b - a := by simp [sliceL]; omega
  have hn : n < d - a := by simp [sliceL] at hn2; omega
  rw [List.getElem_append]
  split_ifs with hcase
  · rw [getElem_sliceL l a b n (by omega) (by omega),
      getElem_sliceL l a d n (by omega) (by omega)]
  · rw [getElem_sliceL l b d (n - (sliceL l a b).length)
        (by simp [sliceL] at hn1 ⊢; omega) (by rw [hlb] at hcase ⊢; omega),
      getElem_sliceL l a d n (by omega) (by omega)]
    congr 1
    rw [hlb] at hcase ⊢
    omega

theorem merge_slice_chars (c : Cmp α) (l : List α) (left mid right : Nat)
    (h1 : left ≤ mid) (h2 : mid < right) (h3 : right < l.length) :
    ∀ m, m < right + 1 - left →
      idx (merge c l left mid right).1 (left + m)
        = idx (mergeFn c (sliceL l left (mid + 1))
            (sliceL l (mid + 1) (right + 1))) m := by
  intro m hm
  have hla : (sliceL l left (mid + 1)).length = mid + 1 - left := by
    simp; omega
  have hra : (sliceL l (mid + 1) (right + 1)).length = right - mid := by
    simp; omega
  rw [merge_fst_eq_mergeWrite]
  have := mergeWrite_chars c
    ((sliceL l left (mid + 1)).length + (sliceL l (mid + 1) (right + 1)).length)
    l (sliceL l left (mid + 1)) (sliceL l (mid + 1) (right + 1)) 0 0 left
    (by omega) (by omega) (by omega) (by rw [hla, hra]; omega) m
    (by rw [hla, hra]; omega)
  simpa using this

theorem merge_perm [DecidableEq α] (c : Cmp α) (l : List α)
    (left mid right : Nat) (h1 : left ≤ mid) (h2 : mid < right)
    (h3 : right < l.length) : ((merge c l left mid right).1).Perm l := by
  have hla : (sliceL l left (mid + 1)).length = mid + 1 - left := by
    simp; omega
  have hra : (sliceL l (mid + 1) (right + 1)).length = right - mid := by
    simp; omega
  have hlen : ((merge c l left mid right).1).length = l.length := by simp
  have hframe := merge_frame c l left mid right h1 h2 h3
  have d1 : ((merge c l left mid right).1).take left = l.take left :=
    list_eq_of_idx_take _ _ left hlen (fun m hm => hframe m (Or.inl hm))
  have d2 : ((merge c l left mid right).1).drop (right + 1)
      = l.drop (right + 1) :=
    list_eq_of_idx_drop _ _ (right + 1) hlen
      (fun m hm _ => hframe m (Or.inr (by omega)))
  have d3 : sliceL (merge c l left mid right).1 left (right + 1)
      = mergeFn c (sliceL l left (mid + 1)) (sliceL l (mid + 1) (right + 1)) := by
    refine List.ext_getElem (by simp; omega) ?_
    intro n hn1 hn2
    have hn : n < right + 1 - left := by simp at hn1; omega
    rw [getElem_sliceL _ left (right + 1) n (by omega) (by omega)]
    have e := merge_slice_chars c l left mid right h1 h2 h3 n hn
    rw [idx_eq_getElem _ _ (by omega), idx_eq_getElem _ _ (by omega)] at e
    exact e
  have d4 : sliceL l left (mid + 1) ++ sliceL l (mid + 1) (right + 1)
      = sliceL l left (right + 1) :=
    sliceL_append_eq l left (mid + 1) (right + 1) (by omega) (by omega)
      (by omega)
  have dec1 := take_sliceL_drop (merge c l left mid right).1 left (right + 1)
    (by omega)
  have dec2 := take_sliceL_drop l left (right + 1) (by omega)
  have heqM : (merge c l left mid right).1
      = l.take left ++ mergeFn c (sliceL l left (mid + 1))
          (sliceL l (mid + 1) (right + 1)) ++ l.drop (right + 1) := by
    rw [← d1, ← d2, ← d3]
    exact dec1.symm
  have hperm : (l.take left ++ mergeFn c (sliceL l left (mid + 1))
        (sliceL l (mid + 1) (right + 1)) ++ l.drop (right + 1)).Perm
      (l.take left ++ (sliceL l left (mid + 1) ++
        sliceL l (mid + 1) (right + 1)) ++ l.drop (right + 1)) :=
    List.Perm.append_right _ (List.Perm.append_left _ (mergeFn_perm c _ _))
  have e : l.take left ++ (sliceL l left (mid + 1) ++
      sliceL l (mid + 1) (right + 1)) ++ l.drop (right + 1) = l := by
    rw [d4]
    exact dec2
  rw [heqM]
  exact hperm.trans (by rw [e])

theorem mergeSortHelper_perm [DecidableEq α] (c : Cmp α) :
    ∀ l left right, right < l.length →
      ((mergeSortHelper c l left right).1).Perm l := by
  intro l left right
  induction l, left, right using mergeSortHelper.induct c with
  | case1 l left right hlt mid r1 ih1 ih2 ih3 =>
    intro hr
    rw [mergeSortHelper, dif_pos hlt]
    unfold_let r1 mid at ih3
    simp only [] at ih1 ih3 ⊢
    have e1 : ((mergeSortHelper c l left ((left + right) / 2)).1).length
        = l.length := by simp
    have e2 : ((mergeSortHelper c
        (mergeSortHelper c l left ((left + right) / 2)).1
        ((left + right) / 2 + 1) right).1).length = l.length := by simp
    refine ((merge_perm c _ left ((left + right) / 2) right (by omega)
      (by omega) (by omega)).trans (ih3 (by omega))).trans (ih1 (by omega))
  | case2 l left right hlt =>
    intro hr
    rw [mergeSortHelper, dif_neg hlt]

theorem mergeSort_perm [DecidableEq α] (c : Cmp α) (l : List α) :
    ((mergeSort c l).1).Perm l := by
  unfold mergeSort
  rcases Nat.eq_zero_or_pos l.length with h | h
  · rw [mergeSortHelper, dif_neg (by omega)]
  · exact mergeSortHelper_perm c l 0 (l.length - 1) (by omega)


/-! ## Sortedness: order definitions and integer comparator bridges -/

theorem nonDecreasing_of_sortedBelow (l : List Int)
    (h : sortedBelow l l.length) : NonDecreasing l :=
  fun p q hpq hq => h p q hpq hq hq

@[simp] theorem cInt_gtB_iff (a b : Int) : cInt.gtB a b = true ↔ b < a := by
  simp [cInt]

@[simp] theorem cInt_ltB_iff (a b : Int) : cInt.ltB a b = true ↔ a < b := by
  simp [cInt]

@[simp] theorem cInt_leB_iff (a b : Int) : cInt.leB a b = true ↔ a ≤ b := by
  simp [cInt]

/-! ## Insertion sort is sorted -/

/-- Full characterization of the shift loop `insShift` (for in-range
start slots, as at every call site): the final slot `j'` is at most the
start slot, positions up to `j'` and beyond the start are untouched, the
zone `(j', j1]` holds the one-shifted originals, every shifted original
was strictly greater than `current`, and the loop exited because slot
`j' - 1` was not greater than `current` (or `j' = 0`). -/
theorem insShift_spec (c : Cmp α) :
    ∀ l (cur : α) j1, j1 < l.length →
      (insShift c l cur j1).2.1 ≤ j1 ∧
      (∀ k, k ≤ (insShift c l cur j1).2.1 →
        idx (insShift c l cur j1).1 k = idx l k) ∧
      (∀ k, (insShift c l cur j1).2.1 < k → k ≤ j1 →
        idx (insShift c l cur j1).1 k = idx l (k - 1)) ∧
      (∀ k, j1 < k → idx (insShift c l cur j1).1 k = idx l k) ∧
      (∀ k, (insShift c l cur j1).2.1 ≤ k → k < j1 →
        c.gtB (idx l k) cur = true) ∧
      (0 < (insShift c l cur j1).2.1 →
        ¬ c.gtB (idx l ((insShift c l cur j1).2.1 - 1)) cur = true) := by
  intro l cur j1
  induction l, cur, j1 using insShift.induct c with
  | case1 l cur =>
    intro hlen
    rw [insShift]
    dsimp only
    refine ⟨le_rfl, fun k hk => rfl, fun k hk1 hk2 => by omega,
      fun k hk => rfl, fun k hk1 hk2 => by omega, fun h => by omega⟩
  | case2 l cur j hgt l' ih =>
    intro hlen
    rw [insShift, if_pos hgt]
    unfold_let l' at ih
    obtain ⟨ih1, ih2, ih3, ih4, ih5, ih6⟩ := ih (by simpa using
      (show j < l.length by omega))
    dsimp only
    have hne : ∀ k, k ≠ j + 1 →
        idx (l.set (j+1) (idx l j)) k = idx l k :=
      fun k hk => idx_set_ne (fun h => hk h.symm) _
    refine ⟨by omega, ?_, ?_, ?_, ?_, ?_⟩
    · intro k hk
      rw [ih2 k hk, hne k (by omega)]
    · intro k hk1 hk2
      rcases Nat.lt_or_ge k (j + 1) with hk3 | hk3
      · rw [ih3 k hk1 (by omega), hne (k - 1) (by omega)]
      · have hkj : k = j + 1 := by omega
        subst hkj
        rw [ih4 (j+1) (by omega), idx_set_self hlen _]
        congr 1
    · intro k hk
      rw [ih4 k (by omega), hne k (by omega)]
    · intro k hk1 hk2
      rcases Nat.lt_or_ge k j with hk3 | hk3
      · have h5 := ih5 k hk1 hk3
        rwa [hne k (by omega)] at h5
      · have hkj : k = j := by omega
        subst hkj
        exact hgt
    · intro h
      have h6 := ih6 h
      have hlt : (insShift c (l.set (j+1) (idx l j)) cur j).2.1 - 1 ≠ j + 1 := by
        have := ih1
        omega
      rwa [hne _ hlt] at h6
  | case3 l cur j hgt =>
    intro hlen
    rw [insShift, if_neg hgt]
    dsimp only
    refine ⟨le_rfl, fun k hk => rfl, fun k hk1 hk2 => by omega,
      fun k hk => rfl, fun k hk1 hk2 => by omega, fun h => by simpa using hgt⟩


/-- One outer iteration of insertion sort extends the sorted prefix by
one position. -/
theorem insOuter_step_sorted (l : List Int) (i : Nat) (hi : i < l.length)
    (hsort : sortedBelow l i) :
    sortedBelow (((insShift cInt l (idx l i) i).1).set
      (insShift cInt l (idx l i) i).2.1 (idx l i)) (i + 1) := by
  obtain ⟨s1, s2, s3, s4, s5, s6⟩ := insShift_spec cInt l (idx l i) i hi
  set cur := idx l i with hcur
  set r := insShift cInt l cur i with hr
  set j' := r.2.1 with hj'
  have hrlen : r.1.length = l.length := by simp [hr]
  have hv1 : ∀ k, k < j' → idx (r.1.set j' cur) k = idx l k := by
    intro k hk
    rw [idx_set_ne (by omega) _, s2 k (by omega)]
  have hv2 : idx (r.1.set j' cur) j' = cur :=
    idx_set_self (by rw [hrlen]; omega) _
  have hv3 : ∀ k, j' < k → k ≤ i → idx (r.1.set j' cur) k = idx l (k-1) := by
    intro k hk1 hk2
    rw [idx_set_ne (by omega) _, s3 k hk1 hk2]
  have hgt : ∀ k, j' ≤ k → k < i → cur < idx l k := by
    intro k hk1 hk2
    have := s5 k hk1 hk2
    rwa [cInt_gtB_iff] at this
  have hle : 0 < j' → idx l (j' - 1) ≤ cur := by
    intro h
    have := s6 h
    rw [cInt_gtB_iff] at this
    omega
  intro p q hpq hq hql
  rcases Nat.lt_trichotomy q j' with hq' | hq' | hq'
  · rw [hv1 p (by omega), hv1 q hq']
    exact hsort p q hpq (by omega) (by omega)
  · subst hq'
    rcases Nat.eq_or_lt_of_le hpq with hp | hp
    · rw [hp]
    · rw [hv1 p hp, hv2]
      calc idx l p ≤ idx l (j' - 1) :=
            hsort p (j' - 1) (by omega) (by omega) (by omega)
        _ ≤ cur := hle (by omega)
  · have hqi : q ≤ i := by omega
    rw [hv3 q hq' hqi]
    rcases Nat.lt_trichotomy p j' with hp' | hp' | hp'
    · rw [hv1 p hp']
      exact hsort p (q - 1) (by omega) (by omega) (by omega)
    · subst hp'
      rw [hv2]
      exact le_of_lt (hgt (q - 1) (by omega) (by omega))
    · rw [hv3 p hp' (by omega)]
      exact hsort (p - 1) (q - 1) (by omega) (by omega) (by omega)

theorem insOuter_sortedBelow :
    ∀ (l : List Int) n i, n = l.length → sortedBelow l i →
      sortedBelow (insOuter cInt l n i).1 n := by
  intro l n i
  induction l, n, i using insOuter.induct cInt with
  | case1 l n i hlt cur sh l' ih =>
    intro hn hsort
    rw [insOuter, if_pos hlt]
    unfold_let l' sh cur at ih
    dsimp only
    exact ih (by simp [hn]) (insOuter_step_sorted l i (by omega) hsort)
  | case2 l n i hlt =>
    intro hn hsort
    rw [insOuter, if_neg hlt]
    intro p q hpq hq hql
    exact hsort p q hpq (by omega) hql

theorem insertionSort_sorted (l : List Int) :
    NonDecreasing (insertionSort cInt l).1 := by
  have h := insOuter_sortedBelow l l.length 1 rfl ?_
  · refine nonDecreasing_of_sortedBelow _ ?_
    rw [length_insertionSort]
    exact h
  · intro p q hpq hq hql
    have : p = q := by omega
    rw [this]


/-! ## Shell sort is sorted: the final gap-1 pass is an insertion pass -/

theorem shellInner_one_eq (c : Cmp α) : ∀ j l (temp : α),
    (shellInner c l 1 temp j).1 = (insShift c l temp j).1 ∧
    (shellInner c l 1 temp j).2.1 = (insShift c l temp j).2.1 := by
  intro j
  induction j with
  | zero =>
    intro l temp
    rw [shellInner, dif_neg (by omega)]
    exact ⟨rfl, rfl⟩
  | succ j ih =>
    intro l temp
    rw [shellInner, dif_pos (by omega : 0 < 1 ∧ 1 ≤ j + 1), insShift]
    simp only [Nat.add_sub_cancel]
    by_cases hc : c.gtB (idx l j) temp = true
    · rw [if_pos hc, if_pos hc]
      dsimp only
      exact ih (l.set (j+1) (idx l j)) temp
    · rw [if_neg hc, if_neg hc]
      exact ⟨rfl, rfl⟩

theorem shellI_one_eq (c : Cmp α) (n : Nat) :
    ∀ t l i, n - i ≤ t → (shellI c l n 1 i).1 = (insOuter c l n i).1 := by
  intro t
  induction t with
  | zero =>
    intro l i ht
    rw [shellI, if_neg (by omega), insOuter, if_neg (by omega)]
  | succ t ih =>
    intro l i ht
    by_cases hlt : i < n
    · rw [shellI, if_pos hlt, insOuter, if_pos hlt]
      dsimp only
      obtain ⟨e1, e2⟩ := shellInner_one_eq c i l (idx l i)
      rw [e1, e2]
      exact ih _ (i+1) (by omega)
    · rw [shellI, if_neg hlt, insOuter, if_neg hlt]

theorem shellGap_sorted :
    ∀ (l : List Int) n gap, n = l.length → 1 ≤ gap →
      NonDecreasing (shellGap cInt l n gap).1 := by
  intro l n gap
  induction l, n, gap using shellGap.induct cInt with
  | case1 l n gap hg p ih =>
    intro hn hgap
    rw [shellGap, dif_pos hg]
    unfold_let p at ih
    dsimp only
    rcases Nat.lt_or_ge gap 2 with hg2 | hg2
    · have hgap1 : gap = 1 := by omega
      subst hgap1
      rw [shellGap, dif_neg (by omega)]
      have he := shellI_one_eq cInt n (n - 1) l 1 le_rfl
      rw [he]
      have hs := insOuter_sortedBelow l n 1 hn ?_
      · refine nonDecreasing_of_sortedBelow _ ?_
        rw [length_insOuter, ← hn]
        exact hs
      · intro p q hpq hq hql
        have : p = q := by omega
        rw [this]
    · exact ih (by simp [hn]) (by omega)
  | case2 l n gap hg =>
    intro hn hgap
    omega

theorem shellSort_sorted (l : List Int) :
    NonDecreasing (shellSort cInt l).1 := by
  unfold shellSort
  dsimp only
  rcases Nat.lt_or_ge l.length 2 with h2 | h2
  · have h0 : l.length / 2 = 0 := by omega
    rw [h0, shellGap, dif_neg (by omega)]
    dsimp only
    intro p q hpq hq
    have hpq' : p = q := by omega
    rw [hpq']
  · exact shellGap_sorted l l.length (l.length / 2) rfl (by omega)


/-! ## Selection sort is sorted -/

theorem selScan_min (l : List Int) (n : Nat) : ∀ j m,
    (∀ k, j ≤ k → k < n → idx l (selScan cInt l n j m).1 ≤ idx l k) ∧
    idx l (selScan cInt l n j m).1 ≤ idx l m := by
  intro j m
  induction j, m using selScan.induct cInt l n with
  | case1 j m hlt mm ih =>
    rw [selScan, if_pos hlt]
    unfold_let mm at ih
    dsimp only
    by_cases hc : cInt.ltB (idx l j) (idx l m) = true
    · simp only [dif_pos hc] at ih
      simp only [if_pos hc]
      obtain ⟨ihA, ihB⟩ := ih
      rw [cInt_ltB_iff] at hc
      refine ⟨?_, le_trans ihB (le_of_lt hc)⟩
      intro k hk1 hk2
      rcases Nat.eq_or_lt_of_le hk1 with he | hlt'
      · rw [← he]; exact ihB
      · exact ihA k hlt' hk2
    · simp only [dif_neg hc] at ih
      simp only [if_neg hc]
      obtain ⟨ihA, ihB⟩ := ih
      rw [cInt_ltB_iff] at hc
      push_neg at hc
      refine ⟨?_, ihB⟩
      intro k hk1 hk2
      rcases Nat.eq_or_lt_of_le hk1 with he | hlt'
      · rw [← he]; exact le_trans ihB hc
      · exact ihA k hlt' hk2
  | case2 j m hlt =>
    rw [selScan, if_neg hlt]
    exact ⟨fun k hk1 hk2 => by omega, le_rfl⟩

theorem selOuter_sorted :
    ∀ (l : List Int) n i, n = l.length → sortedBelow l i →
      (∀ p q, p < i → i ≤ q → q < n → idx l p ≤ idx l q) →
      sortedBelow (selOuter cInt l n i).1 n := by
  intro l n i
  induction l, n, i using selOuter.induct cInt with
  | case1 l n i hlt sc p ih =>
    intro hn hsort hdom
    rw [selOuter, if_pos hlt]
    unfold_let p sc at ih
    dsimp only
    have hb := selScan_minIndex_bounds cInt l n (i+1) i
    obtain ⟨hminA, hminB⟩ := selScan_min l n (i+1) i
    set m' := (selScan cInt l n (i+1) i).1 with hm'
    have hm'b : i ≤ m' ∧ m' < n := by
      rcases hb with h | h
      · omega
      · omega
    have hmin : ∀ k, i ≤ k → k < n → idx l m' ≤ idx l k := by
      intro k hk1 hk2
      rcases Nat.eq_or_lt_of_le hk1 with he | hlt'
      · rw [← he]; exact hminB
      · exact hminA k hlt' hk2
    set l1 := if h : m' ≠ i then swapL l i m' else l with hl1
    have hv0 : ∀ k, k ≠ i → k ≠ m' → idx l1 k = idx l k := by
      intro k hk1 hk2
      rw [hl1]
      split_ifs with h
      · exact idx_swapL_other (fun he => hk1 he.symm) (fun he => hk2 he.symm)
      · rfl
    have hvi : idx l1 i = idx l m' := by
      rw [hl1]
      split_ifs with h
      · exact idx_swapL_left (by omega) (by omega)
      · push_neg at h
        rw [h]
    have hvm : idx l1 m' = idx l i := by
      rw [hl1]
      split_ifs with h
      · exact idx_swapL_right (by omega)
      · push_neg at h
        rw [h]
    have hl1len : l1.length = l.length := by
      rw [hl1]
      split_ifs <;> simp
    have hsort1 : sortedBelow l1 (i+1) := by
      intro a b hab hb hbl
      rcases Nat.lt_or_ge b i with hb' | hb'
      · rw [hv0 a (by omega) (by omega), hv0 b (by omega) (by omega)]
        exact hsort a b hab (by omega) (by omega)
      · have hbi : b = i := by omega
        subst hbi
        rcases Nat.eq_or_lt_of_le hab with he | ha
        · rw [he]
        · rw [hvi, hv0 a (by omega) (by omega)]
          exact hdom a m' ha (by omega) (by omega)
    have hdom1 : ∀ a b, a < i + 1 → i + 1 ≤ b → b < n →
        idx l1 a ≤ idx l1 b := by
      intro a b ha hb hbn
      have hrb : idx l1 b = idx l b ∨ (b = m' ∧ idx l1 b = idx l i) := by
        by_cases hbm : b = m'
        · exact Or.inr ⟨hbm, by rw [hbm, hvm]⟩
        · exact Or.inl (hv0 b (by omega) hbm)
      rcases Nat.lt_or_ge a i with ha' | ha'
      · rw [hv0 a (by omega) (by omega)]
        rcases hrb with ⟨h⟩ | ⟨hbm, h⟩
        · rw [h]
          exact hdom a b ha' (by omega) hbn
        · rw [h]
          exact hdom a i ha' le_rfl (by omega)
      · have hai : a = i := by omega
        subst hai
        rw [hvi]
        rcases hrb with ⟨h⟩ | ⟨hbm, h⟩
        · rw [h]
          exact hmin b (by omega) hbn
        · rw [h]
          exact hminB
    have hfix : (if h : m' ≠ i then (swapL l i m', [Step.swapS i m'])
        else (l, ([] : List (Step Int)))).1 = l1 := by
      rw [hl1]
      split_ifs <;> rfl
    have hfix2 : (if m' ≠ i then (swapL l i m', [Step.swapS i m'])
        else (l, ([] : List (Step Int)))).1 = l1 := by
      rw [hl1]
      split_ifs <;> rfl
    rw [hfix] at ih
    rw [hfix2]
    exact ih (by omega) hsort1 hdom1
  | case2 l n i hlt =>
    intro hn hsort hdom
    rw [selOuter, if_neg hlt]
    intro a b hab hb hbl
    exact hsort a b hab (by omega) hbl

theorem selectionSort_sorted (l : List Int) :
    NonDecreasing (selectionSort cInt l).1 := by
  have h := selOuter_sorted l l.length 0 rfl
    (fun a b hab hb hbl => by omega)
    (fun a b ha hb hbn => by omega)
  refine nonDecreasing_of_sortedBelow _ ?_
  rw [length_selectionSort]
  exact h


/-! ## Bubble sort is sorted -/

theorem bubbleInner_sorted :
    ∀ (l : List Int) n i j,
      n = l.length → j + i + 1 ≤ n →
      (∀ k, k ≤ j → idx l k ≤ idx l j) →
      (∀ p q, n - i ≤ p → p ≤ q → q < n → idx l p ≤ idx l q) →
      (∀ p q, p < n - i → n - i ≤ q → q < n → idx l p ≤ idx l q) →
      (∀ p q, n - i - 1 ≤ p → p ≤ q → q < n →
        idx (bubbleInner cInt l n i j).1 p
          ≤ idx (bubbleInner cInt l n i j).1 q) ∧
      (∀ p q, p < n - i - 1 → n - i - 1 ≤ q → q < n →
        idx (bubbleInner cInt l n i j).1 p
          ≤ idx (bubbleInner cInt l n i j).1 q) := by
  intro l n i j
  induction l, n, i, j using bubbleInner.induct cInt with
  | case1 l n i j hlt p ih =>
    intro hn hle hM hS hD
    rw [bubbleInner, if_pos hlt]
    unfold_let p at ih
    dsimp only
    by_cases hc : cInt.gtB (idx l j) (idx l (j+1)) = true
    · simp only [dif_pos hc] at ih
      simp only [if_pos hc]
      rw [cInt_gtB_iff] at hc
      have hj1 : j + 1 < l.length := by omega
      have hvj : idx (swapL l j (j+1)) j = idx l (j+1) :=
        idx_swapL_left (by omega) hj1
      have hvj1 : idx (swapL l j (j+1)) (j+1) = idx l j :=
        idx_swapL_right hj1
      have hvo : ∀ k, k ≠ j → k ≠ j + 1 →
          idx (swapL l j (j+1)) k = idx l k :=
        fun k h1 h2 => idx_swapL_other (fun h => h1 h.symm)
          (fun h => h2 h.symm)
      refine ih (by simp [hn]) (by omega) ?_ ?_ ?_
      · intro k hk
        rw [hvj1]
        rcases Nat.lt_trichotomy k j with h | h | h
        · rw [hvo k (by omega) (by omega)]
          exact hM k (by omega)
        · rw [h, hvj]
          exact le_of_lt hc
        · have hk1 : k = j + 1 := by omega
          rw [hk1, hvj1]
      · intro a b ha hab hb
        rw [hvo a (by omega) (by omega), hvo b (by omega) (by omega)]
        exact hS a b ha hab hb
      · intro a b ha hb hbn
        rw [hvo b (by omega) (by omega)]
        rcases Nat.lt_trichotomy a j with h | h | h
        · rw [hvo a (by omega) (by omega)]
          exact hD a b ha hb hbn
        · subst h
          rw [hvj]
          exact hD (a+1) b (by omega) hb hbn
        · rcases Nat.lt_trichotomy a (j+1) with h2 | h2 | h2
          · omega
          · subst h2
            rw [hvj1]
            exact hD j b (by omega) hb hbn
          · rw [hvo a (by omega) (by omega)]
            exact hD a b ha hb hbn
    · simp only [dif_neg hc] at ih
      simp only [if_neg hc]
      rw [cInt_gtB_iff] at hc
      push_neg at hc
      refine ih hn (by omega) ?_ hS hD
      intro k hk
      rcases Nat.lt_or_ge k (j + 1) with h | h
      · exact le_trans (hM k (by omega)) hc
      · have : k = j + 1 := by omega
        subst this
        exact le_rfl
  | case2 l n i j hlt =>
    intro hn hle hM hS hD
    rw [bubbleInner, if_neg hlt]
    have hj : j = n - i - 1 := by omega
    constructor
    · intro a b ha hab hb
      rcases Nat.eq_or_lt_of_le hab with he | hlt'
      · rw [he]
      · rcases Nat.eq_or_lt_of_le ha with he2 | hlt2
        · rw [← he2]
          exact hD (n - i - 1) b (by omega) (by omega) hb
        · exact hS a b (by omega) hab hb
    · intro a b ha hb hbn
      rcases Nat.eq_or_lt_of_le hb with he | hlt'
      · rw [← he, ← hj]
        exact hM a (by omega)
      · exact hD a b (by omega) (by omega) hbn

theorem bubbleOuter_sorted :
    ∀ (l : List Int) n i, n = l.length →
      (∀ p q, n - i ≤ p → p ≤ q → q < n → idx l p ≤ idx l q) →
      (∀ p q, p < n - i → n - i ≤ q → q < n → idx l p ≤ idx l q) →
      ∀ p q, p ≤ q → q < n →
        idx (bubbleOuter cInt l n i).1 p ≤ idx (bubbleOuter cInt l n i).1 q := by
  intro l n i
  induction l, n, i using bubbleOuter.induct cInt with
  | case1 l n i hlt p ih =>
    intro hn hS hD
    rw [bubbleOuter, if_pos hlt]
    unfold_let p at ih
    dsimp only
    obtain ⟨hS', hD'⟩ := bubbleInner_sorted l n i 0 hn (by omega)
      (fun k hk => by rw [Nat.le_zero.1 hk]) hS hD
    have : n - (i + 1) = n - i - 1 := by omega
    rw [this] at *
    exact ih (by simp [hn]) hS' hD'
  | case2 l n i hlt =>
    intro hn hS hD p q hpq hq
    rw [bubbleOuter, if_neg hlt]
    exact hS p q (by omega) hpq hq

theorem bubbleSort_sorted (l : List Int) :
    NonDecreasing (bubbleSort cInt l).1 := by
  unfold bubbleSort
  dsimp only
  intro p q hpq hq
  rw [length_bubbleOuter] at hq
  exact bubbleOuter_sorted l l.length 0 rfl
    (fun a b ha hab hb => by omega)
    (fun a b ha hb hbn => by omega) p q hpq hq


/-! ## Merge sort is sorted -/

theorem pairwise_le_of_idx (la : List Int)
    (h : ∀ p q, p < q → q < la.length → idx la p ≤ idx la q) :
    la.Pairwise (· ≤ ·) := by
  rw [List.pairwise_iff_getElem]
  intro i j hi hj hij
  have e := h i j hij hj
  rwa [idx_eq_getElem _ _ hi, idx_eq_getElem _ _ hj] at e

theorem idx_le_of_pairwise (la : List Int) (h : la.Pairwise (· ≤ ·)) :
    ∀ p q, p ≤ q → q < la.length → idx la p ≤ idx la q := by
  intro p q hpq hq
  rcases Nat.eq_or_lt_of_le hpq with he | hlt
  · rw [he]
  · rw [idx_eq_getElem _ _ (by omega), idx_eq_getElem _ _ hq]
    exact List.pairwise_iff_getElem.1 h p q (by omega) hq hlt

theorem mergeFn_mem (c : Cmp Int) [DecidableEq Int] (la ra : List Int) :
    ∀ x ∈ mergeFn c la ra, x ∈ la ∨ x ∈ ra := by
  intro x hx
  have := (mergeFn_perm c la ra).mem_iff.1 hx
  simpa using this

theorem mergeFn_sorted :
    ∀ t (la ra : List Int), la.length + ra.length ≤ t →
      la.Pairwise (· ≤ ·) → ra.Pairwise (· ≤ ·) →
      (mergeFn cInt la ra).Pairwise (· ≤ ·) := by
  intro t
  induction t with
  | zero =>
    intro la ra ht h1 h2
    have hla : la = [] := List.length_eq_zero.1 (by omega)
    have hra : ra = [] := List.length_eq_zero.1 (by omega)
    subst hla; subst hra
    simp
  | succ t ih =>
    intro la ra ht h1 h2
    match la, ra with
    | [], ra => simpa using h2
    | a :: la, [] => simpa using h1
    | a :: la, b :: ra =>
      rw [mergeFn_cons_cons]
      rw [List.pairwise_cons] at h1 h2
      by_cases hc : cInt.leB a b = true
      · rw [if_pos hc]
        rw [cInt_leB_iff] at hc
        rw [List.pairwise_cons]
        constructor
        · intro y hy
          rcases mergeFn_mem cInt la (b :: ra) y hy with h | h
          · exact h1.1 y h
          · rcases List.mem_cons.1 h with he | h
            · rw [he]; exact hc
            · exact le_trans hc (h2.1 y h)
        · exact ih la (b :: ra) (by simp at ht ⊢; omega) h1.2
            (List.pairwise_cons.2 h2)
      · rw [if_neg hc]
        rw [cInt_leB_iff] at hc
        push_neg at hc
        rw [List.pairwise_cons]
        constructor
        · intro y hy
          rcases mergeFn_mem cInt (a :: la) ra y hy with h | h
          · rcases List.mem_cons.1 h with he | h
            · rw [he]; exact le_of_lt hc
            · exact le_trans (le_of_lt hc) (h1.1 y h)
          · exact h2.1 y h
        · exact ih (a :: la) ra (by simp at ht ⊢; omega)
            (List.pairwise_cons.2 h1) h2.2

/-- The idx-level sortedness of a slice, as a `Pairwise` list fact. -/
theorem sliceL_pairwise (l : List Int) (a b : Nat) (hb : b ≤ l.length)
    (h : ∀ p q, a ≤ p → p ≤ q → q < b → idx l p ≤ idx l q) :
    (sliceL l a b).Pairwise (· ≤ ·) := by
  refine pairwise_le_of_idx _ ?_
  intro p q hpq hq
  have hq' : q < b - a := by simp [sliceL] at hq; omega
  rw [idx_sliceL l a b p (by omega) (by omega),
    idx_sliceL l a b q (by omega) (by omega)]
  exact h (a + p) (a + q) (by omega) (by omega) (by omega)

theorem mergeSortHelper_sortedSeg :
    ∀ (l : List Int) left right, right < l.length →
      sortedSeg (mergeSortHelper cInt l left right).1 left right := by
  intro l left right
  induction l, left, right using mergeSortHelper.induct cInt with
  | case1 l left right hlt mid r1 ih1 ih2 ih3 =>
    intro hr
    rw [mergeSortHelper, dif_pos hlt]
    unfold_let r1 mid at ih3
    dsimp only
    set m := (left + right) / 2 with hm
    have hm1 : left ≤ m := by omega
    have hm2 : m < right := by omega
    set A := (mergeSortHelper cInt l left m).1 with hA
    set B := (mergeSortHelper cInt A (m + 1) right).1 with hB
    have hAlen : A.length = l.length := by rw [hA]; simp
    have hBlen : B.length = l.length := by rw [hB, hA]; simp
    have hs1 : sortedSeg A left m := ih1 (by omega)
    have hs2 : sortedSeg B (m + 1) right := ih3 (by omega)
    have hfr2 : ∀ k, k < m + 1 ∨ right < k → idx B k = idx A k :=
      fun k hk => mergeSortHelper_frame cInt A (m+1) right (by omega) k hk
    have hs1B : sortedSeg B left m := by
      intro p q hp hpq hq hql
      rw [hfr2 p (by omega), hfr2 q (by omega)]
      exact hs1 p q hp hpq hq (by omega)
    have hla : (sliceL B left (m + 1)).Pairwise (· ≤ ·) := by
      refine sliceL_pairwise B left (m + 1) (by omega) ?_
      intro p q hp hpq hq
      exact hs1B p q hp hpq (by omega) (by omega)
    have hra : (sliceL B (m + 1) (right + 1)).Pairwise (· ≤ ·) := by
      refine sliceL_pairwise B (m + 1) (right + 1) (by omega) ?_
      intro p q hp hpq hq
      exact hs2 p q hp hpq (by omega) (by omega)
    have hsorted := mergeFn_sorted
      ((sliceL B left (m + 1)).length + (sliceL B (m + 1) (right + 1)).length)
      _ _ le_rfl hla hra
    have hlen2 : (sliceL B left (m + 1)).length
        + (sliceL B (m + 1) (right + 1)).length = right + 1 - left := by
      simp
      omega
    intro p q hp hpq hq hql
    have hchars := merge_slice_chars cInt B left m right hm1 hm2 (by omega)
    rw [show p = left + (p - left) by omega, show q = left + (q - left) by omega,
      hchars (p - left) (by omega), hchars (q - left) (by omega)]
    exact idx_le_of_pairwise _ hsorted (p - left) (q - left) (by omega)
      (by rw [length_mergeFn, hlen2]; omega)
  | case2 l left right hlt =>
    intro hr
    rw [mergeSortHelper, dif_neg hlt]
    intro p q hp hpq hq hql
    have : p = q := by omega
    rw [this]

theorem mergeSort_sorted (l : List Int) :
    NonDecreasing (mergeSort cInt l).1 := by
  unfold mergeSort
  rcases Nat.eq_zero_or_pos l.length with h | h
  · rw [mergeSortHelper, dif_neg (by omega)]
    dsimp only
    intro p q hpq hq
    have hpq2 : p = q := by omega
    rw [hpq2]
  · have hs := mergeSortHelper_sortedSeg l 0 (l.length - 1) (by omega)
    intro p q hpq hq
    rw [length_mergeSortHelper] at hq
    exact hs p q (by omega) hpq (by omega)
      (by rw [length_mergeSortHelper]; omega)


/-! ## Quick sort is sorted -/

theorem idx_mem (l : List α) (m : Nat) (h : m < l.length) :
    idx l m ∈ l := by
  rw [idx_eq_getElem _ _ h]
  exact List.getElem_mem h

theorem sliceL_perm_of_frame (l' l : List Int) (a b : Nat)
    (hperm : l'.Perm l) (hlen : l'.length = l.length)
    (hframe : ∀ m, m < a ∨ b ≤ m → idx l' m = idx l m)
    (hab : a ≤ b) : (sliceL l' a b).Perm (sliceL l a b) := by
  rw [List.perm_iff_count]
  intro x
  have d1 : l'.take a = l.take a :=
    list_eq_of_idx_take _ _ a hlen (fun m hm => hframe m (Or.inl hm))
  have d2 : l'.drop b = l.drop b :=
    list_eq_of_idx_drop _ _ b hlen (fun m hm _ => hframe m (Or.inr hm))
  have e1 := take_sliceL_drop l' a b hab
  have e2 := take_sliceL_drop l a b hab
  have c1 : List.count x l' = List.count x l := List.perm_iff_count.1 hperm x
  have h1 : List.count x l' = List.count x (l'.take a)
      + List.count x (sliceL l' a b) + List.count x (l'.drop b) := by
    conv_lhs => rw [← e1]
    rw [List.count_append, List.count_append]
  have h2 : List.count x l = List.count x (l.take a)
      + List.count x (sliceL l a b) + List.count x (l.drop b) := by
    conv_lhs => rw [← e2]
    rw [List.count_append, List.count_append]
  rw [d1, d2] at h1
  omega

/-- A property of every value of a range survives an in-range
permutation. -/
theorem range_all_preserved (P : Int → Prop) (l' l : List Int) (a b : Nat)
    (hperm : l'.Perm l) (hlen : l'.length = l.length)
    (hframe : ∀ m, m < a ∨ b ≤ m → idx l' m = idx l m)
    (hab : a ≤ b) (hb : b ≤ l.length)
    (hP : ∀ k, a ≤ k → k < b → P (idx l k)) :
    ∀ k, a ≤ k → k < b → P (idx l' k) := by
  intro k hk1 hk2
  have hsp := sliceL_perm_of_frame l' l a b hperm hlen hframe hab
  have hmem : idx l' k ∈ sliceL l' a b := by
    have e : idx (sliceL l' a b) (k - a) = idx l' k := by
      rw [idx_sliceL l' a b (k - a) (by omega) (by omega)]
      congr 1
      omega
    rw [← e]
    exact idx_mem _ _ (by simp [sliceL]; omega)
  have hmem2 : idx l' k ∈ sliceL l a b := hsp.mem_iff.1 hmem
  obtain ⟨m, hm, he⟩ := List.mem_iff_getElem.1 hmem2
  have hm' : m < b - a := by simp [sliceL] at hm; omega
  rw [getElem_sliceL l a b m (by omega) (by omega),
    ← idx_eq_getElem _ _ (by omega : a + m < l.length)] at he
  rw [← he]
  exact hP (a + m) (by omega) (by omega)

theorem partLoop_spec (pivot : Int) :
    ∀ (l : List Int) high i1 j, high ≤ l.length → i1 ≤ j →
      (∀ k, i1 ≤ k → k < j → pivot < idx l k) →
      (∀ k, i1 ≤ k → k < (partLoop cInt l high pivot i1 j).2.1 →
        idx (partLoop cInt l high pivot i1 j).1 k ≤ pivot) ∧
      (∀ k, (partLoop cInt l high pivot i1 j).2.1 ≤ k → k < high →
        pivot < idx (partLoop cInt l high pivot i1 j).1 k) := by
  intro l high i1 j
  induction l, high, pivot, i1, j using partLoop.induct cInt with
  | case1 l high pivot i1 j hj hle p ih =>
    intro hhl hij hpre
    rw [partLoop, if_pos hj, if_pos hle]
    unfold_let p at ih
    rw [cInt_leB_iff] at hle
    by_cases hij' : i1 ≠ j
    · simp only [dif_pos hij'] at ih
      simp only [if_pos hij']
      have hpre' : ∀ k, i1 + 1 ≤ k → k < j + 1 →
          pivot < idx (swapL l i1 j) k := by
        intro k hk1 hk2
        rcases Nat.lt_or_ge k j with hk3 | hk3
        · rw [idx_swapL_other (by omega) (by omega)]
          exact hpre k (by omega) hk3
        · have hkj : k = j := by omega
          rw [hkj, idx_swapL_right (by omega)]
          exact hpre i1 le_rfl (by omega)
      obtain ⟨ihA, ihB⟩ := ih (by simp [length_swapL]; omega) (by omega) hpre'
      refine ⟨?_, ihB⟩
      intro k hk1 hk2
      rcases Nat.lt_or_ge k (i1 + 1) with hk3 | hk3
      · have hki : k = i1 := by omega
        rw [hki]
        rw [partLoop_frame cInt _ high pivot (i1+1) (j+1) i1 (by omega)
          (by omega)]
        rw [idx_swapL_left (by omega) (by omega)]
        exact hle
      · exact ihA k hk3 hk2
    · simp only [dif_neg hij'] at ih
      simp only [if_neg hij']
      push_neg at hij'
      subst hij'
      have hpre' : ∀ k, i1 + 1 ≤ k → k < i1 + 1 → pivot < idx l k := by
        intro k hk1 hk2
        omega
      obtain ⟨ihA, ihB⟩ := ih hhl (by omega) hpre'
      refine ⟨?_, ihB⟩
      intro k hk1 hk2
      rcases Nat.lt_or_ge k (i1 + 1) with hk3 | hk3
      · have hki : k = i1 := by omega
        rw [hki]
        rw [partLoop_frame cInt l high pivot (i1+1) (i1+1) i1 le_rfl
          (by omega)]
        exact hle
      · exact ihA k hk3 hk2
  | case2 l high pivot i1 j hj hle ih =>
    intro hhl hij hpre
    rw [partLoop, if_pos hj, if_neg hle]
    rw [cInt_leB_iff] at hle
    push_neg at hle
    have hpre' : ∀ k, i1 ≤ k → k < j + 1 → pivot < idx l k := by
      intro k hk1 hk2
      rcases Nat.lt_or_ge k j with hk3 | hk3
      · exact hpre k hk1 hk3
      · have hkj : k = j := by omega
        rw [hkj]
        exact hle
    exact ih hhl (by omega) hpre'
  | case3 l high pivot i1 j hj =>
    intro hhl hij hpre
    rw [partLoop, if_neg hj]
    dsimp only
    exact ⟨fun k hk1 hk2 => by omega,
      fun k hk1 hk2 => hpre k hk1 (by omega)⟩

theorem partition_spec (l : List Int) (low high : Nat) (hlh : low ≤ high)
    (hh : high < l.length) :
    (∀ k, low ≤ k → k < (partition cInt l low high).2.1 →
      idx (partition cInt l low high).1 k ≤ idx l high) ∧
    idx (partition cInt l low high).1 (partition cInt l low high).2.1
      = idx l high ∧
    (∀ k, (partition cInt l low high).2.1 < k → k ≤ high →
      idx l high ≤ idx (partition cInt l low high).1 k) := by
  have hpi := partition_pi_bounds cInt l low high
  obtain ⟨sA, sB⟩ := partLoop_spec (idx l high) l high low low (by omega)
    le_rfl (fun k hk1 hk2 => by omega)
  have hfr := partLoop_frame cInt l high (idx l high) low low high le_rfl
    (Or.inr le_rfl)
  unfold partition at hpi ⊢
  dsimp only at hpi ⊢
  set r := partLoop cInt l high (idx l high) low low with hr
  set pi := r.2.1 with hpiv
  have hrlen : r.1.length = l.length := by rw [hr]; simp
  refine ⟨?_, ?_, ?_⟩
  · intro k hk1 hk2
    rw [idx_swapL_other (by omega) (by omega)]
    exact sA k hk1 hk2
  · rw [idx_swapL_left (by omega) (by omega), hfr]
  · intro k hk1 hk2
    rcases Nat.lt_or_ge k high with hk3 | hk3
    · rw [idx_swapL_other (by omega) (by omega)]
      exact le_of_lt (sB k (by omega) hk3)
    · have hkh : k = high := by omega
      subst hkh
      rw [idx_swapL_right (by omega)]
      exact le_of_lt (sB pi le_rfl (by omega))


theorem quickSortHelper_sortedSeg :
    ∀ (l : List Int) low high, high < l.length →
      sortedSeg (quickSortHelper cInt l low high).1 low high := by
  intro l low high
  induction l, low, high using quickSortHelper.induct cInt with
  | case1 l low high hlt p r1 ih1 ih2 ih3 =>
    intro hh
    have hpi := partition_pi_bounds cInt l low high
    have hspec := partition_spec l low high (le_of_lt hlt) hh
    rw [quickSortHelper, dif_pos hlt]
    unfold_let r1 p at ih3
    unfold_let p at ih1
    simp only [] at ih1 ih3 ⊢
    set pv := idx l high with hpv
    set A := (partition cInt l low high).1 with hA
    set pi := (partition cInt l low high).2.1 with hpi2
    set B := (quickSortHelper cInt A low (pi - 1)).1 with hB
    set C := (quickSortHelper cInt B (pi + 1) high).1 with hC
    obtain ⟨P1, P2, P3⟩ := hspec
    have hAlen : A.length = l.length := by rw [hA]; simp
    have hBlen : B.length = l.length := by
      rw [hB, length_quickSortHelper, hAlen]
    have hClen : C.length = l.length := by
      rw [hC, length_quickSortHelper, hBlen]
    have hsB : sortedSeg B low (pi - 1) := ih1 (by omega)
    have hfrB : ∀ m, m < low ∨ pi ≤ m → idx B m = idx A m := by
      intro m hm
      rcases Nat.eq_zero_or_pos pi with h0 | h0
      · have hB0 : B = A := by
          rw [hB, quickSortHelper, dif_neg (by omega)]
        rw [hB0]
      · rw [hB]
        exact quickSortHelper_frame cInt A low (pi - 1) m (by omega)
    have hpermB : B.Perm A := by
      rw [hB]
      exact quickSortHelper_perm cInt A low (pi - 1) (by omega)
    have hP1B : ∀ k, low ≤ k → k < pi → idx B k ≤ pv :=
      range_all_preserved (fun x => x ≤ pv) B A low pi hpermB (by omega)
        hfrB (by omega) (by omega) P1
    have hP3B : ∀ k, pi < k → k ≤ high → pv ≤ idx B k := by
      intro k hk1 hk2
      rw [hfrB k (Or.inr (by omega))]
      exact P3 k hk1 hk2
    have hP2B : idx B pi = pv := by
      rw [hfrB pi (Or.inr le_rfl)]
      exact P2
    have hfrC : ∀ m, m < pi + 1 ∨ high < m → idx C m = idx B m := by
      intro m hm
      rw [hC]
      exact quickSortHelper_frame cInt B (pi + 1) high m hm
    have hpermC : C.Perm B := by
      rw [hC]
      exact quickSortHelper_perm cInt B (pi + 1) high (by omega)
    have hsC : sortedSeg C (pi + 1) high := ih3 (by omega)
    have hP3C : ∀ k, pi + 1 ≤ k → k < high + 1 → pv ≤ idx C k :=
      range_all_preserved (fun x => pv ≤ x) C B (pi + 1) (high + 1)
        hpermC (by omega) (fun m hm => hfrC m (by omega)) (by omega)
        (by omega) (fun k hk1 hk2 => hP3B k (by omega) (by omega))
    have hP1C : ∀ k, low ≤ k → k < pi → idx C k ≤ pv := by
      intro k hk1 hk2
      rw [hfrC k (Or.inl (by omega))]
      exact hP1B k hk1 hk2
    have hP2C : idx C pi = pv := by
      rw [hfrC pi (Or.inl (by omega))]
      exact hP2B
    have hsClow : ∀ p q, low ≤ p → p ≤ q → q < pi → idx C p ≤ idx C q := by
      intro p q hp hpq hq
      rw [hfrC p (Or.inl (by omega)), hfrC q (Or.inl (by omega))]
      exact hsB p q hp hpq (by omega) (by omega)
    intro p q hp hpq hq hql
    rcases Nat.lt_trichotomy q pi with hq1 | hq1 | hq1
    · exact hsClow p q hp hpq hq1
    · rcases Nat.lt_trichotomy p pi with hp1 | hp1 | hp1
      · rw [hq1, hP2C]
        exact hP1C p hp hp1
      · rw [hp1, hq1]
      · omega
    · rcases Nat.lt_trichotomy p pi with hp1 | hp1 | hp1
      · exact le_trans (hP1C p hp hp1) (hP3C q (by omega) (by omega))
      · rw [hp1, hP2C]
        exact hP3C q (by omega) (by omega)
      · exact hsC p q (by omega) hpq hq (by omega)
  | case2 l low high hlt =>
    intro hh
    rw [quickSortHelper, dif_neg hlt]
    dsimp only
    intro p q hp hpq hq hql
    have hpq' : p = q := by omega
    rw [hpq']

theorem quickSort_sorted (l : List Int) :
    NonDecreasing (quickSort cInt l).1 := by
  intro p q hpq hq
  have hlen : (quickSort cInt l).1.length = l.length := by simp
  rcases Nat.eq_zero_or_pos l.length with h0 | h0
  · omega
  · have hs := quickSortHelper_sortedSeg l 0 (l.length - 1) (by omega)
    rw [quickSort]
    exact hs p q (by omega) hpq (by omega)
      (by rw [length_quickSortHelper]; omega)


/-! ## Heap sort is sorted -/

theorem inSub_refl (i : Nat) : inSub i i = true := by
  rw [inSub, if_pos le_rfl]
  simp

theorem inSub_ge (i j : Nat) (h : inSub i j = true) : i ≤ j := by
  rw [inSub] at h
  by_cases hj : j ≤ i
  · rw [if_pos hj] at h
    simp at h
    omega
  · omega

theorem inSub_parent (i j : Nat) (h : inSub i j = true) (hne : j ≠ i) :
    inSub i ((j - 1) / 2) = true := by
  rw [inSub] at h
  by_cases hj : j ≤ i
  · rw [if_pos hj] at h
    simp at h
    exact absurd h hne
  · rw [if_neg hj] at h
    exact h

theorem inSub_of_parent (i j : Nat) (hij : i < j)
    (h : inSub i ((j - 1) / 2) = true) : inSub i j = true := by
  rw [inSub, if_neg (by omega)]
  exact h

theorem inSub_zero (j : Nat) : inSub 0 j = true := by
  induction j using Nat.strong_induction_on with
  | _ j ih =>
    rcases Nat.eq_zero_or_pos j with h0 | h0
    · rw [h0]
      exact inSub_refl 0
    · rw [inSub, if_neg (by omega)]
      exact ih ((j - 1) / 2) (by omega)

theorem inSub_trans (a b : Nat) :
    ∀ c, inSub a b = true → inSub b c = true → inSub a c = true := by
  intro c
  induction c using Nat.strong_induction_on with
  | _ c ih =>
    intro h1 h2
    by_cases hcb : c = b
    · rw [hcb]
      exact h1
    · have hp := inSub_parent b c h2 hcb
      have hbc := inSub_ge b c h2
      have hab := inSub_ge a b h1
      have := ih ((c - 1) / 2) (by omega) h1 hp
      exact inSub_of_parent a c (by omega) this

theorem inSub_child_left (i : Nat) : inSub i (2 * i + 1) = true := by
  apply inSub_of_parent i (2 * i + 1) (by omega)
  have e : (2 * i + 1 - 1) / 2 = i := by omega
  rw [e]
  exact inSub_refl i

theorem inSub_child_right (i : Nat) : inSub i (2 * i + 2) = true := by
  apply inSub_of_parent i (2 * i + 2) (by omega)
  have e : (2 * i + 2 - 1) / 2 = i := by omega
  rw [e]
  exact inSub_refl i

theorem inSub_children (i : Nat) :
    ∀ j, inSub i j = true → j ≠ i →
      inSub (2 * i + 1) j = true ∨ inSub (2 * i + 2) j = true := by
  intro j
  induction j using Nat.strong_induction_on with
  | _ j ih =>
    intro h hne
    have hij := inSub_ge i j h
    have hp := inSub_parent i j h hne
    by_cases hpe : (j - 1) / 2 = i
    · have hjc : j = 2 * i + 1 ∨ j = 2 * i + 2 := by omega
      rcases hjc with hc | hc
      · left
        rw [hc]
        exact inSub_refl _
      · right
        rw [hc]
        exact inSub_refl _
    · have hgp := inSub_ge i ((j - 1) / 2) hp
      rcases ih ((j - 1) / 2) (by omega) hp hpe with h1 | h1
      · left
        have hg1 := inSub_ge _ _ h1
        exact inSub_of_parent _ _ (by omega) h1
      · right
        have hg1 := inSub_ge _ _ h1
        exact inSub_of_parent _ _ (by omega) h1

theorem largestIdx_mem (c : Cmp α) (l : List α) (n i : Nat) :
    largestIdx c l n i = i ∨
      ((largestIdx c l n i = 2 * i + 1 ∨ largestIdx c l n i = 2 * i + 2) ∧
        largestIdx c l n i < n) := by
  unfold largestIdx
  simp only []
  split_ifs <;> omega

theorem largestIdx_ge (l : List Int) (n i : Nat) :
    idx l i ≤ idx l (largestIdx cInt l n i) ∧
    (2 * i + 1 < n → idx l (2 * i + 1) ≤ idx l (largestIdx cInt l n i)) ∧
    (2 * i + 2 < n → idx l (2 * i + 2) ≤ idx l (largestIdx cInt l n i)) := by
  unfold largestIdx
  simp only []
  split_ifs <;> simp only [cInt_gtB_iff, not_lt] at * <;>
    refine ⟨by omega, fun hh => by omega, fun hh => by omega⟩

theorem largestIdx_eq_self (l : List Int) (n i : Nat)
    (h : largestIdx cInt l n i = i) :
    (2 * i + 1 < n → idx l (2 * i + 1) ≤ idx l i) ∧
    (2 * i + 2 < n → idx l (2 * i + 2) ≤ idx l i) := by
  unfold largestIdx at h
  simp only [] at h
  split_ifs at h <;> simp only [cInt_gtB_iff, not_lt] at * <;>
    refine ⟨fun hh => by omega, fun hh => by omega⟩

theorem heapify_frame_sub (c : Cmp α) :
    ∀ l n i k, inSub i k = false →
      idx (heapify c l n i).1 k = idx l k := by
  intro l n i
  induction l, n, i using heapify.induct c with
  | case1 l n i hne lg l' ih =>
    intro k hk
    have hb := largestIdx_bounds c l n i
    have hm := largestIdx_mem c l n i
    rw [heapify, dif_pos hne]
    unfold_let l' lg at ih
    have hlg : inSub i (largestIdx c l n i) = true := by
      rcases hm with h | ⟨h | h, _⟩
      · exact absurd h hne
      · rw [h]
        exact inSub_child_left i
      · rw [h]
        exact inSub_child_right i
    have hklg : inSub (largestIdx c l n i) k = false := by
      by_contra hc
      rw [Bool.not_eq_false] at hc
      have := inSub_trans i (largestIdx c l n i) k hlg hc
      rw [this] at hk
      simp at hk
    rw [ih k hklg]
    have hki : i ≠ k := by
      intro e
      rw [← e, inSub_refl] at hk
      simp at hk
    have hklg2 : largestIdx c l n i ≠ k := by
      intro e
      rw [← e, inSub_refl] at hklg
      simp at hklg
    exact idx_swapL_other hki hklg2
  | case2 l n i hne =>
    intro k hk
    rw [heapify, dif_neg hne]

theorem heapify_root_bound (c : Cmp α) (l : List α) (n i : Nat)
    (hn : n ≤ l.length) :
    idx (heapify c l n i).1 i = idx l i ∨
      ∃ ch, (ch = 2 * i + 1 ∨ ch = 2 * i + 2) ∧ ch < n ∧
        idx (heapify c l n i).1 i = idx l ch := by
  by_cases hne : largestIdx c l n i ≠ i
  · right
    have hb := largestIdx_bounds c l n i
    have hm := largestIdx_mem c l n i
    have hilt : i < largestIdx c l n i := by
      rcases hb with h | h
      · exact absurd h hne
      · exact h.1
    have hlgn : largestIdx c l n i < n := by
      rcases hb with h | h
      · exact absurd h hne
      · exact h.2
    rw [heapify, dif_pos hne]
    simp only []
    refine ⟨largestIdx c l n i, ?_, hlgn, ?_⟩
    · rcases hm with h | ⟨h, _⟩
      · exact absurd h hne
      · exact h
    · rw [heapify_frame_lt c _ n _ i hilt]
      exact idx_swapL_left (by omega) (by omega)
  · left
    rw [heapify, dif_neg hne]


theorem heapAt_mono (l : List Int) (n i m : Nat) (h : heapAt l n i)
    (hm : inSub i m = true) : heapAt l n m := by
  intro j hj hsub hne
  refine h j hj (inSub_trans i m j hm hsub) ?_
  intro e
  rw [e] at hsub
  have h1 := inSub_ge i m hm
  have h2 := inSub_ge m i hsub
  exact hne (by omega)

theorem heapify_spec :
    ∀ (l : List Int) n i, n ≤ l.length →
      heapAt l n (2 * i + 1) → heapAt l n (2 * i + 2) →
      heapAt (heapify cInt l n i).1 n i := by
  intro l n i
  induction l, n, i using heapify.induct cInt with
  | case2 l n i hne =>
    intro hn h1 h2
    rw [heapify, dif_neg hne]
    push_neg at hne
    have hself := largestIdx_eq_self l n i hne
    intro j hj hsub hji
    rcases inSub_children i j hsub hji with hc | hc
    · by_cases hjc : j = 2 * i + 1
      · rw [hjc]
        have hp : (2 * i + 1 - 1) / 2 = i := by omega
        rw [hp]
        exact hself.1 (by omega)
      · exact h1 j hj hc hjc
    · by_cases hjc : j = 2 * i + 2
      · rw [hjc]
        have hp : (2 * i + 2 - 1) / 2 = i := by omega
        rw [hp]
        exact hself.2 (by omega)
      · exact h2 j hj hc hjc
  | case1 l n i hne lg l' ih =>
    intro hn h1 h2
    have hb := largestIdx_bounds cInt l n i
    have hm := largestIdx_mem cInt l n i
    have hge := largestIdx_ge l n i
    rw [heapify, dif_pos hne]
    unfold_let l' lg at ih
    simp only []
    set LG := largestIdx cInt l n i with hLG
    have hilt : i < LG := by
      rcases hb with h | h
      · exact absurd h hne
      · exact h.1
    have hLGn : LG < n := by
      rcases hb with h | h
      · exact absurd h hne
      · exact h.2
    have hLGc : LG = 2 * i + 1 ∨ LG = 2 * i + 2 := by
      rcases hm with h | ⟨h, _⟩
      · exact absurd h hne
      · exact h
    have hunt : ∀ j, 2 * LG + 1 ≤ j → idx (swapL l i LG) j = idx l j := by
      intro j hj
      exact idx_swapL_other (by omega) (by omega)
    have hA : heapAt (swapL l i LG) n (2 * LG + 1) := by
      intro j hj hsub hjne
      have hgej := inSub_ge _ _ hsub
      have hpar := inSub_parent _ _ hsub hjne
      have hgep := inSub_ge _ _ hpar
      rw [hunt j (by omega), hunt ((j - 1) / 2) (by omega)]
      have hLGj : inSub LG j = true :=
        inSub_trans _ _ _ (inSub_child_left LG) hsub
      rcases hLGc with h | h
      · exact h1 j hj (by rw [← h]; exact hLGj) (by omega)
      · exact h2 j hj (by rw [← h]; exact hLGj) (by omega)
    have hB : heapAt (swapL l i LG) n (2 * LG + 2) := by
      intro j hj hsub hjne
      have hgej := inSub_ge _ _ hsub
      have hpar := inSub_parent _ _ hsub hjne
      have hgep := inSub_ge _ _ hpar
      rw [hunt j (by omega), hunt ((j - 1) / 2) (by omega)]
      have hLGj : inSub LG j = true :=
        inSub_trans _ _ _ (inSub_child_right LG) hsub
      rcases hLGc with h | h
      · exact h1 j hj (by rw [← h]; exact hLGj) (by omega)
      · exact h2 j hj (by rw [← h]; exact hLGj) (by omega)
    have res := ih (by rw [length_swapL]; exact hn) hA hB
    set R := (heapify cInt (swapL l i LG) n LG).1 with hR
    intro j hj hsub hji
    have hRi : idx R i = idx l LG := by
      rw [hR, heapify_frame_lt cInt _ n LG i hilt,
        idx_swapL_left (by omega) (by omega)]
    by_cases hLGj : inSub LG j = true
    · by_cases hjLG : j = LG
      · have hpLG : (LG - 1) / 2 = i := by
          rcases hLGc with h | h <;> omega
        rw [hjLG, hpLG, hRi]
        rcases heapify_root_bound cInt (swapL l i LG) n LG
            (by rw [length_swapL]; exact hn) with hc | ⟨ch, hc1, hc2, hc3⟩
        · rw [hR, hc, idx_swapL_right (by omega)]
          exact hge.1
        · rw [hR, hc3, idx_swapL_other (by omega) (by omega)]
          have hpch : (ch - 1) / 2 = LG := by
            rcases hc1 with h | h <;> omega
          have hsubch : inSub LG ch = true := by
            rcases hc1 with h | h
            · rw [h]
              exact inSub_child_left LG
            · rw [h]
              exact inSub_child_right LG
          have hchval : idx l ch ≤ idx l ((ch - 1) / 2) := by
            rcases hLGc with h | h
            · exact h1 ch hc2 (inSub_trans _ _ _ (by rw [h]; exact inSub_refl _) hsubch) (by omega)
            · exact h2 ch hc2 (inSub_trans _ _ _ (by rw [h]; exact inSub_refl _) hsubch) (by omega)
          rw [hpch] at hchval
          exact hchval
      · exact res j hj hLGj hjLG
    · rw [Bool.not_eq_true] at hLGj
      have hjneLG : j ≠ LG := by
        intro e
        rw [e, inSub_refl] at hLGj
        simp at hLGj
      have hRj : idx R j = idx l j := by
        rw [hR, heapify_frame_sub cInt _ n LG j hLGj,
          idx_swapL_other (by omega) (by omega)]
      by_cases hpj : (j - 1) / 2 = i
      · have hij := inSub_ge i j hsub
        have hjc : j = 2 * i + 1 ∨ j = 2 * i + 2 := by omega
        rw [hpj, hRj, hRi]
        rcases hjc with h | h
        · rw [h]
          exact hge.2.1 (by omega)
        · rw [h]
          exact hge.2.2 (by omega)
      · have hpsub := inSub_parent _ _ hsub hji
        have hij := inSub_ge i j hsub
        have hplg : inSub LG ((j - 1) / 2) = false := by
          by_contra hc
          rw [Bool.not_eq_false] at hc
          have hgc := inSub_ge _ _ hc
          have : inSub LG j = true := inSub_of_parent _ _ (by omega) hc
          rw [this] at hLGj
          simp at hLGj
        have hpne : (j - 1) / 2 ≠ LG := by
          intro e
          rw [e, inSub_refl] at hplg
          simp at hplg
        have hRp : idx R ((j - 1) / 2) = idx l ((j - 1) / 2) := by
          rw [hR, heapify_frame_sub cInt _ n LG _ hplg,
            idx_swapL_other (by omega) (by omega)]
        rw [hRj, hRp]
        rcases inSub_children i j hsub hji with hcj | hcj
        · have hne1 : j ≠ 2 * i + 1 := by
            intro e
            apply hpj
            omega
          exact h1 j hj hcj hne1
        · have hne2 : j ≠ 2 * i + 2 := by
            intro e
            apply hpj
            omega
          exact h2 j hj hcj hne2


theorem heapAbove_step (l : List Int) (n k : Nat) (hn : n ≤ l.length)
    (h : heapAbove l n (k + 1)) :
    heapAbove (heapify cInt l n k).1 n k := by
  have hA : heapAt l n (2 * k + 1) := by
    intro j hj hsub hne
    have hp := inSub_parent _ _ hsub hne
    have hgep := inSub_ge _ _ hp
    have hgej := inSub_ge _ _ hsub
    exact h j (by omega) hj (by omega)
  have hB : heapAt l n (2 * k + 2) := by
    intro j hj hsub hne
    have hp := inSub_parent _ _ hsub hne
    have hgep := inSub_ge _ _ hp
    have hgej := inSub_ge _ _ hsub
    exact h j (by omega) hj (by omega)
  have hk := heapify_spec l n k hn hA hB
  intro j hj0 hj hpar
  by_cases hsub : inSub k j = true
  · have hjk : j ≠ k := by
      intro e
      rw [e] at hpar hj0
      omega
    exact hk j hj hsub hjk
  · rw [Bool.not_eq_true] at hsub
    have hpsub : inSub k ((j - 1) / 2) = false := by
      by_contra hc
      rw [Bool.not_eq_false] at hc
      have hgc := inSub_ge _ _ hc
      have : inSub k j = true := inSub_of_parent _ _ (by omega) hc
      rw [this] at hsub
      simp at hsub
    have hpk : (j - 1) / 2 ≠ k := by
      intro e
      rw [e, inSub_refl] at hpsub
      simp at hpsub
    rw [heapify_frame_sub cInt l n k j hsub,
      heapify_frame_sub cInt l n k _ hpsub]
    exact h j hj0 hj (by omega)

theorem buildLoop_heap (n : Nat) : ∀ k (l : List Int), n ≤ l.length →
    heapAbove l n k → heapAbove (buildLoop cInt l n k).1 n 0 := by
  intro k
  induction k with
  | zero =>
    intro l hn h
    rw [buildLoop]
    exact h
  | succ k ih =>
    intro l hn h
    rw [buildLoop]
    simp only []
    exact ih (heapify cInt l n k).1 (by rw [length_heapify]; exact hn)
      (heapAbove_step l n k hn h)

theorem heap_root_max (l : List Int) (n : Nat) (h : heapAbove l n 0) :
    ∀ j, j < n → idx l j ≤ idx l 0 := by
  intro j
  induction j using Nat.strong_induction_on with
  | _ j ih =>
    intro hj
    rcases Nat.eq_zero_or_pos j with h0 | h0
    · rw [h0]
    · exact le_trans (h j h0 hj (Nat.zero_le _))
        (ih ((j - 1) / 2) (by omega) (by omega))


theorem extractLoop_sorted :
    ∀ i (l : List Int), i < l.length →
      heapAbove l (i + 1) 0 →
      (∀ a b, a ≤ i → i < b → b < l.length → idx l a ≤ idx l b) →
      (∀ p q, i < p → p ≤ q → q < l.length → idx l p ≤ idx l q) →
      ∀ p q, p ≤ q → q < l.length →
        idx (extractLoop cInt l i).1 p ≤ idx (extractLoop cInt l i).1 q := by
  intro i
  induction i with
  | zero =>
    intro l hlen hheap hdom hsuf p q hpq hq
    rw [extractLoop]
    by_cases hpq' : p = q
    · rw [hpq']
    · rcases Nat.eq_zero_or_pos p with h0 | h0
      · rw [h0]
        exact hdom 0 q le_rfl (by omega) hq
      · exact hsuf p q (by omega) hpq hq
  | succ m ih =>
    intro l hlen hheap hdom hsuf p q hpq hq
    rw [extractLoop]
    simp only []
    set l1 := swapL l 0 (m + 1) with hl1
    set H := (heapify cInt l1 (m + 1) 0).1 with hH
    have hl1len : l1.length = l.length := by rw [hl1, length_swapL]
    have hHlen : H.length = l.length := by rw [hH, length_heapify, hl1len]
    have hroot := heap_root_max l (m + 2) hheap
    have hHtop : idx H (m + 1) = idx l 0 := by
      rw [hH, heapify_frame_ge cInt l1 (m + 1) 0 (m + 1) le_rfl, hl1,
        idx_swapL_right (by omega)]
    have hHout : ∀ b, m + 1 < b → idx H b = idx l b := by
      intro b hb
      rw [hH, heapify_frame_ge cInt l1 (m + 1) 0 b (by omega), hl1,
        idx_swapL_other (by omega) (by omega)]
    have hHheap : heapAbove H (m + 1) 0 := by
      have hA : heapAt l1 (m + 1) (2 * 0 + 1) := by
        intro j hj hsub hne
        have hgej := inSub_ge _ _ hsub
        have hp := inSub_parent _ _ hsub hne
        have hgep := inSub_ge _ _ hp
        rw [hl1, idx_swapL_other (by omega) (by omega),
          idx_swapL_other (by omega) (by omega)]
        exact hheap j (by omega) (by omega) (by omega)
      have hB : heapAt l1 (m + 1) (2 * 0 + 2) := by
        intro j hj hsub hne
        have hgej := inSub_ge _ _ hsub
        have hp := inSub_parent _ _ hsub hne
        have hgep := inSub_ge _ _ hp
        rw [hl1, idx_swapL_other (by omega) (by omega),
          idx_swapL_other (by omega) (by omega)]
        exact hheap j (by omega) (by omega) (by omega)
      have hs := heapify_spec l1 (m + 1) 0 (by omega) hA hB
      intro j hj0 hj hpar
      exact hs j hj (inSub_zero j) (by omega)
    have hHle : ∀ a, a ≤ m → idx H a ≤ idx l 0 := by
      have hPl1 : ∀ k, 0 ≤ k → k < m + 1 → idx l1 k ≤ idx l 0 := by
        intro k hk0 hk
        rcases Nat.eq_zero_or_pos k with h0 | h0
        · rw [h0, hl1, idx_swapL_left (by omega) (by omega)]
          exact hroot (m + 1) (by omega)
        · rw [hl1, idx_swapL_other (by omega) (by omega)]
          exact hroot k (by omega)
      have hall := range_all_preserved (fun x => x ≤ idx l 0) H l1 0 (m + 1)
        (by rw [hH]; exact heapify_perm cInt l1 (m + 1) 0 (by omega))
        (by omega)
        (fun mm hmm => by
          rcases hmm with hc | hc
          · omega
          · rw [hH]
            exact heapify_frame_ge cInt l1 (m + 1) 0 mm hc)
        (by omega) (by omega) hPl1
      intro a ha
      exact hall a (by omega) (by omega)
    have ihdom : ∀ a b, a ≤ m → m < b → b < H.length →
        idx H a ≤ idx H b := by
      intro a b ha hb hbl
      rcases Nat.eq_or_lt_of_le (by omega : m + 1 ≤ b) with h1 | h1
      · rw [← h1, hHtop]
        exact hHle a ha
      · rw [hHout b h1]
        exact le_trans (hHle a ha) (hdom 0 b (by omega) (by omega) (by omega))
    have ihsuf : ∀ p q, m < p → p ≤ q → q < H.length →
        idx H p ≤ idx H q := by
      intro p q hp hpq2 hq2
      rcases Nat.eq_or_lt_of_le (by omega : m + 1 ≤ p) with h1 | h1
      · rcases Nat.eq_or_lt_of_le hpq2 with h2 | h2
        · rw [h2]
        · rw [← h1, hHtop, hHout q (by omega)]
          exact hdom 0 q (by omega) (by omega) (by omega)
      · rw [hHout p h1, hHout q (by omega)]
        exact hsuf p q (by omega) hpq2 (by omega)
    exact ih H (by omega) hHheap ihdom ihsuf p q hpq (by omega)

theorem heapSort_sorted (l : List Int) :
    NonDecreasing (heapSort cInt l).1 := by
  intro p q hpq hq
  have hlen : (heapSort cInt l).1.length = l.length := by simp
  rw [heapSort]
  simp only []
  set B := (buildLoop cInt l l.length (l.length / 2)).1 with hB
  have hBlen : B.length = l.length := by rw [hB, length_buildLoop]
  rcases Nat.eq_zero_or_pos l.length with h0 | h0
  · omega
  · have hheapB : heapAbove B l.length 0 := by
      rw [hB]
      apply buildLoop_heap l.length (l.length / 2) l le_rfl
      intro j hj0 hj hpar
      omega
    have hs := extractLoop_sorted (l.length - 1) B (by omega)
      (by
        have e : l.length - 1 + 1 = l.length := by omega
        rw [e]
        exact hheapB)
      (fun a b ha hb hbl => by omega)
      (fun p' q' hp' hpq' hq' => by omega)
    exact hs p q hpq (by omega)


/-- C1: For every input array of any length and for each of the seven
sorting algorithms (bubble, selection, insertion, quick, merge, heap,
shell), the heights array at completion is in non-decreasing order and
is a permutation of the input. -/
theorem seven_sorts_sorted_and_perm (l : List Int) :
    (NonDecreasing (bubbleSort cInt l).1 ∧
      ((bubbleSort cInt l).1).Perm l) ∧
    (NonDecreasing (selectionSort cInt l).1 ∧
      ((selectionSort cInt l).1).Perm l) ∧
    (NonDecreasing (insertionSort cInt l).1 ∧
      ((insertionSort cInt l).1).Perm l) ∧
    (NonDecreasing (quickSort cInt l).1 ∧
      ((quickSort cInt l).1).Perm l) ∧
    (NonDecreasing (mergeSort cInt l).1 ∧
      ((mergeSort cInt l).1).Perm l) ∧
    (NonDecreasing (heapSort cInt l).1 ∧
      ((heapSort cInt l).1).Perm l) ∧
    (NonDecreasing (shellSort cInt l).1 ∧
      ((shellSort cInt l).1).Perm l) :=
  ⟨⟨bubbleSort_sorted l, bubbleSort_perm cInt l⟩,
    ⟨selectionSort_sorted l, selectionSort_perm cInt l⟩,
    ⟨insertionSort_sorted l, insertionSort_perm cInt l⟩,
    ⟨quickSort_sorted l, quickSort_perm cInt l⟩,
    ⟨mergeSort_sorted l, mergeSort_perm cInt l⟩,
    ⟨heapSort_sorted l, heapSort_perm cInt l⟩,
    ⟨shellSort_sorted l, shellSort_perm cInt l⟩⟩


/-! ## Behaviour on already-sorted input -/

theorem eq_of_perm_of_nonDecreasing (l' l : List Int) (hp : l'.Perm l)
    (h1 : NonDecreasing l') (h2 : NonDecreasing l) : l' = l :=
  List.eq_of_perm_of_sorted hp
    (pairwise_le_of_idx l' (fun p q hpq hq => h1 p q (le_of_lt hpq) hq))
    (pairwise_le_of_idx l (fun p q hpq hq => h2 p q (le_of_lt hpq) hq))

/-- C7 counterexample: heap sort on the already-sorted input `[1, 2, 3]`
emits the step `Swap(0, 2)`, which changes slot values (applying it to
the array yields `[3, 2, 1]`), contradicting the claim that no
value-changing Swap is emitted on sorted input. -/
theorem heapSort_sorted_input_changing_swap :
    NonDecreasing ([1, 2, 3] : List Int) ∧
    Step.swapS 0 2 ∈ (heapSort cInt ([1, 2, 3] : List Int)).2 ∧
    applyStep ([1, 2, 3] : List Int) (Step.swapS 0 2) ≠ [1, 2, 3] := by
  refine ⟨idx_le_of_pairwise _ (by decide), ?_, ?_⟩
  · simp [heapSort, buildLoop, extractLoop, heapify, largestIdx, idx,
      swapL, cInt]
  · simp [applyStep, swapL, idx]

/-- C7 (amended): on an already-sorted (non-decreasing) input, each of
the seven algorithms returns the heights array unchanged. -/
theorem sorted_input_array_unchanged (l : List Int)
    (h : NonDecreasing l) :
    (bubbleSort cInt l).1 = l ∧ (selectionSort cInt l).1 = l ∧
    (insertionSort cInt l).1 = l ∧ (quickSort cInt l).1 = l ∧
    (mergeSort cInt l).1 = l ∧ (heapSort cInt l).1 = l ∧
    (shellSort cInt l).1 = l :=
  ⟨eq_of_perm_of_nonDecreasing _ l (bubbleSort_perm cInt l)
      (bubbleSort_sorted l) h,
    eq_of_perm_of_nonDecreasing _ l (selectionSort_perm cInt l)
      (selectionSort_sorted l) h,
    eq_of_perm_of_nonDecreasing _ l (insertionSort_perm cInt l)
      (insertionSort_sorted l) h,
    eq_of_perm_of_nonDecreasing _ l (quickSort_perm cInt l)
      (quickSort_sorted l) h,
    eq_of_perm_of_nonDecreasing _ l (mergeSort_perm cInt l)
      (mergeSort_sorted l) h,
    eq_of_perm_of_nonDecreasing _ l (heapSort_perm cInt l)
      (heapSort_sorted l) h,
    eq_of_perm_of_nonDecreasing _ l (shellSort_perm cInt l)
      (shellSort_sorted l) h⟩

theorem sorted_input_array_unchanged_witness :
    NonDecreasing ([1, 2] : List Int) ∧
      ((bubbleSort cInt [1, 2]).1 = [1, 2] ∧
        (selectionSort cInt [1, 2]).1 = [1, 2] ∧
        (insertionSort cInt [1, 2]).1 = [1, 2] ∧
        (quickSort cInt [1, 2]).1 = [1, 2] ∧
        (mergeSort cInt [1, 2]).1 = [1, 2] ∧
        (heapSort cInt [1, 2]).1 = [1, 2] ∧
        (shellSort cInt [1, 2]).1 = [1, 2]) :=
  have h : NonDecreasing ([1, 2] : List Int) :=
    idx_le_of_pairwise _ (by decide)
  ⟨h, sorted_input_array_unchanged [1, 2] h⟩


/-! ## MarkFinal inventory of each algorithm -/

theorem marks_nil : marks ([] : List (Step α)) = [] := rfl

theorem marks_cons_compare (i j : Nat) (s : List (Step α)) :
    marks (Step.compare i j :: s) = marks s := rfl

theorem marks_cons_swap (i j : Nat) (s : List (Step α)) :
    marks (Step.swapS i j :: s) = marks s := rfl

theorem marks_cons_over (i : Nat) (v : α) (s : List (Step α)) :
    marks (Step.overwrite i v :: s) = marks s := rfl

theorem marks_cons_mark (i : Nat) (s : List (Step α)) :
    marks (Step.markFinal i :: s) = i :: marks s := rfl

theorem marks_append (s t : List (Step α)) :
    marks (s ++ t) = marks s ++ marks t := by
  simp [marks]

theorem marks_markAll (n : Nat) :
    marks (markAll n : List (Step α)) = List.range n := by
  unfold marks markAll
  rw [List.filterMap_map]
  exact List.filterMap_some _

theorem bubbleInner_marks (c : Cmp α) :
    ∀ l n i j, marks (bubbleInner c l n i j).2 = [] := by
  intro l n i j
  induction l, n, i, j using bubbleInner.induct c with
  | case1 l n i j h p ih =>
    rw [bubbleInner, if_pos h]
    unfold_let p at ih
    simp only []
    by_cases hc : c.gtB (idx l j) (idx l (j + 1)) = true
    · simp only [dif_pos hc] at ih
      simp only [if_pos hc]
      simp [marks_cons_compare, marks_append, marks_cons_swap, marks_nil, ih]
    · simp only [dif_neg hc] at ih
      simp only [if_neg hc]
      simp [marks_cons_compare, marks_append, marks_nil, ih]
  | case2 l n i j h =>
    rw [bubbleInner, if_neg h]
    rfl

theorem bubbleOuter_marks (c : Cmp α) :
    ∀ l n i, marks (bubbleOuter c l n i).2 = [] := by
  intro l n i
  induction l, n, i using bubbleOuter.induct c with
  | case1 l n i h p ih =>
    rw [bubbleOuter, if_pos h]
    unfold_let p at ih
    simp [marks_append, bubbleInner_marks, ih]
  | case2 l n i h =>
    rw [bubbleOuter, if_neg h]
    rfl

theorem selScan_marks (c : Cmp α) :
    ∀ l n j minIndex, marks (selScan c l n j minIndex).2 = [] := by
  intro l n j minIndex
  induction j, minIndex using selScan.induct c l n with
  | case1 j minIndex h m ih =>
    rw [selScan, if_pos h]
    unfold_let m at ih
    simp only [dite_eq_ite] at ih
    simp [marks_cons_compare, ih]
  | case2 j minIndex h =>
    rw [selScan, if_neg h]
    rfl

theorem selOuter_marks (c : Cmp α) :
    ∀ l n i, marks (selOuter c l n i).2 = List.range' i (n - i) := by
  intro l n i
  induction l, n, i using selOuter.induct c with
  | case1 l n i h s p ih =>
    rw [selOuter, if_pos h]
    unfold_let p s at ih
    unfold_let s
    simp only []
    have e : n - i = (n - (i + 1)) + 1 := by omega
    rw [e, List.range'_succ]
    by_cases hc : (selScan c l n (i + 1) i).1 ≠ i
    · simp only [dif_pos hc] at ih
      simp only [if_pos hc]
      simp [marks_append, selScan_marks, marks_cons_swap, marks_cons_mark,
        marks_nil, ih]
    · simp only [dif_neg hc] at ih
      simp only [if_neg hc]
      simp [marks_append, selScan_marks, marks_cons_mark, marks_nil, ih]
  | case2 l n i h =>
    rw [selOuter, if_neg h]
    have e : n - i = 0 := by omega
    rw [e]
    rfl

theorem insShift_marks (c : Cmp α) :
    ∀ l cur j1, marks (insShift c l cur j1).2.2 = [] := by
  intro l cur j1
  induction l, cur, j1 using insShift.induct c with
  | case1 l cur =>
    rw [insShift]
    rfl
  | case2 l cur j h l' ih =>
    rw [insShift, if_pos h]
    unfold_let l' at ih
    simp [marks_cons_compare, marks_cons_over, ih]
  | case3 l cur j h =>
    rw [insShift, if_neg h]
    rfl

theorem insOuter_marks_length (c : Cmp α) :
    ∀ l n i, (marks (insOuter c l n i).2).length = n - i := by
  intro l n i
  induction l, n, i using insOuter.induct c with
  | case1 l n i h cur s l' ih =>
    rw [insOuter, if_pos h]
    unfold_let l' s cur at ih
    unfold_let s cur
    simp only []
    rw [marks_append, marks_append]
    simp only [insShift_marks, marks_cons_over, marks_cons_mark, marks_nil]
    simp only [List.nil_append, List.length_append, List.length_cons,
      List.length_nil]
    rw [ih]
    omega
  | case2 l n i h =>
    rw [insOuter, if_neg h]
    have e : n - i = 0 := by omega
    rw [e]
    rfl

theorem shellInner_marks (c : Cmp α) :
    ∀ l gap temp j, marks (shellInner c l gap temp j).2.2 = [] := by
  intro l gap temp j
  induction l, gap, temp, j using shellInner.induct c with
  | case1 l gap temp j h hc l' ih =>
    rw [shellInner, dif_pos h, if_pos hc]
    unfold_let l' at ih
    simp [marks_cons_compare, marks_cons_over, ih]
  | case2 l gap temp j h hc =>
    rw [shellInner, dif_pos h, if_neg hc]
    rfl
  | case3 l gap temp j h =>
    rw [shellInner, dif_neg h]
    rfl

theorem shellI_marks (c : Cmp α) :
    ∀ l n gap i, marks (shellI c l n gap i).2 = [] := by
  intro l n gap i
  induction l, n, gap, i using shellI.induct c with
  | case1 l n gap i h temp s l' ih =>
    rw [shellI, if_pos h]
    unfold_let l' s temp at ih
    unfold_let s temp
    simp [marks_append, shellInner_marks, marks_cons_over, marks_nil, ih]
  | case2 l n gap i h =>
    rw [shellI, if_neg h]
    rfl

theorem shellGap_marks (c : Cmp α) :
    ∀ l n gap, marks (shellGap c l n gap).2 = [] := by
  intro l n gap
  induction l, n, gap using shellGap.induct c with
  | case1 l n gap h p ih =>
    rw [shellGap, dif_pos h]
    unfold_let p at ih
    simp [marks_append, shellI_marks, ih]
  | case2 l n gap h =>
    rw [shellGap, dif_neg h]
    rfl

theorem heapify_marks (c : Cmp α) :
    ∀ l n i, marks (heapify c l n i).2 = [] := by
  intro l n i
  induction l, n, i using heapify.induct c with
  | case1 l n i hne lg l' ih =>
    rw [heapify, dif_pos hne]
    unfold_let l' lg at ih
    simp [marks_cons_compare, marks_cons_swap, ih]
  | case2 l n i hne =>
    rw [heapify, dif_neg hne]
    rfl

theorem buildLoop_marks (c : Cmp α) (n : Nat) :
    ∀ k l, marks (buildLoop c l n k).2 = [] := by
  intro k
  induction k with
  | zero =>
    intro l
    rw [buildLoop]
    rfl
  | succ k ih =>
    intro l
    rw [buildLoop]
    simp [marks_append, heapify_marks, ih]

theorem extractLoop_marks (c : Cmp α) :
    ∀ i l, (marks (extractLoop c l i).2).Perm (List.range' 1 i) := by
  intro i
  induction i with
  | zero =>
    intro l
    rw [extractLoop]
    exact List.Perm.refl _
  | succ m ih =>
    intro l
    rw [extractLoop]
    simp only []
    rw [marks_cons_swap, marks_cons_mark, marks_append, heapify_marks,
      List.nil_append]
    have h1 := (ih (heapify c (swapL l 0 (m + 1)) (m + 1) 0).1).cons (m + 1)
    rw [List.range'_concat]
    have e : 1 + 1 * m = m + 1 := by omega
    rw [e]
    exact h1.trans (List.perm_append_singleton (m + 1) (List.range' 1 m)).symm

/-- C3 (amended): bubble, selection and shell sort mark exactly the
indices `0 .. N-1`, once each (bubble and shell in increasing order in a
final cascade, selection in increasing order as the outer loop runs);
insertion sort emits exactly `N - 1` MarkFinal steps, not `N`; heap
sort's MarkFinal indices are a permutation of `0 .. N-1` when `N ≥ 1`
and a single stray `MarkFinal 0` when `N = 0` (`max 1 N` indices). -/
theorem markFinal_inventory (l : List Int) :
    marks (bubbleSort cInt l).2 = List.range l.length ∧
    marks (selectionSort cInt l).2 = List.range l.length ∧
    marks (shellSort cInt l).2 = List.range l.length ∧
    (marks (insertionSort cInt l).2).length = l.length - 1 ∧
    (marks (heapSort cInt l).2).Perm (List.range (max 1 l.length)) := by
  refine ⟨?_, ?_, ?_, ?_, ?_⟩
  · unfold bubbleSort
    simp only []
    rw [marks_append, bubbleOuter_marks, marks_markAll, List.nil_append]
  · unfold selectionSort
    rw [selOuter_marks, Nat.sub_zero]
    exact (List.range_eq_range' l.length).symm
  · unfold shellSort
    simp only []
    rw [marks_append, shellGap_marks, marks_markAll, List.nil_append]
  · unfold insertionSort
    exact insOuter_marks_length cInt l l.length 1
  · unfold heapSort
    simp only []
    rw [marks_append, marks_append, buildLoop_marks, List.nil_append,
      marks_cons_mark, marks_nil]
    rcases Nat.eq_zero_or_pos l.length with h0 | h0
    · have e1 : l.length - 1 = 0 := by omega
      rw [e1, extractLoop]
      have e2 : max 1 l.length = 1 := by omega
      rw [e2]
      have e3 : marks ((buildLoop cInt l l.length (l.length / 2)).1,
          ([] : List (Step Int))).2 = [] := rfl
      rw [e3, List.nil_append]
      have e4 : List.range 1 = [0] := rfl
      rw [e4]
    · have hmax : max 1 l.length = l.length := by omega
      rw [hmax]
      have hp := extractLoop_marks cInt (l.length - 1)
        (buildLoop cInt l l.length (l.length / 2)).1
      have h1 := hp.append_right [0]
      refine h1.trans ?_
      refine (List.perm_append_singleton 0
        (List.range' 1 (l.length - 1))).trans ?_
      have e2 : l.length = (l.length - 1) + 1 := by omega
      have e3 : List.range' 0 l.length = 0 :: List.range' 1 (l.length - 1) := by
        conv_lhs => rw [e2]
        rw [List.range'_succ]
      rw [List.range_eq_range', e3]


theorem bubbleInnerF_eq (c : Cmp α) :
    ∀ fuel l n i j, n - j < fuel →
      bubbleInnerF c fuel l n i j = some (bubbleInner c l n i j) := by
  intro fuel
  induction fuel with
  | zero => intro l n i j h; omega
  | succ fuel ih =>
    intro l n i j h
    rw [bubbleInnerF, bubbleInner]
    by_cases hg : j + i + 1 < n
    · simp only [if_pos hg]
      rw [ih _ n i (j+1) (by omega)]
    · simp only [if_neg hg]

theorem bubbleOuterF_eq (c : Cmp α) :
    ∀ fuel l n i, n - i < fuel →
      bubbleOuterF c fuel l n i = some (bubbleOuter c l n i) := by
  intro fuel
  induction fuel with
  | zero => intro l n i h; omega
  | succ fuel ih =>
    intro l n i h
    rw [bubbleOuterF, bubbleOuter]
    by_cases hg : i < n
    · simp only [if_pos hg]
      rw [ih _ n (i+1) (by omega)]
    · simp only [if_neg hg]

theorem selScanF_eq (c : Cmp α) :
    ∀ fuel l n j minIndex, n - j < fuel →
      selScanF c fuel l n j minIndex = some (selScan c l n j minIndex) := by
  intro fuel
  induction fuel with
  | zero => intro l n j minIndex h; omega
  | succ fuel ih =>
    intro l n j minIndex h
    rw [selScanF, selScan]
    by_cases hg : j < n
    · simp only [if_pos hg]
      rw [ih l n (j+1) _ (by omega)]
    · simp only [if_neg hg]

theorem selOuterF_eq (c : Cmp α) :
    ∀ fuel l n i, n - i < fuel →
      selOuterF c fuel l n i = some (selOuter c l n i) := by
  intro fuel
  induction fuel with
  | zero => intro l n i h; omega
  | succ fuel ih =>
    intro l n i h
    rw [selOuterF, selOuter]
    by_cases hg : i < n
    · simp only [if_pos hg]
      rw [ih _ n (i+1) (by omega)]
    · simp only [if_neg hg]

theorem insOuterF_eq (c : Cmp α) :
    ∀ fuel l n i, n - i < fuel →
      insOuterF c fuel l n i = some (insOuter c l n i) := by
  intro fuel
  induction fuel with
  | zero => intro l n i h; omega
  | succ fuel ih =>
    intro l n i h
    rw [insOuterF, insOuter]
    by_cases hg : i < n
    · simp only [if_pos hg]
      rw [ih _ n (i+1) (by omega)]
    · simp only [if_neg hg]

theorem partLoopF_eq (c : Cmp α) :
    ∀ fuel l high pivot i1 j, high - j < fuel →
      partLoopF c fuel l high pivot i1 j
        = some (partLoop c l high pivot i1 j) := by
  intro fuel
  induction fuel with
  | zero => intro l high pivot i1 j h; omega
  | succ fuel ih =>
    intro l high pivot i1 j h
    rw [partLoopF, partLoop]
    by_cases hg : j < high
    · simp only [if_pos hg]
      by_cases hle : c.leB (idx l j) pivot = true
      · simp only [if_pos hle]
        rw [ih _ high pivot (i1+1) (j+1) (by omega)]
      · simp only [if_neg hle]
        rw [ih l high pivot i1 (j+1) (by omega)]
    · simp only [if_neg hg]

theorem quickSortHelperF_eq (c : Cmp α) :
    ∀ fuel l low high, high - low < fuel →
      quickSortHelperF c fuel l low high
        = some (quickSortHelper c l low high) := by
  intro fuel
  induction fuel with
  | zero => intro l low high h; omega
  | succ fuel ih =>
    intro l low high h
    rw [quickSortHelperF, quickSortHelper]
    by_cases hg : low < high
    · have hpi := partition_pi_bounds c l low high
      simp only [if_pos hg, dif_pos hg]
      rw [ih (partition c l low high).1 low
          ((partition c l low high).2.1 - 1) (by omega)]
      dsimp only
      rw [ih (quickSortHelper c (partition c l low high).1 low
          ((partition c l low high).2.1 - 1)).1
          ((partition c l low high).2.1 + 1) high (by omega)]
    · simp only [if_neg hg, dif_neg hg]

theorem mergeLoopF_eq (c : Cmp α) :
    ∀ fuel l la ra i j k,
      (la.length - i) + (ra.length - j) < fuel →
      mergeLoopF c fuel l la ra i j k
        = some (mergeLoop c l la ra i j k) := by
  intro fuel
  induction fuel with
  | zero => intro l la ra i j k h; omega
  | succ fuel ih =>
    intro l la ra i j k h
    rw [mergeLoopF, mergeLoop]
    by_cases hg : i < la.length ∧ j < ra.length
    · simp only [if_pos hg]
      by_cases hle : c.leB (idx la i) (idx ra j) = true
      · simp only [if_pos hle]
        rw [ih _ la ra (i+1) j (k+1) (by omega)]
      · simp only [if_neg hle]
        rw [ih _ la ra i (j+1) (k+1) (by omega)]
    · simp only [if_neg hg]

theorem mergeDrainLF_eq :
    ∀ fuel (l la : List α) i k, la.length - i < fuel →
      mergeDrainLF fuel l la i k = some (mergeDrainL l la i k) := by
  intro fuel
  induction fuel with
  | zero => intro l la i k h; omega
  | succ fuel ih =>
    intro l la i k h
    rw [mergeDrainLF, mergeDrainL]
    by_cases hg : i < la.length
    · simp only [if_pos hg]
      rw [ih _ la (i+1) (k+1) (by omega)]
    · simp only [if_neg hg]

theorem mergeDrainRF_eq :
    ∀ fuel (l ra : List α) j k, ra.length - j < fuel →
      mergeDrainRF fuel l ra j k = some (mergeDrainR l ra j k) := by
  intro fuel
  induction fuel with
  | zero => intro l ra j k h; omega
  | succ fuel ih =>
    intro l ra j k h
    rw [mergeDrainRF, mergeDrainR]
    by_cases hg : j < ra.length
    · simp only [if_pos hg]
      rw [ih _ ra (j+1) (k+1) (by omega)]
    · simp only [if_neg hg]

theorem mergeSortHelperF_eq (c : Cmp α) :
    ∀ fuel l left right, right - left < fuel →
      mergeSortHelperF c fuel l left right
        = some (mergeSortHelper c l left right) := by
  intro fuel
  induction fuel with
  | zero => intro l left right h; omega
  | succ fuel ih =>
    intro l left right h
    rw [mergeSortHelperF, mergeSortHelper]
    by_cases hg : left < right
    · simp only [if_pos hg, dif_pos hg]
      rw [ih l left ((left + right) / 2) (by omega)]
      dsimp only
      rw [ih (mergeSortHelper c l left ((left + right) / 2)).1
          ((left + right) / 2 + 1) right (by omega)]
    · simp only [if_neg hg, dif_neg hg]

theorem heapifyF_eq (c : Cmp α) :
    ∀ fuel l n i, n - i < fuel →
      heapifyF c fuel l n i = some (heapify c l n i) := by
  intro fuel
  induction fuel with
  | zero => intro l n i h; omega
  | succ fuel ih =>
    intro l n i h
    rw [heapifyF, heapify]
    by_cases hg : largestIdx c l n i ≠ i
    · have hb := largestIdx_bounds c l n i
      have hlt : i < largestIdx c l n i ∧ largestIdx c l n i < n := by
        rcases hb with hb | hb
        · exact absurd hb hg
        · exact hb
      simp only [if_pos hg, dif_pos hg]
      rw [ih _ n (largestIdx c l n i) (by omega)]
    · simp only [if_neg hg, dif_neg hg]

theorem shellInnerF_eq (c : Cmp α) :
    ∀ fuel (l : List α) gap temp j, j < fuel →
      shellInnerF c fuel l gap temp j
        = some (shellInner c l gap temp j) := by
  intro fuel
  induction fuel with
  | zero => intro l gap temp j h; omega
  | succ fuel ih =>
    intro l gap temp j h
    rw [shellInnerF, shellInner]
    by_cases hg : 0 < gap ∧ gap ≤ j
    · simp only [if_pos hg, dif_pos hg]
      by_cases hgt : c.gtB (idx l (j - gap)) temp = true
      · simp only [if_pos hgt]
        rw [ih _ gap temp (j - gap) (by omega)]
      · simp only [if_neg hgt]
    · simp only [if_neg hg, dif_neg hg]

theorem shellIF_eq (c : Cmp α) :
    ∀ fuel l n gap i, n - i < fuel →
      shellIF c fuel l n gap i = some (shellI c l n gap i) := by
  intro fuel
  induction fuel with
  | zero => intro l n gap i h; omega
  | succ fuel ih =>
    intro l n gap i h
    rw [shellIF, shellI]
    by_cases hg : i < n
    · simp only [if_pos hg]
      rw [ih _ n gap (i+1) (by omega)]
    · simp only [if_neg hg]

theorem shellGapF_eq (c : Cmp α) :
    ∀ fuel l n gap, gap < fuel →
      shellGapF c fuel l n gap = some (shellGap c l n gap) := by
  intro fuel
  induction fuel with
  | zero => intro l n gap h; omega
  | succ fuel ih =>
    intro l n gap h
    rw [shellGapF, shellGap]
    by_cases hg : 0 < gap
    · simp only [if_pos hg, dif_pos hg]
      rw [ih _ n (gap / 2) (by omega)]
    · simp only [if_neg hg, dif_neg hg]


/-- C9: every non-structural loop and recursion of the seven algorithms
(the recursions of `quickSortHelper`, `mergeSortHelper` and `heapify`,
and the loops of the iterative sorts, including shell sort's gap and
gapped-insertion loops) terminates within an explicit fuel bound: the
fuel-limited mirror run with `measure + 1` units of fuel never runs out
and returns exactly the total function's result, so every run produces
a finite step sequence and returns. -/
theorem every_loop_terminates_within_explicit_fuel (c : Cmp α) :
    (∀ l n i j, bubbleInnerF c (n - j + 1) l n i j
      = some (bubbleInner c l n i j)) ∧
    (∀ l n i, bubbleOuterF c (n - i + 1) l n i
      = some (bubbleOuter c l n i)) ∧
    (∀ l n j minIndex, selScanF c (n - j + 1) l n j minIndex
      = some (selScan c l n j minIndex)) ∧
    (∀ l n i, selOuterF c (n - i + 1) l n i
      = some (selOuter c l n i)) ∧
    (∀ l n i, insOuterF c (n - i + 1) l n i
      = some (insOuter c l n i)) ∧
    (∀ l high pivot i1 j, partLoopF c (high - j + 1) l high pivot i1 j
      = some (partLoop c l high pivot i1 j)) ∧
    (∀ l low high, quickSortHelperF c (high - low + 1) l low high
      = some (quickSortHelper c l low high)) ∧
    (∀ l la ra i j k,
      mergeLoopF c ((la.length - i) + (ra.length - j) + 1) l la ra i j k
        = some (mergeLoop c l la ra i j k)) ∧
    (∀ (l la : List α) i k, mergeDrainLF (la.length - i + 1) l la i k
      = some (mergeDrainL l la i k)) ∧
    (∀ (l ra : List α) j k, mergeDrainRF (ra.length - j + 1) l ra j k
      = some (mergeDrainR l ra j k)) ∧
    (∀ l left right, mergeSortHelperF c (right - left + 1) l left right
      = some (mergeSortHelper c l left right)) ∧
    (∀ l n i, heapifyF c (n - i + 1) l n i = some (heapify c l n i)) ∧
    (∀ (l : List α) gap temp j, shellInnerF c (j + 1) l gap temp j
      = some (shellInner c l gap temp j)) ∧
    (∀ l n gap i, shellIF c (n - i + 1) l n gap i
      = some (shellI c l n gap i)) ∧
    (∀ l n gap, shellGapF c (gap + 1) l n gap
      = some (shellGap c l n gap)) :=
  ⟨fun l n i j => bubbleInnerF_eq c (n - j + 1) l n i j (by omega),
    fun l n i => bubbleOuterF_eq c (n - i + 1) l n i (by omega),
    fun l n j minIndex => selScanF_eq c (n - j + 1) l n j minIndex (by omega),
    fun l n i => selOuterF_eq c (n - i + 1) l n i (by omega),
    fun l n i => insOuterF_eq c (n - i + 1) l n i (by omega),
    fun l high pivot i1 j =>
      partLoopF_eq c (high - j + 1) l high pivot i1 j (by omega),
    fun l low high =>
      quickSortHelperF_eq c (high - low + 1) l low high (by omega),
    fun l la ra i j k =>
      mergeLoopF_eq c ((la.length - i) + (ra.length - j) + 1) l la ra i j k
        (by omega),
    fun l la i k => mergeDrainLF_eq (la.length - i + 1) l la i k (by omega),
    fun l ra j k => mergeDrainRF_eq (ra.length - j + 1) l ra j k (by omega),
    fun l left right =>
      mergeSortHelperF_eq c (right - left + 1) l left right (by omega),
    fun l n i => heapifyF_eq c (n - i + 1) l n i (by omega),
    fun l gap temp j => shellInnerF_eq c (j + 1) l gap temp j (by omega),
    fun l n gap i => shellIF_eq c (n - i + 1) l n gap i (by omega),
    fun l n gap => shellGapF_eq c (gap + 1) l n gap (by omega)⟩

end SortVis
